import Mathlib

/-!
Root resolution of the kustomize build action

A shallow embedding of the path functions of `src/roots.go`,
`src/roots_filter.go` and `src/scanner.go` and of `verifySHA256` of
`src/installer.go`, followed by the properties proved about them.

Modelling conventions:

* A Go `string` is modelled as a `List Char`: the list of Unicode code points of a
  well-formed UTF-8 string.  On such strings the byte-wise operations used by the
  source (`strings.HasPrefix`, `strings.TrimPrefix`, `strings.Trim` with an ASCII
  cutset, `strings.ReplaceAll` of an ASCII byte, `==`) coincide with the same
  operations on code points, because an ASCII byte never occurs inside a
  multi-byte UTF-8 sequence and UTF-8 is a prefix-free code.
* `len(s)` is the number of bytes of `s`; it is modelled by `len`, the sum of the
  UTF-8 sizes of the code points.
* A Go `map[string]bool` used as a set is modelled by the list of its keys;
  lookup `m[k]` is list membership.
* Go compares strings byte-wise; on well-formed UTF-8 that is the lexicographic
  order of the code points, the order `≤` of `List Char`.  `sort.Strings` is
  modelled by insertion sort for that order: equal strings are indistinguishable,
  so every correct sort returns the same list.
* A slice built by `append` in a loop is modelled by a left fold that appends at
  the end.
* A slice is modelled by the list of its elements; that list does not tell the
  `nil` slice from the empty slice.  Where the difference is the point,
  the slice value is an `Option`: `none` for `nil`, `some l` for a slice that is
  not `nil` (`Slice`, `selectRootsForChangedFilesSlice`).
* The `path/filepath` functions are modelled for a system whose separator is `/`
  (`filepath.ToSlash` is then the identity), from their documented behaviour:
  `cleanPath`, `joinPath`, `basePath`, `dirPath` and `relPath` work on the path
  elements between slashes.
* The file system under the scan root is a tree of named entries.  A name is a
  file name: not empty, without `/`, and neither `.` nor `..` (`isFileName`).
  `filepathWalkDir` follows `filepath.WalkDir`: the callback sees the root first, a
  directory before its entries, and `fs.SkipDir` prunes a directory.  The root is
  absent when `os.Lstat` fails on it; a directory may fail to be read.
* `unicode.ToLower` and SHA-256 are not modelled: they are parameters of
  `verifySHA256`.  A byte is a natural number below 256.
-/

namespace Kustomize

/-- A Go string, as the list of its code points. -/
abbrev Str := List Char

/-- Go `len(s)`: the length of the string in bytes. -/
def len (s : Str) : Nat := (s.map Char.utf8Size).sum

/-- Go `unicode.IsSpace`: the code points with the Unicode White_Space property. -/
def isSpace (c : Char) : Bool :=
  let n := c.toNat
  (0x09 ≤ n && n ≤ 0x0D) || n == 0x20 || n == 0x85 || n == 0xA0 || n == 0x1680 ||
  (0x2000 ≤ n && n ≤ 0x200A) || n == 0x2028 || n == 0x2029 || n == 0x202F ||
  n == 0x205F || n == 0x3000

/-- Go `strings.TrimSpace`: remove leading and trailing white space. -/
def trimSpace (s : Str) : Str := (s.dropWhile isSpace).rdropWhile isSpace

/-- Go `strings.ReplaceAll(s, old, new)` for one-character `old` and `new`. -/
def replaceAll (s : Str) (old new : Char) : Str :=
  s.map (fun c => if c = old then new else c)

/-- Go `strings.HasPrefix`. -/
def hasPrefix (s pre : Str) : Bool := pre.isPrefixOf s

/-- Go `strings.TrimPrefix`: remove `pre` once from the front when it is there. -/
def trimPrefix (s pre : Str) : Str := if hasPrefix s pre then s.drop pre.length else s

/-- Go `strings.Trim(s, cutset)` for a cutset of one ASCII character. -/
def trim (s : Str) (c : Char) : Str := (s.rdropWhile (· == c)).dropWhile (· == c)

/-- The sentinel root `"."`, the current directory. -/
def dot : Str := ['.']

/-- Embedding of `normalizeRepoRelativeDir` (`src/roots.go`). -/
def normalizeRepoRelativeDir (dir : Str) : Str :=
  let d := trimSpace dir
  if d = [] then dot
  else
    let d := replaceAll d '\\' '/'
    let d := trimPrefix d ['.', '/']
    let d := trim d '/'
    if d = [] ∨ d = dot then dot else d

/-- Embedding of `normalizeRepoRelativePath` (`src/roots_filter.go`). -/
def normalizeRepoRelativePath (path : Str) : Str :=
  let p := trimSpace path
  let p := replaceAll p '\\' '/'
  let p := trimPrefix p ['.', '/']
  let p := trimPrefix p ['/']
  let p := trim p '/'
  p

/-- Embedding of `rootPrefixesFile` (`src/roots_filter.go`). -/
def rootPrefixesFile (root file : Str) : Bool :=
  let root := normalizeRepoRelativeDir root
  let file := normalizeRepoRelativePath file
  if root = dot then true
  else if file = [] ∨ file = dot then decide (root = dot)
  else decide (file = root) || hasPrefix file (root ++ ['/'])

/-- The match length the selection loop gives a normalized root: its byte length,
with the sentinel counted as zero. -/
def matchLen (root : Str) : Int := if root = dot then 0 else (len root : Int)

/-- One iteration of the inner loop of `selectRootsForChangedFiles`: the state is
`(best, bestLen)`, `file` is the normalized changed file and `r` the next root. -/
def bestStep (file : Str) (st : Str × Int) (r : Str) : Str × Int :=
  let root := normalizeRepoRelativeDir r
  if !rootPrefixesFile root file then st
  else
    let l := matchLen root
    if l > st.2 then (root, l) else st

/-- The inner loop of `selectRootsForChangedFiles`, started at `best = ""`,
`bestLen = -1`; the result is the final `(best, bestLen)`. -/
def bestRoot (roots : List Str) (file : Str) : Str × Int :=
  roots.foldl (bestStep file) ([], -1)

/-- One iteration of the outer loop of `selectRootsForChangedFiles`: the state is
the key set of the map `selected`. -/
def selectStep (roots : List Str) (selected : List Str) (f : Str) : List Str :=
  let file := normalizeRepoRelativePath f
  let best := (bestRoot roots file).1
  if best ≠ [] then best :: selected else selected

/-- The key set of `selected` after the outer loop of `selectRootsForChangedFiles`. -/
def selectedRoots (roots changedFiles : List Str) : List Str :=
  changedFiles.foldl (selectStep roots) []

/-- Embedding of `selectRootsForChangedFiles` (`src/roots_filter.go`). -/
def selectRootsForChangedFiles (roots changedFiles : List Str) : List Str :=
  if roots.length = 0 ∨ changedFiles.length = 0 then []
  else
    let selected := selectedRoots roots changedFiles
    (roots.map normalizeRepoRelativeDir).filter (fun root => decide (root ∈ selected))

/-- A Go slice value of strings, where being `nil` matters: `none` is the `nil`
slice, `some l` a slice that is not `nil` and holds the elements `l`.  The literal
`[]string{}` and `make([]string, 0, n)` are `some []`; `len` is 0 for `none` and for
`some []`. -/
abbrev Slice := Option (List Str)

/-- Go `append(s, x)`: the elements of `s` followed by `x`; the result is never
`nil`. -/
def sliceAppend (s : Slice) (x : Str) : Slice := some (s.getD [] ++ [x])

/-- One iteration of the output loop of `selectRootsForChangedFiles`: `selected` is
the key set of the map, `out` the slice value built so far and `r` the next root. -/
def selectOutStep (selected : List Str) (out : Slice) (r : Str) : Slice :=
  let root := normalizeRepoRelativeDir r
  if root ∈ selected then sliceAppend out root else out

/-- Embedding of `selectRootsForChangedFiles` (`src/roots_filter.go`) that returns
the slice value, keeping the `nil` slice and the empty slice apart: the guard
returns the literal `[]string{}`, and the output loop appends to
`make([]string, 0, len(selected))`.  The arguments are read through `len` and
`range` only, so for them `nil` and empty need not be told apart. -/
def selectRootsForChangedFilesSlice (roots changedFiles : List Str) : Slice :=
  if roots.length = 0 ∨ changedFiles.length = 0 then some []
  else
    let selected := selectedRoots roots changedFiles
    roots.foldl (selectOutStep selected) (some [])

/-- One iteration of the loop of `mapRootsToRepoRootRelative`: `wd` is the
normalized working directory, `out` the slice built so far and `r` the next root. -/
def mapStep (wd : Str) (out : List Str) (r : Str) : List Str :=
  let root := normalizeRepoRelativeDir r
  let root := if root = dot then [] else root
  if root = [] then out ++ [wd]
  else if wd = dot then out ++ [root]
  else out ++ [wd ++ ['/'] ++ root]

/-- Embedding of `mapRootsToRepoRootRelative` (`src/roots.go`). -/
def mapRootsToRepoRootRelative (workingDir : Str) (roots : List Str) : List Str :=
  let wd := normalizeRepoRelativeDir workingDir
  roots.foldl (mapStep wd) []

/-- Go `strings.HasSuffix`. -/
def hasSuffix (s suf : Str) : Bool := suf.isSuffixOf s

/-- Go `strings.TrimSuffix`: remove `suf` once from the end when it is there. -/
def trimSuffix (s suf : Str) : Str :=
  if hasSuffix s suf then s.take (s.length - suf.length) else s

/-- Go `sort.Strings`: the strings in ascending byte-wise order. -/
def sortStrings (l : List Str) : List Str := l.insertionSort (· ≤ ·)

/-- One iteration of the outer loop of `dedupeTopLevelDirs`: `keep` is the slice of
kept roots and `p` the next path; the inner loop with `break` is `List.any`. -/
def dedupeStep (keep : List Str) (p : Str) : List Str :=
  let p := trimSuffix p ['/']
  let skip := keep.any (fun k => decide (p = k) || hasPrefix p (k ++ ['/']))
  if !skip then keep ++ [p] else keep

/-- Embedding of `dedupeTopLevelDirs` (`src/scanner.go`). -/
def dedupeTopLevelDirs (paths : List Str) : List Str :=
  if paths.length = 0 then paths
  else (sortStrings paths).foldl dedupeStep []

/-- The path element `".."`. -/
def dotdot : Str := ['.', '.']

/-- A file name: not empty, without a slash, and neither `"."` nor `".."`. -/
def isFileName (n : Str) : Bool :=
  decide (n ≠ []) && !n.contains '/' && decide (n ≠ dot) && decide (n ≠ dotdot)

/-- A path is rooted when it begins with a slash. -/
def isRooted (p : Str) : Bool := hasPrefix p ['/']

/-- One path element in `filepath.Clean`.  `out` holds the elements written so far,
the last one first.  Empty elements and `"."` are dropped; `".."` removes the
element before it, is kept when there is nothing to remove on a path that is not
rooted, and is dropped at the top of a rooted path. -/
def cleanStep (rooted : Bool) (out : List Str) (c : Str) : List Str :=
  if c = [] ∨ c = dot then out
  else if c = dotdot then
    match out with
    | [] => if rooted then [] else [c]
    | t :: rest => if t = dotdot then c :: t :: rest else rest
  else c :: out

/-- The elements `filepath.Clean` keeps, in path order. -/
def cleanElems (p : Str) : List Str :=
  ((p.splitOn '/').foldl (cleanStep (isRooted p)) []).reverse

/-- The path with the given elements; the empty path is written `"."`. -/
def renderPath (rooted : Bool) (elems : List Str) : Str :=
  let s := (if rooted then ['/'] else []) ++ ['/'].intercalate elems
  if s = [] then dot else s

/-- Go `filepath.Clean`. -/
def cleanPath (p : Str) : Str :=
  if p = [] then dot else renderPath (isRooted p) (cleanElems p)

/-- Go `filepath.Join` of two elements: empty elements are ignored and the result
is cleaned. -/
def joinPath (a b : Str) : Str :=
  if a ≠ [] then cleanPath (a ++ ['/'] ++ b)
  else if b ≠ [] then cleanPath b
  else []

/-- Go `filepath.Base`: the last element of the path, trailing slashes removed. -/
def basePath (p : Str) : Str :=
  if p = [] then dot
  else
    let q := p.rdropWhile (· == '/')
    let r := q.rtakeWhile (· != '/')
    if r = [] then ['/'] else r

/-- Go `filepath.Dir`: all but the last element of the path, cleaned. -/
def dirPath (p : Str) : Str := cleanPath (p.rdropWhile (· != '/'))

/-- The elements `filepath.Rel` compares, for a cleaned path (`""` stands for a
base `"."`). -/
def relElems (s : Str) : List Str :=
  if s = [] then [] else if s = ['/'] then [[]] else s.splitOn '/'

/-- Remove the common leading elements of two element lists. -/
def stripCommon : List Str → List Str → List Str × List Str
  | a :: as, b :: bs => if a = b then stripCommon as bs else (a :: as, b :: bs)
  | as, bs => (as, bs)

/-- Go `filepath.Rel`; `none` is the error "can't make targpath relative to
basepath". -/
def relPath (basepath targpath : Str) : Option Str :=
  let base := cleanPath basepath
  let targ := cleanPath targpath
  if targ = base then some dot
  else
    let base := if base = dot then [] else base
    if isRooted base != isRooted targ then none
    else
      let rest := stripCommon (relElems base) (relElems targ)
      if rest.1.head? = some dotdot then none
      else some (['/'].intercalate (rest.1.map (fun _ => dotdot) ++ rest.2))

/-- Embedding of `relDir` (`src/scanner.go`). -/
def relDir (base dir : Str) : Str :=
  let rel := match relPath base dir with
    | some r => r
    | none => dir
  let rel := trimPrefix rel ['.', '/']
  let rel := trim rel '/'
  if rel = dot then [] else rel

/-- One iteration of the first loop of `uniqueSorted`: `m` is the key set of the
map. -/
def uniqueSortedStep (m : List Str) (s : Str) : List Str :=
  let s := if s = dot then [] else s
  if s ∈ m then m else m ++ [s]

/-- Embedding of `uniqueSorted` (`src/scanner.go`): the keys of the map, sorted. -/
def uniqueSorted (input : List Str) : List Str :=
  sortStrings (input.foldl uniqueSortedStep [])

/-- Embedding of `kustomizationDirsFromFiles` (`src/scanner.go`). -/
def kustomizationDirsFromFiles (files : List Str) (base : Str) : List Str :=
  uniqueSorted (files.foldl (fun dirs f => dirs ++ [relDir base (dirPath f)]) [])

/-- An entry of the file system: a non-directory, or a directory with its entries
by name, in the order `os.ReadDir` returns them; `readErr` says that reading the
directory fails (the entries are then those returned with the error). -/
inductive Node where
  | file : Node
  | dir (readErr : Bool) (children : List (Str × Node)) : Node

/-- What a `fs.WalkDirFunc` returns: `nil`, `fs.SkipDir` or another error. -/
inductive WalkResult where
  | ok : WalkResult
  | skipDir : WalkResult
  | fail : WalkResult
  deriving DecidableEq

mutual
/-- Go `walkDir` of `path/filepath`: `fn` gets the path, whether the entry is a
directory (`none` when there is no entry) and whether an error is reported, and
threads the state `σ` of the closure. -/
def walkDir {σ : Type} (fn : Str → Option Bool → Bool → σ → WalkResult × σ) (path : Str) :
    Node → σ → WalkResult × σ
  | .file, s => fn path (some false) false s
  | .dir readErr children, s =>
    match fn path (some true) false s with
    | (.ok, s1) =>
      if readErr then
        match fn path (some true) true s1 with
        | (.ok, s2) => walkDirEntries fn path children s2
        | (.skipDir, s2) => (.ok, s2)
        | (.fail, s2) => (.fail, s2)
      else walkDirEntries fn path children s1
    | (.skipDir, s1) => (.ok, s1)
    | (.fail, s1) => (.fail, s1)
/-- The loop of `walkDir` over the entries of a directory; `fs.SkipDir` from an
entry ends the loop. -/
def walkDirEntries {σ : Type} (fn : Str → Option Bool → Bool → σ → WalkResult × σ)
    (path : Str) : List (Str × Node) → σ → WalkResult × σ
  | [], s => (.ok, s)
  | (name, d1) :: rest, s =>
    match walkDir fn (joinPath path name) d1 s with
    | (.ok, s1) => walkDirEntries fn path rest s1
    | (.skipDir, s1) => (.ok, s1)
    | (.fail, s1) => (.fail, s1)
end

/-- Go `filepath.WalkDir`: `tree` is what `os.Lstat(root)` finds, `none` when it
fails. -/
def filepathWalkDir {σ : Type} (fn : Str → Option Bool → Bool → σ → WalkResult × σ)
    (root : Str) (tree : Option Node) (s : σ) : WalkResult × σ :=
  let r := match tree with
    | none => fn root none true s
    | some d => walkDir fn root d s
  if r.1 = WalkResult.skipDir then (WalkResult.ok, r.2) else r

/-- One iteration of the exclusion loop of `findKustomizationFilesWithExclusions`:
the state is the pair of key sets `(excludedBase, excludedRel)`. -/
def exclusionStep (st : List Str × List Str) (e : Str) : List Str × List Str :=
  let e := trimSpace e
  if e = [] then st
  else
    let clean := cleanPath e
    let b := basePath clean
    let excludedBase := if b = ".git".toList then b :: st.1 else st.1
    let rel := clean
    let rel := trimPrefix rel ['.', '/']
    let rel := trim rel '/'
    let excludedRel := if rel ≠ [] ∧ rel ≠ dot then rel :: st.2 else st.2
    (excludedBase, excludedRel)

/-- The callback `findKustomizationFilesWithExclusions` passes to
`filepath.WalkDir`; the state is the slice `files`. -/
def scanVisit (root : Str) (excludedBase excludedRel : List Str) (path : Str)
    (d : Option Bool) (err : Bool) (files : List Str) : WalkResult × List Str :=
  if err then (.ok, files)
  else if d = some true then
    let base := basePath path
    if base ∈ excludedBase then (.skipDir, files)
    else
      let rel := relDir root path
      if rel ≠ [] ∧ rel ∈ excludedRel then (.skipDir, files)
      else (.ok, files)
  else
    let base := basePath path
    if base = "kustomization.yaml".toList ∨ base = "kustomization.yml".toList then
      (.ok, files ++ [path])
    else (.ok, files)

/-- Embedding of `findKustomizationFilesWithExclusions` (`src/scanner.go`); `tree`
is the file system at `root`.  The result is `none` when an error is returned and
the file list otherwise. -/
def findKustomizationFilesWithExclusions (root : Str) (tree : Option Node)
    (excludedDirs : List Str) : Option (List Str) :=
  let excluded := excludedDirs.foldl exclusionStep ([], [])
  let r := filepathWalkDir (scanVisit root excluded.1 excluded.2) root tree []
  if r.1 ≠ WalkResult.ok then none
  else some (sortStrings r.2)

/-- Embedding of `findKustomizationFiles` (`src/scanner.go`). -/
def findKustomizationFiles (root : Str) (tree : Option Node) : Option (List Str) :=
  findKustomizationFilesWithExclusions root tree [".git".toList]

/-- Go `hextable`: the lower-case hexadecimal digit of a value below 16. -/
def hexDigit (n : Nat) : Char := "0123456789abcdef".toList.getD n '0'

/-- Go `hex.EncodeToString`: two hexadecimal digits for each byte. -/
def hexEncode (bytes : List Nat) : Str :=
  bytes.flatMap (fun b => [hexDigit (b % 256 / 16), hexDigit (b % 16)])

/-- The errors `verifySHA256` returns: the digest has not 64 bytes (with the length
found), the file cannot be opened or read, or the digests differ. -/
inductive VerifyError where
  | invalidLength (got : Nat) : VerifyError
  | openFailed : VerifyError
  | mismatch (expected actual : Str) : VerifyError
  deriving DecidableEq

/-- Embedding of `verifySHA256` (`src/installer.go`).  `toLower` is
`unicode.ToLower`, `sha256Sum` the SHA-256 digest of a byte sequence, `file` the
content of the file at `path`, `none` when it cannot be opened or read.  The result
is the error returned, `none` for `nil`. -/
def verifySHA256 (toLower : Char → Char) (sha256Sum : List Nat → List Nat)
    (file : Option (List Nat)) (expected : Str) : Option VerifyError :=
  let expected := trimSpace (expected.map toLower)
  if expected = [] then none
  else
    let expected := trimPrefix expected "sha256:".toList
    let expected := expected.filter (· != ' ')
    if len expected ≠ 64 then some (VerifyError.invalidLength (len expected))
    else
      match file with
      | none => some VerifyError.openFailed
      | some content =>
        let actual := hexEncode (sha256Sum content)
        if actual ≠ expected then some (VerifyError.mismatch expected actual)
        else none

/-- ASCII lower-casing, the restriction of `unicode.ToLower` to ASCII. -/
def asciiToLower (c : Char) : Char :=
  if 65 ≤ c.toNat ∧ c.toNat ≤ 90 then Char.ofNat (c.toNat + 32) else c

/-- The elements written by `filepath.Clean`, last one first, are in canonical form:
each is a non-empty name without a slash other than `"."`, and `".."` occurs only
at the start of a path that is not rooted. -/
def canonStack (rooted : Bool) : List Str → Prop
  | [] => True
  | c :: rest =>
    (c ≠ [] ∧ '/' ∉ c ∧ c ≠ dot) ∧
    (c = dotdot → rooted = false ∧ (rest = [] ∨ rest.head? = some dotdot)) ∧
    canonStack rooted rest

/-- The path `filepath.WalkDir` gives the entry reached from `root` through the
names `comps`: each step is a `filepath.Join`. -/
def walkPath (root : Str) (comps : List Str) : Str := comps.foldl joinPath root

mutual
/-- Specification side: the entries of a tree, each with the list of names leading
to it from the top of the tree and whether it is a directory. -/
def treeEntries : Node → List (List Str × Bool)
  | .file => [([], false)]
  | .dir _ children => ([], true) :: childEntries children
/-- Specification side: the entries below a directory with the given entries. -/
def childEntries : List (Str × Node) → List (List Str × Bool)
  | [] => []
  | (name, d) :: rest =>
    (treeEntries d).map (fun e => (name :: e.1, e.2)) ++ childEntries rest
end

mutual
/-- Every name in the tree is a file name. -/
def validTree : Node → Bool
  | .file => true
  | .dir _ children => validChildren children
/-- Every name among the entries and below them is a file name. -/
def validChildren : List (Str × Node) → Bool
  | [] => true
  | (name, d) :: rest => isFileName name && validTree d && validChildren rest
end

/-- The two names of a descriptor file. -/
def descriptorNames : List Str := ["kustomization.yaml".toList, "kustomization.yml".toList]

/-- The callback of the scan prunes the directory reached through `comps`. -/
def prunedAt (root : Str) (excludedBase excludedRel : List Str) (comps : List Str) : Prop :=
  basePath (walkPath root comps) ∈ excludedBase ∨
    (relDir root (walkPath root comps) ≠ [] ∧ relDir root (walkPath root comps) ∈ excludedRel)

/-- No directory on the way from `pre` down through the names `c` is pruned; the
entry at the end of `c` itself is not tested. -/
def notPruned (root : Str) (excludedBase excludedRel : List Str) :
    List Str → List Str → Prop
  | _, [] => True
  | pre, n :: c =>
    ¬ prunedAt root excludedBase excludedRel pre ∧
      notPruned root excludedBase excludedRel (pre ++ [n]) c

/-- The slice `files` of `findKustomizationFilesWithExclusions` when
`filepath.WalkDir` returns, before it is sorted: the paths in the order of the
visit. -/
def collectedFiles (root : Str) (tree : Option Node) (excludedDirs : List Str) : List Str :=
  let excluded := excludedDirs.foldl exclusionStep ([], [])
  (filepathWalkDir (scanVisit root excluded.1 excluded.2) root tree []).2

mutual
/-- The same tree with every read error removed. -/
def clearReadErrors : Node → Node
  | .file => .file
  | .dir _ children => .dir false (clearReadErrorsList children)
/-- The same entries with every read error removed. -/
def clearReadErrorsList : List (Str × Node) → List (Str × Node)
  | [] => []
  | (name, d) :: rest => (name, clearReadErrors d) :: clearReadErrorsList rest
end

/-- The tree of the scanner tests: descriptor files in `.git`, `apps/.git`,
`apps/kustomize-builds`, `apps/other` and `kustomize-builds`. -/
def exampleTree : Node :=
  .dir false [
    (".git".toList, .dir false [("kustomization.yaml".toList, .file)]),
    ("apps".toList, .dir false [
      (".git".toList, .dir false [("kustomization.yaml".toList, .file)]),
      ("kustomize-builds".toList, .dir false [("kustomization.yaml".toList, .file)]),
      ("other".toList, .dir true [("kustomization.yaml".toList, .file),
        ("readme.md".toList, .file)])]),
    ("kustomize-builds".toList, .dir false [("kustomization.yaml".toList, .file)])]

/-- The entries of `exampleTree`, returned by `os.ReadDir` in the reverse order. -/
def exampleTreeReversed : Node :=
  .dir false [
    ("kustomize-builds".toList, .dir false [("kustomization.yaml".toList, .file)]),
    ("apps".toList, .dir false [
      ("other".toList, .dir true [("readme.md".toList, .file),
        ("kustomization.yaml".toList, .file)]),
      ("kustomize-builds".toList, .dir false [("kustomization.yaml".toList, .file)]),
      (".git".toList, .dir false [("kustomization.yaml".toList, .file)])]),
    (".git".toList, .dir false [("kustomization.yaml".toList, .file)])]

/-! ## Elementary facts about the string primitives -/

theorem trimSpace_sublist (s : Str) : (trimSpace s).Sublist s :=
  ((List.rdropWhile_prefix isSpace _).sublist).trans (List.dropWhile_suffix isSpace).sublist

theorem trim_sublist (s : Str) (c : Char) : (trim s c).Sublist s :=
  ((List.dropWhile_suffix _).sublist).trans (List.rdropWhile_prefix _ _).sublist

theorem trimPrefix_suffix (s pre : Str) : trimPrefix s pre <:+ s := by
  unfold trimPrefix
  split
  · exact List.drop_suffix _ _
  · exact List.suffix_refl _

theorem replaceAll_length (s : Str) (a b : Char) : (replaceAll s a b).length = s.length := by
  simp [replaceAll]

theorem replaceAll_not_mem (s : Str) (a b : Char) (hab : a ≠ b) : a ∉ replaceAll s a b := by
  intro h
  simp only [replaceAll, List.mem_map] at h
  obtain ⟨c, _, hc⟩ := h
  by_cases hca : c = a
  · rw [if_pos hca] at hc
    exact hab hc.symm
  · rw [if_neg hca] at hc
    exact hca hc

theorem replaceAll_eq_self (s : Str) (a b : Char) (h : a ∉ s) : replaceAll s a b = s := by
  induction s with
  | nil => rfl
  | cons x xs ih =>
    have hx : x ≠ a := fun e => h (e ▸ List.mem_cons_self _ _)
    have hxs : a ∉ xs := fun e => h (List.mem_cons_of_mem _ e)
    have ih2 := ih hxs
    simp only [replaceAll] at ih2 ⊢
    simp [hx, ih2]

theorem hasPrefix_iff (s pre : Str) : hasPrefix s pre = true ↔ pre <+: s := by
  simp [hasPrefix]

/-- The sentinel is a fixed point of the directory normalizer. -/
theorem normalizeRepoRelativeDir_dot : normalizeRepoRelativeDir dot = dot := by decide

/-- The directory normalizer never returns the empty string. -/
theorem normalizeRepoRelativeDir_ne_nil (p : Str) : normalizeRepoRelativeDir p ≠ [] := by
  unfold normalizeRepoRelativeDir
  simp only
  split
  · simp [dot]
  · split
    · simp [dot]
    · rename_i h
      exact fun e => h (Or.inl e)

/-- The sentinel root matches every file. -/
theorem rootPrefixesFile_dot (file : Str) : rootPrefixesFile dot file = true := by
  simp [rootPrefixesFile, normalizeRepoRelativeDir_dot]

/-- A drop-from-both-ends is the identity exactly when neither end is dropped. -/
theorem rdropWhile_dropWhile_eq_self_iff (q : Char → Bool) (s : Str) :
    (s.dropWhile q).rdropWhile q = s ↔ s.dropWhile q = s ∧ s.rdropWhile q = s := by
  constructor
  · intro h
    have h1 : (s.dropWhile q).rdropWhile q <+: s.dropWhile q := List.rdropWhile_prefix q _
    have h2 : s.dropWhile q <:+ s := List.dropWhile_suffix q
    have hlen : s.length ≤ (s.dropWhile q).length := by
      have := h1.length_le
      rw [h] at this
      exact this
    have e2 : s.dropWhile q = s := h2.eq_of_length_le hlen
    rw [e2] at h
    exact ⟨e2, h⟩
  · rintro ⟨h1, h2⟩
    rw [h1, h2]

theorem trimSpace_eq_self_iff (s : Str) :
    trimSpace s = s ↔ s.dropWhile isSpace = s ∧ s.rdropWhile isSpace = s :=
  rdropWhile_dropWhile_eq_self_iff isSpace s

/-- The result of `trim` neither begins nor ends with the trimmed character. -/
theorem trim_fixed (s : Str) (c : Char) :
    (trim s c).dropWhile (· == c) = trim s c ∧ (trim s c).rdropWhile (· == c) = trim s c := by
  constructor
  · exact List.dropWhile_idempotent _ _
  · rw [List.rdropWhile_eq_self_iff]
    intro hl
    have hsuf : trim s c <:+ s.rdropWhile (· == c) := List.dropWhile_suffix _
    rw [hsuf.getLast hl]
    exact List.rdropWhile_last_not (fun x => x == c) s _

theorem trim_trim (s : Str) (c : Char) : trim (trim s c) c = trim s c := by
  obtain ⟨h1, h2⟩ := trim_fixed s c
  show ((trim s c).rdropWhile (· == c)).dropWhile (· == c) = trim s c
  rw [h2, h1]

/-- A string fixed by `trim` does not begin with the trimmed character. -/
theorem hasPrefix_singleton_of_trim_fixed (s : Str) (c : Char) (h : trim s c = s) :
    hasPrefix s [c] = false := by
  have hd : s.dropWhile (· == c) = s := by
    rw [← h]
    exact (trim_fixed s c).1
  cases s with
  | nil => rfl
  | cons a t =>
    by_cases hac : a = c
    · exfalso
      subst hac
      have hsuf : t.dropWhile (· == a) <:+ t := List.dropWhile_suffix _
      have hlen := hsuf.length_le
      have : (a :: t).dropWhile (· == a) = t.dropWhile (· == a) := by simp
      rw [this] at hd
      rw [hd] at hlen
      simp at hlen
    · have hca : c ≠ a := fun e => hac e.symm
      simp [hasPrefix, List.isPrefixOf, hca]

theorem trimPrefix_length_le (s pre : Str) : (trimPrefix s pre).length ≤ s.length :=
  (trimPrefix_suffix s pre).length_le

/-- `TrimPrefix` with a non-empty prefix leaves exactly the strings without that
prefix unchanged. -/
theorem trimPrefix_eq_self_iff (s pre : Str) (hpre : pre ≠ []) :
    trimPrefix s pre = s ↔ hasPrefix s pre = false := by
  unfold trimPrefix
  constructor
  · intro h
    by_contra hp
    have hp2 : hasPrefix s pre = true := by simpa using hp
    rw [if_pos hp2] at h
    have hle : pre.length ≤ s.length := ((hasPrefix_iff s pre).mp hp2).length_le
    have hpos : 0 < pre.length := List.length_pos.mpr hpre
    have := congrArg List.length h
    rw [List.length_drop] at this
    omega
  · intro h
    simp [h]

/-- A directory normalizer output has no backslash, is fixed by `Trim "/"` and is
not empty. -/
theorem normalizeRepoRelativeDir_shape (p : Str) :
    '\\' ∉ normalizeRepoRelativeDir p ∧
    trim (normalizeRepoRelativeDir p) '/' = normalizeRepoRelativeDir p ∧
    normalizeRepoRelativeDir p ≠ [] := by
  refine ⟨?_, ?_, normalizeRepoRelativeDir_ne_nil p⟩
  · unfold normalizeRepoRelativeDir
    simp only
    split
    · decide
    · split
      · decide
      · intro hmem
        have h1 := (trim_sublist _ _).subset hmem
        have h2 := (trimPrefix_suffix _ _).subset h1
        exact replaceAll_not_mem _ '\\' '/' (by decide) h2
  · unfold normalizeRepoRelativeDir
    simp only
    split
    · decide
    · split
      · decide
      · exact trim_trim _ _

/-- A file normalizer output has no backslash and is fixed by `Trim "/"`. -/
theorem normalizeRepoRelativePath_shape (p : Str) :
    '\\' ∉ normalizeRepoRelativePath p ∧
    trim (normalizeRepoRelativePath p) '/' = normalizeRepoRelativePath p := by
  unfold normalizeRepoRelativePath
  refine ⟨?_, trim_trim _ _⟩
  intro hmem
  have h1 := (trim_sublist _ _).subset hmem
  have h2 := (trimPrefix_suffix _ _).subset h1
  have h3 := (trimPrefix_suffix _ _).subset h2
  exact replaceAll_not_mem _ '\\' '/' (by decide) h3

/-- Fixed points of the directory normalizer among strings of normalized shape. -/
theorem normalizeRepoRelativeDir_fixed_iff (q : Str) (hbs : '\\' ∉ q)
    (htrim : trim q '/' = q) (hne : q ≠ []) :
    normalizeRepoRelativeDir q = q ↔
      trimSpace q = q ∧ hasPrefix q ['.', '/'] = false := by
  constructor
  · intro h
    by_cases hdot : q = dot
    · subst hdot
      decide
    · unfold normalizeRepoRelativeDir at h
      simp only at h
      split at h
      · exact absurd h.symm hdot
      · split at h
        · exact absurd h.symm hdot
        · have l1 := (trim_sublist (trimPrefix (replaceAll (trimSpace q) '\\' '/') ['.', '/'])
            '/').length_le
          have l2 := trimPrefix_length_le (replaceAll (trimSpace q) '\\' '/') ['.', '/']
          have l3 := replaceAll_length (trimSpace q) '\\' '/'
          have l4 := (trimSpace_sublist q).length_le
          rw [h] at l1
          have hts : trimSpace q = q := (trimSpace_sublist q).eq_of_length_le (by omega)
          rw [hts, replaceAll_eq_self q _ _ hbs] at l1 l2
          have htp : trimPrefix q ['.', '/'] = q :=
            (trimPrefix_suffix q _).eq_of_length_le (by omega)
          exact ⟨hts, (trimPrefix_eq_self_iff q _ (by simp)).mp htp⟩
  · rintro ⟨hts, hpre⟩
    unfold normalizeRepoRelativeDir
    simp only
    rw [hts, replaceAll_eq_self q _ _ hbs, (trimPrefix_eq_self_iff q _ (by simp)).mpr hpre,
      htrim, if_neg hne]
    split
    · rename_i h
      rcases h with h | h
      · exact absurd h hne
      · exact h.symm
    · rfl

/-- Fixed points of the file normalizer among strings of normalized shape. -/
theorem normalizeRepoRelativePath_fixed_iff (q : Str) (hbs : '\\' ∉ q)
    (htrim : trim q '/' = q) :
    normalizeRepoRelativePath q = q ↔
      trimSpace q = q ∧ hasPrefix q ['.', '/'] = false := by
  constructor
  · intro h
    unfold normalizeRepoRelativePath at h
    simp only at h
    have l1 := (trim_sublist (trimPrefix (trimPrefix (replaceAll (trimSpace q) '\\' '/')
      ['.', '/']) ['/']) '/').length_le
    have l0 := trimPrefix_length_le (trimPrefix (replaceAll (trimSpace q) '\\' '/')
      ['.', '/']) ['/']
    have l2 := trimPrefix_length_le (replaceAll (trimSpace q) '\\' '/') ['.', '/']
    have l3 := replaceAll_length (trimSpace q) '\\' '/'
    have l4 := (trimSpace_sublist q).length_le
    rw [h] at l1
    have hts : trimSpace q = q := (trimSpace_sublist q).eq_of_length_le (by omega)
    rw [hts, replaceAll_eq_self q _ _ hbs] at l1 l2 l0
    have htp : trimPrefix q ['.', '/'] = q :=
      (trimPrefix_suffix q _).eq_of_length_le (by omega)
    exact ⟨hts, (trimPrefix_eq_self_iff q _ (by simp)).mp htp⟩
  · rintro ⟨hts, hpre⟩
    unfold normalizeRepoRelativePath
    simp only
    rw [hts, replaceAll_eq_self q _ _ hbs, (trimPrefix_eq_self_iff q _ (by simp)).mpr hpre,
      (trimPrefix_eq_self_iff q _ (by simp)).mpr (hasPrefix_singleton_of_trim_fixed q '/' htrim),
      htrim]

/-! ## The selection loops -/

theorem matchLen_nonneg (root : Str) : 0 ≤ matchLen root := by
  unfold matchLen
  split
  · exact le_refl _
  · exact Int.ofNat_nonneg _

/-- Invariant of the inner loop: the running length never decreases, it bounds the
match length of every matching root seen, and the state is either untouched or
holds a matching normalized root together with its match length. -/
theorem foldl_bestStep_spec (file : Str) (roots : List Str) (st : Str × Int) :
    st.2 ≤ (roots.foldl (bestStep file) st).2 ∧
    (∀ r ∈ roots, rootPrefixesFile (normalizeRepoRelativeDir r) file = true →
      matchLen (normalizeRepoRelativeDir r) ≤ (roots.foldl (bestStep file) st).2) ∧
    (roots.foldl (bestStep file) st = st ∨
      ∃ r ∈ roots, rootPrefixesFile (normalizeRepoRelativeDir r) file = true ∧
        roots.foldl (bestStep file) st
          = (normalizeRepoRelativeDir r, matchLen (normalizeRepoRelativeDir r))) := by
  induction roots generalizing st with
  | nil => simp
  | cons x xs ih =>
    obtain ⟨h1, h2, h3⟩ := ih (bestStep file st x)
    simp only [List.foldl_cons]
    have hstep : st.2 ≤ (bestStep file st x).2 ∧
        (rootPrefixesFile (normalizeRepoRelativeDir x) file = true →
          matchLen (normalizeRepoRelativeDir x) ≤ (bestStep file st x).2) ∧
        (bestStep file st x = st ∨
          (rootPrefixesFile (normalizeRepoRelativeDir x) file = true ∧
            bestStep file st x
              = (normalizeRepoRelativeDir x, matchLen (normalizeRepoRelativeDir x)))) := by
      unfold bestStep
      by_cases hm : rootPrefixesFile (normalizeRepoRelativeDir x) file = true
      · by_cases hl : matchLen (normalizeRepoRelativeDir x) > st.2
        · simp [hm, hl]
          exact le_of_lt hl
        · simp [hm, hl]
          exact not_lt.mp hl
      · simp [hm]
    obtain ⟨s1, s2, s3⟩ := hstep
    refine ⟨le_trans s1 h1, ?_, ?_⟩
    · intro r hr hmr
      rcases List.mem_cons.mp hr with rfl | hr
      · exact le_trans (s2 hmr) h1
      · exact h2 r hr hmr
    · rcases h3 with h3 | ⟨r, hr, hmr, heq⟩
      · rcases s3 with s3 | ⟨hmx, heq⟩
        · left
          rw [h3, s3]
        · right
          exact ⟨x, List.mem_cons_self _ _, hmx, by rw [h3, heq]⟩
      · right
        exact ⟨r, List.mem_cons_of_mem _ hr, hmr, heq⟩

/-- When some root matches the file, the inner loop ends on a matching normalized
root of greatest match length. -/
theorem bestRoot_of_match (roots : List Str) (file : Str)
    (h : ∃ r ∈ roots, rootPrefixesFile (normalizeRepoRelativeDir r) file = true) :
    (∃ r ∈ roots, (bestRoot roots file).1 = normalizeRepoRelativeDir r) ∧
    rootPrefixesFile (bestRoot roots file).1 file = true ∧
    (∀ r ∈ roots, rootPrefixesFile (normalizeRepoRelativeDir r) file = true →
      matchLen (normalizeRepoRelativeDir r) ≤ matchLen (bestRoot roots file).1) := by
  obtain ⟨_, h2, h3⟩ := foldl_bestStep_spec file roots ([], -1)
  obtain ⟨r0, hr0, hm0⟩ := h
  rcases h3 with h3 | ⟨r, hr, hmr, heq⟩
  · exfalso
    have hle := h2 r0 hr0 hm0
    rw [h3] at hle
    have := matchLen_nonneg (normalizeRepoRelativeDir r0)
    simp only at hle
    omega
  · unfold bestRoot
    rw [heq] at h2
    rw [heq]
    exact ⟨⟨r, hr, rfl⟩, hmr, h2⟩

/-- When no root matches the file, the inner loop leaves `best` empty. -/
theorem bestRoot_of_no_match (roots : List Str) (file : Str)
    (h : ∀ r ∈ roots, rootPrefixesFile (normalizeRepoRelativeDir r) file = false) :
    (bestRoot roots file).1 = [] := by
  obtain ⟨_, _, h3⟩ := foldl_bestStep_spec file roots ([], -1)
  rcases h3 with h3 | ⟨r, hr, hmr, _⟩
  · unfold bestRoot
    rw [h3]
  · rw [h r hr] at hmr
    exact absurd hmr (by simp)

/-- The loop leaves `best` non-empty exactly when some root matches the file. -/
theorem bestRoot_ne_nil_iff (roots : List Str) (file : Str) :
    (bestRoot roots file).1 ≠ [] ↔
      ∃ r ∈ roots, rootPrefixesFile (normalizeRepoRelativeDir r) file = true := by
  constructor
  · intro hne
    by_contra hno
    apply hne
    apply bestRoot_of_no_match
    intro r hr
    by_contra hm
    exact hno ⟨r, hr, by simpa using hm⟩
  · intro h
    obtain ⟨⟨r, _, hr⟩, _, _⟩ := bestRoot_of_match roots file h
    rw [hr]
    exact normalizeRepoRelativeDir_ne_nil r

/-- Membership in the key set built by the outer loop. -/
theorem mem_foldl_selectStep (roots changedFiles : List Str) (init : List Str) (e : Str) :
    e ∈ changedFiles.foldl (selectStep roots) init ↔
      e ∈ init ∨ ∃ f ∈ changedFiles,
        (bestRoot roots (normalizeRepoRelativePath f)).1 ≠ [] ∧
        e = (bestRoot roots (normalizeRepoRelativePath f)).1 := by
  induction changedFiles generalizing init with
  | nil => simp
  | cons x xs ih =>
    simp only [List.foldl_cons]
    rw [ih]
    unfold selectStep
    by_cases hb : (bestRoot roots (normalizeRepoRelativePath x)).1 = []
    · simp [hb]
    · simp only [ne_eq, hb, not_false_eq_true, if_true, List.mem_cons, List.mem_cons]
      constructor
      · rintro ((h | h) | ⟨f, hf, h1, h2⟩)
        · exact Or.inr ⟨x, Or.inl rfl, hb, h⟩
        · exact Or.inl h
        · exact Or.inr ⟨f, Or.inr hf, h1, h2⟩
      · rintro (h | ⟨f, hf, h1, h2⟩)
        · exact Or.inl (Or.inr h)
        · rcases hf with rfl | hf
          · exact Or.inl (Or.inl h2)
          · exact Or.inr ⟨f, hf, h1, h2⟩

/-- Membership in the map `selected` at the end of the outer loop. -/
theorem mem_selectedRoots (roots changedFiles : List Str) (e : Str) :
    e ∈ selectedRoots roots changedFiles ↔
      ∃ f ∈ changedFiles,
        (bestRoot roots (normalizeRepoRelativePath f)).1 ≠ [] ∧
        e = (bestRoot roots (normalizeRepoRelativePath f)).1 := by
  unfold selectedRoots
  rw [mem_foldl_selectStep]
  simp

/-- Membership in the result of `selectRootsForChangedFiles`. -/
theorem mem_selectRootsForChangedFiles (roots changedFiles : List Str) (e : Str) :
    e ∈ selectRootsForChangedFiles roots changedFiles ↔
      e ∈ roots.map normalizeRepoRelativeDir ∧ e ∈ selectedRoots roots changedFiles := by
  unfold selectRootsForChangedFiles
  split
  · rename_i h
    rcases h with h | h
    · have : roots = [] := List.length_eq_zero.mp h
      subst this
      simp
    · have : changedFiles = [] := List.length_eq_zero.mp h
      subst this
      simp [selectedRoots]
  · simp

/-- An element of the result for a single changed file is the deepest normalized
root that prefixes the normalized file. -/
theorem mem_selectRoots_single (roots : List Str) (f e : Str)
    (he : e ∈ selectRootsForChangedFiles roots [f]) :
    (∃ r ∈ roots, e = normalizeRepoRelativeDir r) ∧
    rootPrefixesFile e (normalizeRepoRelativePath f) = true ∧
    (∀ r ∈ roots,
      rootPrefixesFile (normalizeRepoRelativeDir r) (normalizeRepoRelativePath f) = true →
      matchLen (normalizeRepoRelativeDir r) ≤ matchLen e) := by
  rw [mem_selectRootsForChangedFiles, mem_selectedRoots] at he
  obtain ⟨_, f1, hf1, hne, rfl⟩ := he
  rw [List.mem_singleton] at hf1
  subst hf1
  exact bestRoot_of_match roots _ ((bestRoot_ne_nil_iff roots _).mp hne)

/-- The result for a single changed file is non-empty when some normalized root
prefixes the normalized file. -/
theorem selectRoots_single_ne_nil (roots : List Str) (f : Str)
    (h : ∃ r ∈ roots,
      rootPrefixesFile (normalizeRepoRelativeDir r) (normalizeRepoRelativePath f) = true) :
    selectRootsForChangedFiles roots [f] ≠ [] := by
  obtain ⟨⟨r, hr, hbest⟩, _, _⟩ := bestRoot_of_match roots _ h
  have hmem : (bestRoot roots (normalizeRepoRelativePath f)).1 ∈
      selectRootsForChangedFiles roots [f] := by
    rw [mem_selectRootsForChangedFiles, mem_selectedRoots]
    refine ⟨?_, f, List.mem_singleton_self f, (bestRoot_ne_nil_iff roots _).mpr h, rfl⟩
    rw [hbest]
    exact List.mem_map_of_mem _ hr
  exact List.ne_nil_of_mem hmem

/-! ## Properties of `selectRootsForChangedFiles` and `rootPrefixesFile` -/

/-- C1 (as stated, refuted): for roots `["a"]` and the single changed file
`"././a/x"` the result is `["a"]`, yet `rootPrefixesFile("a", "././a/x")` is false:
the loop tests the root against the already normalized file `"./a/x"`, which
`rootPrefixesFile` normalizes a second time to `"a/x"`. -/
theorem selectRoots_single_raw_file_counterexample :
    selectRootsForChangedFiles ["a".toList] ["././a/x".toList] = ["a".toList] ∧
    rootPrefixesFile "a".toList "././a/x".toList = false ∧
    ¬ (∀ (roots : List Str) (f e : Str),
        e ∈ selectRootsForChangedFiles roots [f] → rootPrefixesFile e f = true) := by
  refine ⟨by decide, by decide, ?_⟩
  intro h
  exact absurd (h ["a".toList] "././a/x".toList "a".toList (by decide)) (by decide)

/-- C1 (amended): deepest match for a single changed file `f`.  Every element of
`selectRootsForChangedFiles(roots, [f])` is the normalized form of a root, prefixes
the normalized file `normalizeRepoRelativePath(f)` in the sense of
`rootPrefixesFile`, and has a match length (byte length, the sentinel counted as 0)
at least that of every root whose normalized form prefixes the normalized file; and
the result is non-empty whenever some normalized root prefixes the normalized file. -/
theorem selectRoots_single_deepest (roots : List Str) (f : Str) :
    (∀ e ∈ selectRootsForChangedFiles roots [f],
      (∃ r ∈ roots, e = normalizeRepoRelativeDir r) ∧
      rootPrefixesFile e (normalizeRepoRelativePath f) = true ∧
      (∀ r ∈ roots,
        rootPrefixesFile (normalizeRepoRelativeDir r) (normalizeRepoRelativePath f) = true →
        matchLen (normalizeRepoRelativeDir r) ≤ matchLen e)) ∧
    ((∃ r ∈ roots,
        rootPrefixesFile (normalizeRepoRelativeDir r) (normalizeRepoRelativePath f) = true) →
      selectRootsForChangedFiles roots [f] ≠ []) :=
  ⟨fun e he => mem_selectRoots_single roots f e he, selectRoots_single_ne_nil roots f⟩

/-- C2: the deepest-match example of the test suite.  Roots `apps`, `apps/foo`,
`apps/foo/overlays/dev`, `cluster` with the four changed files give
`apps/foo`, `apps/foo/overlays/dev`, `cluster`: `apps` is not selected and
`README.md` contributes no hit. -/
theorem selectRoots_deepest_example :
    selectRootsForChangedFiles
      ["apps".toList, "apps/foo".toList, "apps/foo/overlays/dev".toList, "cluster".toList]
      ["apps/foo/overlays/dev/kustomization.yaml".toList, "apps/foo/base/deploy.yaml".toList,
       "cluster/ns.yaml".toList, "README.md".toList]
    = ["apps/foo".toList, "apps/foo/overlays/dev".toList, "cluster".toList] := by
  decide

/-- C3 (as stated, refuted): when the root list repeats a root, the result repeats
it too: roots `["a", "a"]` with changed file `"a/x"` give `["a", "a"]`. -/
theorem selectRoots_duplicate_counterexample :
    selectRootsForChangedFiles ["a".toList, "a".toList] ["a/x".toList]
      = ["a".toList, "a".toList] ∧
    ¬ (selectRootsForChangedFiles ["a".toList, "a".toList] ["a/x".toList]).Nodup := by
  decide

/-- C3 (amended): when the normalized forms of the input roots are pairwise
distinct, the result of `selectRootsForChangedFiles` contains no duplicates. -/
theorem selectRoots_nodup (roots changedFiles : List Str)
    (h : (roots.map normalizeRepoRelativeDir).Nodup) :
    (selectRootsForChangedFiles roots changedFiles).Nodup := by
  unfold selectRootsForChangedFiles
  split
  · exact List.nodup_nil
  · exact h.filter _

theorem selectRoots_nodup_witness :
    (["apps".toList, "apps/foo".toList, "cluster".toList].map normalizeRepoRelativeDir).Nodup ∧
    (selectRootsForChangedFiles ["apps".toList, "apps/foo".toList, "cluster".toList]
      ["apps/foo/x.yaml".toList, "apps/foo/y.yaml".toList, "cluster/ns.yaml".toList]).Nodup :=
  ⟨by decide, selectRoots_nodup _ _ (by decide)⟩

/-- C4: the result of `selectRootsForChangedFiles` is a sub-list, in the same
relative order, of the input roots mapped through `normalizeRepoRelativeDir`. -/
theorem selectRoots_sublist (roots changedFiles : List Str) :
    (selectRootsForChangedFiles roots changedFiles).Sublist
      (roots.map normalizeRepoRelativeDir) := by
  unfold selectRootsForChangedFiles
  split
  · exact List.nil_sublist _
  · exact List.filter_sublist _

/-- The output loop on the slice value: the slice is never `nil`, and it holds the
normalized roots that are keys of `selected`, in the order of the roots. -/
theorem foldl_selectOutStep (selected : List Str) (roots : List Str) (out : List Str) :
    roots.foldl (selectOutStep selected) (some out) =
      some (out ++ (roots.map normalizeRepoRelativeDir).filter
        (fun root => decide (root ∈ selected))) := by
  induction roots generalizing out with
  | nil => simp
  | cons r rs ih =>
    simp only [List.foldl_cons, List.map_cons]
    by_cases h : normalizeRepoRelativeDir r ∈ selected
    · have hstep : selectOutStep selected (some out) r
          = some (out ++ [normalizeRepoRelativeDir r]) := by
        unfold selectOutStep sliceAppend
        simp only
        rw [if_pos h]
        rfl
      rw [hstep, ih, List.filter_cons_of_pos (by simpa using h)]
      simp
    · have hstep : selectOutStep selected (some out) r = some out := by
        unfold selectOutStep
        simp only
        rw [if_neg h]
      rw [hstep, ih, List.filter_cons_of_neg (by simpa using h)]

/-- C5: when the roots or the changed files are empty, `selectRootsForChangedFiles`
returns the empty list, as a slice that is present: the value is the empty slice
`[]string{}` and not the `nil` slice.  For all arguments the value returned is a
slice that is not `nil`, with the elements of the list embedding. -/
theorem selectRoots_empty (roots changedFiles : List Str)
    (h : roots = [] ∨ changedFiles = []) :
    selectRootsForChangedFiles roots changedFiles = [] ∧
    selectRootsForChangedFilesSlice roots changedFiles = some [] ∧
    selectRootsForChangedFilesSlice roots changedFiles ≠ none ∧
    (∀ rs cs : List Str, selectRootsForChangedFilesSlice rs cs
      = some (selectRootsForChangedFiles rs cs)) := by
  have hlist : selectRootsForChangedFiles roots changedFiles = [] := by
    unfold selectRootsForChangedFiles
    rcases h with h | h <;> simp [h]
  have hall : ∀ rs cs : List Str, selectRootsForChangedFilesSlice rs cs
      = some (selectRootsForChangedFiles rs cs) := by
    intro rs cs
    unfold selectRootsForChangedFilesSlice selectRootsForChangedFiles
    by_cases hg : rs.length = 0 ∨ cs.length = 0
    · rw [if_pos hg, if_pos hg]
    · rw [if_neg hg, if_neg hg]
      simp only
      rw [foldl_selectOutStep]
      rfl
  refine ⟨hlist, ?_, ?_, hall⟩
  · rw [hall, hlist]
  · rw [hall]
    exact Option.some_ne_none _

theorem selectRoots_empty_witness :
    (["apps/foo".toList] = [] ∨ ([] : List Str) = []) ∧
    selectRootsForChangedFiles ["apps/foo".toList] [] = [] ∧
    selectRootsForChangedFilesSlice ["apps/foo".toList] [] = some [] ∧
    selectRootsForChangedFilesSlice ["apps/foo".toList] [] ≠ none ∧
    (∀ rs cs : List Str, selectRootsForChangedFilesSlice rs cs
      = some (selectRootsForChangedFiles rs cs)) :=
  ⟨Or.inr rfl, selectRoots_empty ["apps/foo".toList] [] (Or.inr rfl)⟩

/-- C6 (as stated, refuted): roots `["apps/foo"]` with the changed file
`"././apps/foo/deploy.yaml"` give `["apps/foo"]`, although `rootPrefixesFile` is
false for that root and that file: no root prefixes any changed file, and yet the
result is not empty. -/
theorem selectRoots_owner_raw_file_counterexample :
    selectRootsForChangedFiles ["apps/foo".toList] ["././apps/foo/deploy.yaml".toList]
      = ["apps/foo".toList] ∧
    rootPrefixesFile "apps/foo".toList "././apps/foo/deploy.yaml".toList = false ∧
    ¬ (∀ (roots changedFiles : List Str), ∀ e ∈ selectRootsForChangedFiles roots changedFiles,
        ∃ f ∈ changedFiles, rootPrefixesFile e f = true) := by
  refine ⟨by decide, by decide, ?_⟩
  intro h
  exact absurd (h ["apps/foo".toList] ["././apps/foo/deploy.yaml".toList]) (by decide)

/-- C6 (amended): every root returned by `selectRootsForChangedFiles` owns a
changed file after normalization: for each returned root there is a changed file
`f` such that the root prefixes `normalizeRepoRelativePath(f)`; when no normalized
root prefixes any normalized changed file the result is empty, as for roots
`["apps/foo"]` and changed files `["docs/readme.md"]`. -/
theorem selectRoots_owns_changed_file (roots changedFiles : List Str) :
    (∀ e ∈ selectRootsForChangedFiles roots changedFiles,
      ∃ f ∈ changedFiles, rootPrefixesFile e (normalizeRepoRelativePath f) = true) ∧
    ((∀ r ∈ roots, ∀ f ∈ changedFiles,
        rootPrefixesFile (normalizeRepoRelativeDir r) (normalizeRepoRelativePath f) = false) →
      selectRootsForChangedFiles roots changedFiles = []) ∧
    selectRootsForChangedFiles ["apps/foo".toList] ["docs/readme.md".toList] = [] := by
  have main : ∀ e ∈ selectRootsForChangedFiles roots changedFiles,
      ∃ f ∈ changedFiles, rootPrefixesFile e (normalizeRepoRelativePath f) = true := by
    intro e he
    rw [mem_selectRootsForChangedFiles, mem_selectedRoots] at he
    obtain ⟨_, f, hf, hne, rfl⟩ := he
    exact ⟨f, hf, (bestRoot_of_match roots _ ((bestRoot_ne_nil_iff roots _).mp hne)).2.1⟩
  refine ⟨main, ?_, by decide⟩
  intro hno
  apply List.eq_nil_iff_forall_not_mem.mpr
  intro e he
  have he2 := he
  rw [mem_selectRootsForChangedFiles, mem_selectedRoots] at he2
  obtain ⟨_, f, hf, hne, _⟩ := he2
  obtain ⟨r, hr, hm⟩ := (bestRoot_ne_nil_iff roots _).mp hne
  rw [hno r hr f hf] at hm
  exact absurd hm (by simp)

/-- C7 (as stated, refuted): roots `[".", "apps/foo"]` contain the sentinel and
`rootPrefixesFile("apps/foo", "/./apps/foo/deploy.yaml")` is false, yet the result
for that changed file is `["apps/foo"]`, not `["."]`. -/
theorem selectRoots_dot_raw_file_counterexample :
    rootPrefixesFile "apps/foo".toList "/./apps/foo/deploy.yaml".toList = false ∧
    selectRootsForChangedFiles [".".toList, "apps/foo".toList]
      ["/./apps/foo/deploy.yaml".toList] = ["apps/foo".toList] ∧
    ¬ (∀ (roots : List Str) (f : Str), dot ∈ roots →
        (∀ r ∈ roots, normalizeRepoRelativeDir r ≠ dot → rootPrefixesFile r f = false) →
        selectRootsForChangedFiles roots [f] ≠ [] ∧
        ∀ e ∈ selectRootsForChangedFiles roots [f], e = dot) := by
  refine ⟨by decide, by decide, ?_⟩
  intro h
  exact absurd
    (h [".".toList, "apps/foo".toList] "/./apps/foo/deploy.yaml".toList (by decide) (by decide)).2
    (by decide)

/-- C7 (amended): dot-root universality.  When the roots contain the sentinel `"."`
and no root with a non-sentinel normalized form prefixes the normalized file
`normalizeRepoRelativePath(f)`, the result for the single changed file `f` is
non-empty and each of its elements is the sentinel. -/
theorem selectRoots_dot_universal (roots : List Str) (f : Str)
    (hdot : dot ∈ roots)
    (hno : ∀ r ∈ roots, normalizeRepoRelativeDir r ≠ dot →
      rootPrefixesFile (normalizeRepoRelativeDir r) (normalizeRepoRelativePath f) = false) :
    selectRootsForChangedFiles roots [f] ≠ [] ∧
    ∀ e ∈ selectRootsForChangedFiles roots [f], e = dot := by
  constructor
  · apply selectRoots_single_ne_nil
    refine ⟨dot, hdot, ?_⟩
    rw [normalizeRepoRelativeDir_dot]
    exact rootPrefixesFile_dot _
  · intro e he
    obtain ⟨⟨r, hr, rfl⟩, hm, _⟩ := mem_selectRoots_single roots f e he
    by_contra hne
    rw [hno r hr hne] at hm
    exact absurd hm (by simp)

theorem selectRoots_dot_universal_witness :
    selectRootsForChangedFiles [".".toList, "apps/foo".toList] ["docs/readme.md".toList] ≠ [] ∧
    ∀ e ∈ selectRootsForChangedFiles [".".toList, "apps/foo".toList] ["docs/readme.md".toList],
      e = dot :=
  selectRoots_dot_universal [".".toList, "apps/foo".toList] "docs/readme.md".toList
    (by decide) (by decide)

/-- C8: `rootPrefixesFile(root, file)` holds exactly when the normalized root is the
sentinel, or the normalized file is neither empty nor `"."` and equals the
normalized root or starts with it followed by `"/"`.  Hence an empty file path
matches only the sentinel root, and a non-sentinel root does not match a file that
continues it with a character other than `"/"`. -/
theorem rootPrefixesFile_iff (root file : Str) :
    (rootPrefixesFile root file = true ↔
      normalizeRepoRelativeDir root = dot ∨
      (normalizeRepoRelativePath file ≠ [] ∧ normalizeRepoRelativePath file ≠ dot ∧
        (normalizeRepoRelativePath file = normalizeRepoRelativeDir root ∨
          (normalizeRepoRelativeDir root ++ ['/']) <+: normalizeRepoRelativePath file))) ∧
    (normalizeRepoRelativePath file = [] →
      (rootPrefixesFile root file = true ↔ normalizeRepoRelativeDir root = dot)) ∧
    (∀ (c : Char) (rest : Str), normalizeRepoRelativeDir root ≠ dot → c ≠ '/' →
      normalizeRepoRelativePath file = normalizeRepoRelativeDir root ++ c :: rest →
      rootPrefixesFile root file = false) := by
  have main : rootPrefixesFile root file = true ↔
      normalizeRepoRelativeDir root = dot ∨
      (normalizeRepoRelativePath file ≠ [] ∧ normalizeRepoRelativePath file ≠ dot ∧
        (normalizeRepoRelativePath file = normalizeRepoRelativeDir root ∨
          (normalizeRepoRelativeDir root ++ ['/']) <+: normalizeRepoRelativePath file)) := by
    unfold rootPrefixesFile
    by_cases hR : normalizeRepoRelativeDir root = dot
    · simp [hR]
    · by_cases hF : normalizeRepoRelativePath file = [] ∨ normalizeRepoRelativePath file = dot
      · simp only [hR, hF, if_false, if_true, decide_False]
        constructor
        · intro h
          exact absurd h (by simp)
        · rintro (h | ⟨h1, h2, _⟩)
          · exact h.elim
          · rcases hF with hF | hF
            · exact absurd hF h1
            · exact absurd hF h2
      · have hF1 : normalizeRepoRelativePath file ≠ [] := fun e => hF (Or.inl e)
        have hF2 : normalizeRepoRelativePath file ≠ dot := fun e => hF (Or.inr e)
        simp [hR, hF, hF1, hF2, hasPrefix]
  refine ⟨main, ?_, ?_⟩
  · intro hF
    rw [main]
    constructor
    · rintro (h | ⟨h1, _⟩)
      · exact h
      · exact absurd hF h1
    · exact Or.inl
  · intro c rest hR hc hF
    by_contra hne
    have htrue : rootPrefixesFile root file = true := by simpa using hne
    rcases main.mp htrue with h | ⟨_, _, h | h⟩
    · exact hR h
    · rw [hF] at h
      have := congrArg List.length h
      simp at this
    · rw [hF] at h
      have h2 := (List.prefix_append_right_inj (normalizeRepoRelativeDir root)).mp h
      obtain ⟨t, ht⟩ := h2
      simp at ht
      exact hc ht.1.symm

/-! ## Idempotence of the normalizers -/

/-- C9 (as stated, refuted): `normalizeRepoRelativeDir("a /")` is `"a "`, which a
second normalization turns into `"a"`; `"././a"` goes to `"./a"` and then to `"a"`. -/
theorem normalizeRepoRelativeDir_idempotent_counterexample :
    normalizeRepoRelativeDir "a /".toList = "a ".toList ∧
    normalizeRepoRelativeDir (normalizeRepoRelativeDir "a /".toList) = "a".toList ∧
    normalizeRepoRelativeDir "././a".toList = "./a".toList ∧
    normalizeRepoRelativeDir (normalizeRepoRelativeDir "././a".toList) = "a".toList ∧
    ¬ (∀ p : Str, normalizeRepoRelativeDir (normalizeRepoRelativeDir p)
        = normalizeRepoRelativeDir p) := by
  refine ⟨by decide, by decide, by decide, by decide, ?_⟩
  intro h
  exact absurd (h "a /".toList) (by decide)

/-- C9 (amended): a second directory normalization changes nothing exactly when the
first result has no leading or trailing white space (it is fixed by `TrimSpace`)
and does not begin with `"./"`. -/
theorem normalizeRepoRelativeDir_idempotent_iff (p : Str) :
    normalizeRepoRelativeDir (normalizeRepoRelativeDir p) = normalizeRepoRelativeDir p ↔
      trimSpace (normalizeRepoRelativeDir p) = normalizeRepoRelativeDir p ∧
      hasPrefix (normalizeRepoRelativeDir p) ['.', '/'] = false := by
  obtain ⟨h1, h2, h3⟩ := normalizeRepoRelativeDir_shape p
  exact normalizeRepoRelativeDir_fixed_iff _ h1 h2 h3

/-- C10 (as stated, refuted): `normalizeRepoRelativePath("/./a")` is `"./a"`, which
a second normalization turns into `"a"`; white space next to a trimmed slash
behaves alike: `"/ a"` goes to `" a"` and then to `"a"`. -/
theorem normalizeRepoRelativePath_idempotent_counterexample :
    normalizeRepoRelativePath "/./a".toList = "./a".toList ∧
    normalizeRepoRelativePath (normalizeRepoRelativePath "/./a".toList) = "a".toList ∧
    normalizeRepoRelativePath "/ a".toList = " a".toList ∧
    normalizeRepoRelativePath (normalizeRepoRelativePath "/ a".toList) = "a".toList ∧
    ¬ (∀ p : Str, normalizeRepoRelativePath (normalizeRepoRelativePath p)
        = normalizeRepoRelativePath p) := by
  refine ⟨by decide, by decide, by decide, by decide, ?_⟩
  intro h
  exact absurd (h "/./a".toList) (by decide)

/-- C10 (amended): a second file-path normalization changes nothing exactly when
the first result has no leading or trailing white space (it is fixed by
`TrimSpace`) and does not begin with `"./"`. -/
theorem normalizeRepoRelativePath_idempotent_iff (p : Str) :
    normalizeRepoRelativePath (normalizeRepoRelativePath p) = normalizeRepoRelativePath p ↔
      trimSpace (normalizeRepoRelativePath p) = normalizeRepoRelativePath p ∧
      hasPrefix (normalizeRepoRelativePath p) ['.', '/'] = false := by
  obtain ⟨h1, h2⟩ := normalizeRepoRelativePath_shape p
  exact normalizeRepoRelativePath_fixed_iff _ h1 h2

/-! ## Shape of the normalized paths -/

theorem hasSuffix_iff (s suf : Str) : hasSuffix s suf = true ↔ suf <:+ s := by
  simp [hasSuffix]

/-- A string fixed by `trim` does not end with the trimmed character. -/
theorem hasSuffix_singleton_of_trim_fixed (s : Str) (c : Char) (h : trim s c = s) :
    hasSuffix s [c] = false := by
  have hr : s.rdropWhile (· == c) = s := by
    rw [← h]
    exact (trim_fixed s c).2
  by_contra hne
  have hsuf : [c] <:+ s := (hasSuffix_iff s [c]).mp (by simpa using hne)
  obtain ⟨t, rfl⟩ := hsuf
  rw [List.rdropWhile_concat_pos _ _ _ (by simp)] at hr
  have hlen := (List.rdropWhile_prefix (· == c) t).length_le
  rw [hr] at hlen
  simp at hlen

/-- Dropping from the left skips a block of characters that all satisfy the test. -/
theorem dropWhile_append_of_all (q : Char → Bool) (a b : Str) (h : ∀ x ∈ a, q x = true) :
    (a ++ b).dropWhile q = b.dropWhile q := by
  induction a with
  | nil => rfl
  | cons x xs ih =>
    have hx : q x = true := h x (List.mem_cons_self _ _)
    simp only [List.cons_append, List.dropWhile_cons, hx, if_true]
    exact ih (fun y hy => h y (List.mem_cons_of_mem _ hy))

/-- Dropping from the right leaves a front block untouched when something of the
back block survives. -/
theorem rdropWhile_append_of_ne_nil (q : Char → Bool) (a b : Str)
    (h : b.rdropWhile q ≠ []) : (a ++ b).rdropWhile q = a ++ b.rdropWhile q := by
  have hb : ¬ ∀ x ∈ b, q x = true := fun hall => h (List.rdropWhile_eq_nil_iff.mpr hall)
  have hne : (b.reverse.dropWhile q) ≠ [] := by
    intro e
    apply hb
    intro x hx
    exact List.dropWhile_eq_nil_iff.mp e x (List.mem_reverse.mpr hx)
  unfold List.rdropWhile
  rw [List.reverse_append, List.dropWhile_append]
  have hemp : (List.dropWhile q b.reverse).isEmpty = false := by
    cases hd : List.dropWhile q b.reverse with
    | nil => exact absurd hd hne
    | cons _ _ => rfl
  rw [hemp]
  simp

/-- `Trim` can drop from the left first: the two drops commute. -/
theorem trim_eq_rdropWhile_dropWhile (s : Str) (c : Char) :
    trim s c = (s.dropWhile (· == c)).rdropWhile (· == c) := by
  unfold trim
  by_cases hall : ∀ x ∈ s, (x == c) = true
  · rw [List.rdropWhile_eq_nil_iff.mpr hall, List.dropWhile_eq_nil_iff.mpr hall]
    rfl
  · have hsplit : s.takeWhile (· == c) ++ s.dropWhile (· == c) = s :=
      List.takeWhile_append_dropWhile _ _
    have htw : ∀ x ∈ s.takeWhile (· == c), (x == c) = true := by
      intro x hx
      have hx2 := List.mem_takeWhile_imp hx
      exact hx2
    cases he : s.dropWhile (· == c) with
    | nil => exact absurd (List.dropWhile_eq_nil_iff.mp he) hall
    | cons a t =>
      have ha : ¬ (a == c) = true := by
        have h0 := List.head_dropWhile_not (· == c) s (by rw [he]; simp)
        simp only [he, List.head_cons] at h0
        simp [h0]
      have hrne : (a :: t).rdropWhile (· == c) ≠ [] := by
        intro e
        exact ha (List.rdropWhile_eq_nil_iff.mp e a (List.mem_cons_self _ _))
      obtain ⟨u, hu⟩ : ∃ u, (a :: t).rdropWhile (· == c) = a :: u := by
        have hpre := List.rdropWhile_prefix (· == c) (a :: t)
        cases hx : (a :: t).rdropWhile (· == c) with
        | nil => exact absurd hx hrne
        | cons b u =>
          rw [hx] at hpre
          have := (List.cons_prefix_cons.mp hpre).1
          exact ⟨u, by rw [this]⟩
      rw [he] at hsplit
      conv_lhs => rw [← hsplit]
      rw [rdropWhile_append_of_ne_nil _ _ _ hrne, dropWhile_append_of_all _ _ _ htw, hu,
        List.dropWhile_cons, if_neg ha]

/-- When dropping trailing slashes leaves a string that begins with `"./"`, the
original is that prefix followed by something with a non-slash character, and
conversely. -/
theorem hasPrefix_dotSlash_rdropWhile_iff (e : Str) :
    hasPrefix (e.rdropWhile (· == '/')) ['.', '/'] = true ↔
      ∃ y, e = '.' :: '/' :: y ∧ ∃ c ∈ y, c ≠ '/' := by
  constructor
  · intro h
    obtain ⟨y1, hy1⟩ := (hasPrefix_iff _ _).mp h
    obtain ⟨tl, htl⟩ := List.rdropWhile_prefix (· == '/') e
    have hne : e.rdropWhile (· == '/') ≠ [] := by
      rw [← hy1]
      simp
    have hlast := List.rdropWhile_last_not (fun x => x == '/') e hne
    refine ⟨y1 ++ tl, ?_, ?_⟩
    · rw [← htl, ← hy1]
      simp
    · have hy1ne : y1 ≠ [] := by
        intro hy
        subst hy
        apply hlast
        simp [← hy1]
      refine ⟨y1.getLast hy1ne, List.mem_append_left _ (List.getLast_mem hy1ne), ?_⟩
      intro hc
      apply hlast
      have hl : (e.rdropWhile (· == '/')).getLast hne = y1.getLast hy1ne := by
        simp [← hy1, List.getLast_cons, hy1ne]
      rw [hl, hc]
      rfl
  · rintro ⟨y, rfl, c, hc, hne⟩
    have hy : y.rdropWhile (· == '/') ≠ [] := by
      intro e
      have := List.rdropWhile_eq_nil_iff.mp e c hc
      exact hne (by simpa using this)
    have : ('.' :: '/' :: y).rdropWhile (· == '/') = ['.', '/'] ++ y.rdropWhile (· == '/') :=
      rdropWhile_append_of_ne_nil _ ['.', '/'] y hy
    rw [this, hasPrefix_iff]
    exact List.prefix_append _ _

/-- A leading `"./"` of the directory normalizer's result is one of its trimmed
intermediate value. -/
theorem hasPrefix_dotSlash_normalizeRepoRelativeDir (p : Str) :
    hasPrefix (normalizeRepoRelativeDir p) ['.', '/'] =
      hasPrefix (trim (trimPrefix (replaceAll (trimSpace p) '\\' '/') ['.', '/']) '/')
        ['.', '/'] := by
  unfold normalizeRepoRelativeDir
  simp only
  split
  · rename_i h
    rw [h]
    decide
  · split
    · rename_i h
      rcases h with h | h
      · rw [h]
        decide
      · rw [h]
    · rfl

/-- Removing one leading slash does not change what is left after all leading
slashes are dropped. -/
theorem dropWhile_trimPrefix_slash (s : Str) :
    (trimPrefix s ['/']).dropWhile (· == '/') = s.dropWhile (· == '/') := by
  unfold trimPrefix
  cases s with
  | nil => rfl
  | cons a t =>
    by_cases ha : a = '/'
    · subst ha
      simp [hasPrefix, List.isPrefixOf]
    · have : ¬ '/' = a := fun e => ha e.symm
      simp [hasPrefix, List.isPrefixOf, this]

/-- C11: `normalizeRepoRelativeDir(p)` is never empty, contains no backslash and
neither begins nor ends with `"/"`; it is the sentinel `"."` whenever the path is
empty after trimming, be it after the white-space trim or after the whole trim
(white space, one leading `"./"`, slashes). -/
theorem normalizeRepoRelativeDir_wellformed (p : Str) :
    normalizeRepoRelativeDir p ≠ [] ∧
    '\\' ∉ normalizeRepoRelativeDir p ∧
    hasPrefix (normalizeRepoRelativeDir p) ['/'] = false ∧
    hasSuffix (normalizeRepoRelativeDir p) ['/'] = false ∧
    (trimSpace p = [] → normalizeRepoRelativeDir p = dot) ∧
    (trim (trimPrefix (replaceAll (trimSpace p) '\\' '/') ['.', '/']) '/' = [] →
      normalizeRepoRelativeDir p = dot) := by
  obtain ⟨h1, h2, h3⟩ := normalizeRepoRelativeDir_shape p
  refine ⟨h3, h1, hasPrefix_singleton_of_trim_fixed _ _ h2,
    hasSuffix_singleton_of_trim_fixed _ _ h2, ?_, ?_⟩
  · intro h
    unfold normalizeRepoRelativeDir
    simp [h]
  · intro h
    unfold normalizeRepoRelativeDir
    simp only
    split
    · rfl
    · rw [if_pos (Or.inl h)]

/-- C12 (as stated, refuted): `normalizeRepoRelativeDir("././a")` is `"./a"` and
`normalizeRepoRelativePath("/./a")` is `"./a"`: both begin with `"./"`. -/
theorem normalize_leading_dotSlash_counterexample :
    normalizeRepoRelativeDir "././a".toList = "./a".toList ∧
    hasPrefix (normalizeRepoRelativeDir "././a".toList) "./".toList = true ∧
    normalizeRepoRelativePath "/./a".toList = "./a".toList ∧
    hasPrefix (normalizeRepoRelativePath "/./a".toList) "./".toList = true ∧
    ¬ (∀ p : Str, hasPrefix (normalizeRepoRelativeDir p) "./".toList = false ∧
        hasPrefix (normalizeRepoRelativePath p) "./".toList = false) := by
  refine ⟨by decide, by decide, by decide, by decide, ?_⟩
  intro h
  exact absurd (h "././a".toList).1 (by decide)

/-- C12 (amended): one leading `"./"` is stripped.  The result of either normalizer
begins with `"./"` exactly when the input, after the white-space trim, the
conversion of backslashes, the removal of one leading `"./"` and then of all
leading `"/"`, still begins with `"./"` followed by a string holding a character
other than `"/"`; for every other input the normalized path has no leading `"./"`. -/
theorem normalize_leading_dotSlash_iff (p : Str) :
    (hasPrefix (normalizeRepoRelativeDir p) ['.', '/'] = true ↔
      ∃ y, (trimPrefix (replaceAll (trimSpace p) '\\' '/') ['.', '/']).dropWhile (· == '/')
          = '.' :: '/' :: y ∧ ∃ c ∈ y, c ≠ '/') ∧
    (hasPrefix (normalizeRepoRelativePath p) ['.', '/'] = true ↔
      ∃ y, (trimPrefix (replaceAll (trimSpace p) '\\' '/') ['.', '/']).dropWhile (· == '/')
          = '.' :: '/' :: y ∧ ∃ c ∈ y, c ≠ '/') := by
  constructor
  · rw [hasPrefix_dotSlash_normalizeRepoRelativeDir, trim_eq_rdropWhile_dropWhile]
    exact hasPrefix_dotSlash_rdropWhile_iff _
  · unfold normalizeRepoRelativePath
    simp only
    rw [trim_eq_rdropWhile_dropWhile, dropWhile_trimPrefix_slash]
    exact hasPrefix_dotSlash_rdropWhile_iff _

/-! ## Properties of `mapRootsToRepoRootRelative` -/

/-- The element `mapRootsToRepoRootRelative` produces for one root, given the
normalized working directory `wd`. -/
theorem foldl_mapStep (wd : Str) (roots : List Str) (out : List Str) :
    roots.foldl (mapStep wd) out =
      out ++ roots.map (fun x =>
        if normalizeRepoRelativeDir x = dot then wd
        else if wd = dot then normalizeRepoRelativeDir x
        else wd ++ ['/'] ++ normalizeRepoRelativeDir x) := by
  induction roots generalizing out with
  | nil => simp
  | cons x xs ih =>
    simp only [List.foldl_cons, List.map_cons]
    rw [ih]
    have hstep : mapStep wd out x = out ++ [if normalizeRepoRelativeDir x = dot then wd
        else if wd = dot then normalizeRepoRelativeDir x
        else wd ++ ['/'] ++ normalizeRepoRelativeDir x] := by
      unfold mapStep
      by_cases hx : normalizeRepoRelativeDir x = dot
      · simp [hx]
      · have hne := normalizeRepoRelativeDir_ne_nil x
        by_cases hwd : wd = dot
        · simp [hx, hne, hwd]
        · simp [hx, hne, hwd]
    rw [hstep]
    simp

/-- The result of `mapRootsToRepoRootRelative` as a map over the roots. -/
theorem mapRootsToRepoRootRelative_eq_map (workingDir : Str) (roots : List Str) :
    mapRootsToRepoRootRelative workingDir roots =
      roots.map (fun x =>
        if normalizeRepoRelativeDir x = dot then normalizeRepoRelativeDir workingDir
        else if normalizeRepoRelativeDir workingDir = dot then normalizeRepoRelativeDir x
        else normalizeRepoRelativeDir workingDir ++ ['/'] ++ normalizeRepoRelativeDir x) := by
  unfold mapRootsToRepoRootRelative
  simp only
  rw [foldl_mapStep]
  simp

/-- C13: `mapRootsToRepoRootRelative` returns a list of the same length in the same
order whose element for the root `x`, with `wd` the normalized working directory
and `r` the normalized root, is `wd` when `r` is the sentinel, `r` when `wd` is the
sentinel, and `wd + "/" + r` otherwise; so working directory `deploy` maps
`""`, `apps/a`, `apps/b` to `deploy`, `deploy/apps/a`, `deploy/apps/b`. -/
theorem mapRoots_elements (workingDir : Str) (roots : List Str) :
    (mapRootsToRepoRootRelative workingDir roots).length = roots.length ∧
    mapRootsToRepoRootRelative workingDir roots =
      roots.map (fun x =>
        if normalizeRepoRelativeDir x = dot then normalizeRepoRelativeDir workingDir
        else if normalizeRepoRelativeDir workingDir = dot then normalizeRepoRelativeDir x
        else normalizeRepoRelativeDir workingDir ++ ['/'] ++ normalizeRepoRelativeDir x) ∧
    mapRootsToRepoRootRelative "deploy".toList ["".toList, "apps/a".toList, "apps/b".toList]
      = ["deploy".toList, "deploy/apps/a".toList, "deploy/apps/b".toList] := by
  refine ⟨?_, mapRootsToRepoRootRelative_eq_map workingDir roots, by decide⟩
  rw [mapRootsToRepoRootRelative_eq_map]
  simp

/-- C14: sentinel identity.  With the sentinel working directory, roots that are
fixed points of `normalizeRepoRelativeDir` come back unchanged, and an empty root
becomes `"."`: `mapRootsToRepoRootRelative(".", ["", "a/b"]) = [".", "a/b"]`. -/
theorem mapRoots_sentinel_identity (roots : List Str)
    (h : ∀ r ∈ roots, normalizeRepoRelativeDir r = r) :
    mapRootsToRepoRootRelative dot roots = roots ∧
    mapRootsToRepoRootRelative ".".toList ["".toList, "a/b".toList]
      = [".".toList, "a/b".toList] := by
  refine ⟨?_, by decide⟩
  rw [mapRootsToRepoRootRelative_eq_map, normalizeRepoRelativeDir_dot]
  conv_rhs => rw [← List.map_id roots]
  apply List.map_congr_left
  intro r hr
  rw [h r hr]
  by_cases hd : r = dot
  · simp [hd]
  · simp [hd]

theorem mapRoots_sentinel_identity_witness :
    mapRootsToRepoRootRelative dot [".".toList, "a/b".toList, "apps/foo".toList]
      = [".".toList, "a/b".toList, "apps/foo".toList] ∧
    mapRootsToRepoRootRelative ".".toList ["".toList, "a/b".toList]
      = [".".toList, "a/b".toList] :=
  mapRoots_sentinel_identity [".".toList, "a/b".toList, "apps/foo".toList] (by decide)

/-- C15: `mapRootsToRepoRootRelative` depends on the working directory only through
its normalized form: working directories with the same normalization give the same
result for every list of roots. -/
theorem mapRoots_workingDir_normalized (w1 w2 : Str) (roots : List Str)
    (h : normalizeRepoRelativeDir w1 = normalizeRepoRelativeDir w2) :
    mapRootsToRepoRootRelative w1 roots = mapRootsToRepoRootRelative w2 roots := by
  unfold mapRootsToRepoRootRelative
  simp only
  rw [h]

theorem mapRoots_workingDir_normalized_witness :
    mapRootsToRepoRootRelative "./deploy/".toList ["".toList, "apps/a".toList]
      = mapRootsToRepoRootRelative "deploy".toList ["".toList, "apps/a".toList] ∧
    mapRootsToRepoRootRelative "".toList ["".toList, "apps/a".toList]
      = mapRootsToRepoRootRelative ".".toList ["".toList, "apps/a".toList] :=
  ⟨mapRoots_workingDir_normalized _ _ _ (by decide),
   mapRoots_workingDir_normalized _ _ _ (by decide)⟩

/-! ## The deduplication loop -/

/-- A prefix precedes, or equals, the string it is a prefix of. -/
theorem le_of_prefix {a b : Str} (h : a <+: b) : a ≤ b := by
  obtain ⟨t, rfl⟩ := h
  induction a with
  | nil => exact List.nil_le
  | cons x xs ih => exact List.cons_le_cons x ih

theorem trimSuffix_append_slash (t : Str) : trimSuffix (t ++ ['/']) ['/'] = t := by
  unfold trimSuffix
  have h : hasSuffix (t ++ ['/']) ['/'] = true :=
    (hasSuffix_iff _ _).mpr (List.suffix_append _ _)
  rw [if_pos h]
  simp

/-- `TrimSuffix "/"` either leaves the path alone or removes its final slash. -/
theorem trimSuffix_slash_cases (p : Str) :
    trimSuffix p ['/'] = p ∨ p = trimSuffix p ['/'] ++ ['/'] := by
  by_cases h : hasSuffix p ['/'] = true
  · right
    obtain ⟨t, rfl⟩ := (hasSuffix_iff _ _).mp h
    rw [trimSuffix_append_slash]
  · left
    unfold trimSuffix
    rw [if_neg h]

theorem trimSuffix_slash_isPrefix (p : Str) : trimSuffix p ['/'] <+: p := by
  rcases trimSuffix_slash_cases p with h | h
  · rw [h]
  · exact ⟨['/'], h.symm⟩

/-- Sorting puts ancestors first: a path sorted before another cannot, once its
final slash is stripped, lie strictly below the stripped other one. -/
theorem not_prefix_of_le (rawK rawP : Str) (hle : rawK ≤ rawP) :
    ¬ (trimSuffix rawP ['/'] ++ ['/']) <+: trimSuffix rawK ['/'] := by
  intro h
  have h1 : trimSuffix rawP ['/'] ++ ['/'] ≤ rawK :=
    le_of_prefix (h.trans (trimSuffix_slash_isPrefix rawK))
  have h2 : rawP ≤ trimSuffix rawP ['/'] ++ ['/'] := by
    rcases trimSuffix_slash_cases rawP with e | e
    · rw [e]
      exact le_of_prefix (List.prefix_append _ _)
    · exact le_of_eq e
  have h3 : rawK = trimSuffix rawP ['/'] ++ ['/'] :=
    le_antisymm (le_trans hle h2) h1
  have h4 : trimSuffix rawK ['/'] = trimSuffix rawP ['/'] := by
    rw [h3, trimSuffix_append_slash]
  rw [h4] at h
  have := h.length_le
  simp at this

/-- The two outcomes of one deduplication step. -/
theorem dedupeStep_cases (keep : List Str) (p : Str) :
    (dedupeStep keep p = keep ∧
      ∃ k ∈ keep, trimSuffix p ['/'] = k ∨ (k ++ ['/']) <+: trimSuffix p ['/']) ∨
    (dedupeStep keep p = keep ++ [trimSuffix p ['/']] ∧
      ∀ k ∈ keep, trimSuffix p ['/'] ≠ k ∧ ¬ (k ++ ['/']) <+: trimSuffix p ['/']) := by
  unfold dedupeStep
  simp only
  by_cases hskip : keep.any (fun k => decide (trimSuffix p ['/'] = k) ||
      hasPrefix (trimSuffix p ['/']) (k ++ ['/'])) = true
  · left
    refine ⟨by simp [hskip], ?_⟩
    obtain ⟨k, hk, hc⟩ := List.any_eq_true.mp hskip
    refine ⟨k, hk, ?_⟩
    rcases Bool.or_eq_true _ _ ▸ hc with h | h
    · exact Or.inl (of_decide_eq_true h)
    · exact Or.inr ((hasPrefix_iff _ _).mp h)
  · right
    refine ⟨by simp [hskip], ?_⟩
    intro k hk
    constructor
    · intro e
      apply hskip
      exact List.any_eq_true.mpr ⟨k, hk, by simp [e]⟩
    · intro e
      apply hskip
      exact List.any_eq_true.mpr ⟨k, hk, by simp [(hasPrefix_iff _ _).mpr e]⟩

/-- Invariant of the deduplication loop over a sorted list: the kept roots stay
pairwise distinct and none lies strictly below another. -/
theorem foldl_dedupeStep_pairwise (l : List Str) (keep : List Str)
    (hs : l.Sorted (· ≤ ·))
    (hk : ∀ k ∈ keep, ∃ raw, k = trimSuffix raw ['/'] ∧ ∀ p ∈ l, raw ≤ p)
    (hp : keep.Pairwise (fun a b => a ≠ b ∧ ¬ (a ++ ['/']) <+: b ∧ ¬ (b ++ ['/']) <+: a)) :
    (l.foldl dedupeStep keep).Pairwise
      (fun a b => a ≠ b ∧ ¬ (a ++ ['/']) <+: b ∧ ¬ (b ++ ['/']) <+: a) := by
  induction l generalizing keep with
  | nil => exact hp
  | cons x xs ih =>
    simp only [List.foldl_cons]
    have hxs : xs.Sorted (· ≤ ·) := hs.of_cons
    have hx : ∀ b ∈ xs, x ≤ b := List.rel_of_sorted_cons hs
    rcases dedupeStep_cases keep x with ⟨e, _⟩ | ⟨e, hnew⟩
    · rw [e]
      apply ih keep hxs _ hp
      intro k hkk
      obtain ⟨raw, h1, h2⟩ := hk k hkk
      exact ⟨raw, h1, fun p hp2 => h2 p (List.mem_cons_of_mem _ hp2)⟩
    · rw [e]
      apply ih _ hxs
      · intro k hkk
        rcases List.mem_append.mp hkk with hkk | hkk
        · obtain ⟨raw, h1, h2⟩ := hk k hkk
          exact ⟨raw, h1, fun p hp2 => h2 p (List.mem_cons_of_mem _ hp2)⟩
        · rw [List.mem_singleton] at hkk
          exact ⟨x, hkk, hx⟩
      · rw [List.pairwise_append]
        refine ⟨hp, List.pairwise_singleton _ _, ?_⟩
        intro a ha b hb
        rw [List.mem_singleton] at hb
        subst hb
        obtain ⟨raw, h1, h2⟩ := hk a ha
        obtain ⟨n1, n2⟩ := hnew a ha
        refine ⟨fun e2 => n1 e2.symm, n2, ?_⟩
        rw [h1]
        exact not_prefix_of_le raw x (h2 x (List.mem_cons_self _ _))

/-- What the loop has kept stays kept. -/
theorem foldl_dedupeStep_subset (l : List Str) (keep : List Str) (k : Str)
    (h : k ∈ keep) : k ∈ l.foldl dedupeStep keep := by
  induction l generalizing keep with
  | nil => exact h
  | cons x xs ih =>
    simp only [List.foldl_cons]
    apply ih
    rcases dedupeStep_cases keep x with ⟨e, _⟩ | ⟨e, _⟩
    · rw [e]
      exact h
    · rw [e]
      exact List.mem_append_left _ h

/-- Every kept root was kept before or is a path of the list, stripped. -/
theorem foldl_dedupeStep_mem (l : List Str) (keep : List Str) (k : Str)
    (h : k ∈ l.foldl dedupeStep keep) :
    k ∈ keep ∨ ∃ p ∈ l, k = trimSuffix p ['/'] := by
  induction l generalizing keep with
  | nil => exact Or.inl h
  | cons x xs ih =>
    simp only [List.foldl_cons] at h
    rcases ih _ h with h1 | ⟨p, hp, e⟩
    · rcases dedupeStep_cases keep x with ⟨e, _⟩ | ⟨e, _⟩
      · rw [e] at h1
        exact Or.inl h1
      · rw [e] at h1
        rcases List.mem_append.mp h1 with h1 | h1
        · exact Or.inl h1
        · rw [List.mem_singleton] at h1
          exact Or.inr ⟨x, List.mem_cons_self _ _, h1⟩
    · exact Or.inr ⟨p, List.mem_cons_of_mem _ hp, e⟩

/-- Every path of the list, stripped, is a kept root or lies below one. -/
theorem foldl_dedupeStep_covered (l : List Str) (keep : List Str) (p : Str) (hp : p ∈ l) :
    ∃ k ∈ l.foldl dedupeStep keep,
      trimSuffix p ['/'] = k ∨ (k ++ ['/']) <+: trimSuffix p ['/'] := by
  induction l generalizing keep with
  | nil => exact absurd hp (List.not_mem_nil _)
  | cons x xs ih =>
    simp only [List.foldl_cons]
    rcases List.mem_cons.mp hp with rfl | hp
    · rcases dedupeStep_cases keep p with ⟨e, k, hk, hc⟩ | ⟨e, _⟩
      · rw [e]
        exact ⟨k, foldl_dedupeStep_subset xs keep k hk, hc⟩
      · rw [e]
        exact ⟨_, foldl_dedupeStep_subset xs _ _ (List.mem_append_right _
          (List.mem_singleton_self _)), Or.inl rfl⟩
    · exact ih _ hp

theorem sortStrings_sorted (l : List Str) : (sortStrings l).Sorted (· ≤ ·) :=
  List.sorted_insertionSort _ l

theorem sortStrings_perm (l : List Str) : (sortStrings l).Perm l :=
  List.perm_insertionSort _ l

/-- Sorting forgets the input order. -/
theorem sortStrings_eq_of_perm (l1 l2 : List Str) (h : l1.Perm l2) :
    sortStrings l1 = sortStrings l2 :=
  List.eq_of_perm_of_sorted
    (((sortStrings_perm l1).trans h).trans (sortStrings_perm l2).symm)
    (sortStrings_sorted l1) (sortStrings_sorted l2)

/-- The result of `dedupeTopLevelDirs` is the loop run over the sorted input. -/
theorem dedupeTopLevelDirs_eq (paths : List Str) :
    dedupeTopLevelDirs paths = (sortStrings paths).foldl dedupeStep [] := by
  unfold dedupeTopLevelDirs
  split
  · rename_i h
    have : paths = [] := List.length_eq_zero.mp h
    subst this
    rfl
  · rfl

/-- The kept roots are pairwise distinct and none lies strictly below another. -/
theorem dedupeTopLevelDirs_pairwise (paths : List Str) :
    (dedupeTopLevelDirs paths).Pairwise
      (fun a b => a ≠ b ∧ ¬ (a ++ ['/']) <+: b ∧ ¬ (b ++ ['/']) <+: a) := by
  rw [dedupeTopLevelDirs_eq]
  exact foldl_dedupeStep_pairwise _ [] (sortStrings_sorted paths)
    (fun k hk => absurd hk (List.not_mem_nil _)) List.Pairwise.nil

/-- Permuted inputs give the same result. -/
theorem dedupeTopLevelDirs_perm (l1 l2 : List Str) (h : l1.Perm l2) :
    dedupeTopLevelDirs l1 = dedupeTopLevelDirs l2 := by
  rw [dedupeTopLevelDirs_eq, dedupeTopLevelDirs_eq, sortStrings_eq_of_perm l1 l2 h]

/-! ## Properties of `dedupeTopLevelDirs` -/

/-- C16: deduplication invariant.  Any two distinct positions of
`dedupeTopLevelDirs(paths)` hold different roots `A` and `B`, and neither is a
strict path-prefix of the other: `B` does not start with `A + "/"` and `A` does not
start with `B + "/"`. -/
theorem dedupe_no_nested (paths : List Str) (i j : Nat)
    (hi : i < (dedupeTopLevelDirs paths).length)
    (hj : j < (dedupeTopLevelDirs paths).length) (hij : i ≠ j) :
    (dedupeTopLevelDirs paths).get ⟨i, hi⟩ ≠ (dedupeTopLevelDirs paths).get ⟨j, hj⟩ ∧
    hasPrefix ((dedupeTopLevelDirs paths).get ⟨j, hj⟩)
      ((dedupeTopLevelDirs paths).get ⟨i, hi⟩ ++ ['/']) = false ∧
    hasPrefix ((dedupeTopLevelDirs paths).get ⟨i, hi⟩)
      ((dedupeTopLevelDirs paths).get ⟨j, hj⟩ ++ ['/']) = false := by
  have hp := List.pairwise_iff_get.mp (dedupeTopLevelDirs_pairwise paths)
  rcases Nat.lt_or_gt_of_ne hij with hlt | hgt
  · obtain ⟨h1, h2, h3⟩ := hp ⟨i, hi⟩ ⟨j, hj⟩ hlt
    refine ⟨h1, ?_, ?_⟩
    · exact Bool.eq_false_iff.mpr (fun e => h2 ((hasPrefix_iff _ _).mp e))
    · exact Bool.eq_false_iff.mpr (fun e => h3 ((hasPrefix_iff _ _).mp e))
  · obtain ⟨h1, h2, h3⟩ := hp ⟨j, hj⟩ ⟨i, hi⟩ hgt
    refine ⟨fun e => h1 e.symm, ?_, ?_⟩
    · exact Bool.eq_false_iff.mpr (fun e => h3 ((hasPrefix_iff _ _).mp e))
    · exact Bool.eq_false_iff.mpr (fun e => h2 ((hasPrefix_iff _ _).mp e))

theorem dedupe_no_nested_witness :
    (dedupeTopLevelDirs ["app".toList, "apple".toList, "app/sub".toList, "d/".toList]).get
        ⟨0, by decide⟩ ≠
      (dedupeTopLevelDirs ["app".toList, "apple".toList, "app/sub".toList, "d/".toList]).get
        ⟨2, by decide⟩ ∧
    hasPrefix ((dedupeTopLevelDirs
        ["app".toList, "apple".toList, "app/sub".toList, "d/".toList]).get ⟨2, by decide⟩)
      ((dedupeTopLevelDirs
        ["app".toList, "apple".toList, "app/sub".toList, "d/".toList]).get ⟨0, by decide⟩
        ++ ['/']) = false ∧
    hasPrefix ((dedupeTopLevelDirs
        ["app".toList, "apple".toList, "app/sub".toList, "d/".toList]).get ⟨0, by decide⟩)
      ((dedupeTopLevelDirs
        ["app".toList, "apple".toList, "app/sub".toList, "d/".toList]).get ⟨2, by decide⟩
        ++ ['/']) = false :=
  dedupe_no_nested ["app".toList, "apple".toList, "app/sub".toList, "d/".toList] 0 2
    (by decide) (by decide) (by decide)

/-- C17: `dedupeTopLevelDirs` is independent of the input order: lists that are
permutations of each other give the same result, and every ordering of
`a`, `a/b`, `a/b/c`, `d` gives `a`, `d`. -/
theorem dedupe_order_independent (l1 l2 : List Str) (h : l1.Perm l2) :
    dedupeTopLevelDirs l1 = dedupeTopLevelDirs l2 ∧
    (∀ l : List Str, l.Perm ["a".toList, "a/b".toList, "a/b/c".toList, "d".toList] →
      dedupeTopLevelDirs l = ["a".toList, "d".toList]) := by
  refine ⟨dedupeTopLevelDirs_perm l1 l2 h, ?_⟩
  intro l hl
  rw [dedupeTopLevelDirs_perm l _ hl]
  decide

theorem dedupe_order_independent_witness :
    dedupeTopLevelDirs ["d".toList, "a/b/c".toList, "a".toList, "a/b".toList]
      = dedupeTopLevelDirs ["a".toList, "a/b".toList, "a/b/c".toList, "d".toList] ∧
    (∀ l : List Str, l.Perm ["a".toList, "a/b".toList, "a/b/c".toList, "d".toList] →
      dedupeTopLevelDirs l = ["a".toList, "d".toList]) :=
  dedupe_order_independent ["d".toList, "a/b/c".toList, "a".toList, "a/b".toList]
    ["a".toList, "a/b".toList, "a/b/c".toList, "d".toList] (by decide)

/-- C18: coverage of deduplication.  Every returned root is an input path with one
trailing `"/"` stripped, and every input path, so stripped, equals a returned root
`k` or starts with `k + "/"`: a path is dropped only when an equal path or an
ancestor is kept. -/
theorem dedupe_coverage (paths : List Str) :
    (∀ k ∈ dedupeTopLevelDirs paths, ∃ p ∈ paths, k = trimSuffix p ['/']) ∧
    (∀ p ∈ paths, ∃ k ∈ dedupeTopLevelDirs paths,
      trimSuffix p ['/'] = k ∨ hasPrefix (trimSuffix p ['/']) (k ++ ['/']) = true) := by
  rw [dedupeTopLevelDirs_eq]
  constructor
  · intro k hk
    rcases foldl_dedupeStep_mem _ _ k hk with h | ⟨p, hp, e⟩
    · exact absurd h (List.not_mem_nil _)
    · exact ⟨p, (sortStrings_perm paths).mem_iff.mp hp, e⟩
  · intro p hp
    obtain ⟨k, hk, hc⟩ := foldl_dedupeStep_covered (sortStrings paths) [] p
      ((sortStrings_perm paths).mem_iff.mpr hp)
    refine ⟨k, hk, ?_⟩
    rcases hc with hc | hc
    · exact Or.inl hc
    · exact Or.inr ((hasPrefix_iff _ _).mpr hc)

/-- C20: `dedupeTopLevelDirs` of the empty list is the empty list. -/
theorem dedupe_nil : dedupeTopLevelDirs [] = [] ∧ dedupeTopLevelDirs [] ≠ [dot] := by
  decide

/-! ## `uniqueSorted` -/

/-- Membership in the key set built by the first loop of `uniqueSorted`. -/
theorem mem_foldl_uniqueSortedStep (input m : List Str) (s : Str) :
    s ∈ input.foldl uniqueSortedStep m ↔
      s ∈ m ∨ ∃ x ∈ input, s = (if x = dot then [] else x) := by
  induction input generalizing m with
  | nil => simp
  | cons a as ih =>
    simp only [List.foldl_cons]
    rw [ih]
    unfold uniqueSortedStep
    simp only
    by_cases hm : (if a = dot then [] else a) ∈ m
    · rw [if_pos hm]
      constructor
      · rintro (h | ⟨x, hx, e⟩)
        · exact Or.inl h
        · exact Or.inr ⟨x, List.mem_cons_of_mem _ hx, e⟩
      · rintro (h | ⟨x, hx, e⟩)
        · exact Or.inl h
        · rcases List.mem_cons.mp hx with rfl | hx
          · exact Or.inl (e ▸ hm)
          · exact Or.inr ⟨x, hx, e⟩
    · rw [if_neg hm]
      constructor
      · rintro (h | ⟨x, hx, e⟩)
        · rcases List.mem_append.mp h with h | h
          · exact Or.inl h
          · exact Or.inr ⟨a, List.mem_cons_self _ _, List.mem_singleton.mp h⟩
        · exact Or.inr ⟨x, List.mem_cons_of_mem _ hx, e⟩
      · rintro (h | ⟨x, hx, e⟩)
        · exact Or.inl (List.mem_append_left _ h)
        · rcases List.mem_cons.mp hx with rfl | hx
          · exact Or.inl (List.mem_append_right _ (List.mem_singleton.mpr e))
          · exact Or.inr ⟨x, hx, e⟩

/-- The key set holds no key twice. -/
theorem nodup_foldl_uniqueSortedStep (input m : List Str) (h : m.Nodup) :
    (input.foldl uniqueSortedStep m).Nodup := by
  induction input generalizing m with
  | nil => exact h
  | cons a as ih =>
    simp only [List.foldl_cons]
    apply ih
    unfold uniqueSortedStep
    simp only
    by_cases hm : (if a = dot then [] else a) ∈ m
    · rw [if_pos hm]
      exact h
    · rw [if_neg hm]
      rw [List.nodup_append]
      refine ⟨h, List.nodup_singleton _, ?_⟩
      intro x hx hx2
      rw [List.mem_singleton] at hx2
      exact hm (hx2 ▸ hx)

/-- Membership in the result of `uniqueSorted`. -/
theorem mem_uniqueSorted (input : List Str) (s : Str) :
    s ∈ uniqueSorted input ↔ ∃ x ∈ input, s = (if x = dot then [] else x) := by
  unfold uniqueSorted
  rw [(sortStrings_perm _).mem_iff, mem_foldl_uniqueSortedStep]
  simp

/-- The result of `uniqueSorted` is strictly ascending. -/
theorem uniqueSorted_strictly_sorted (input : List Str) :
    (uniqueSorted input).Sorted (· < ·) := by
  unfold uniqueSorted
  apply (sortStrings_sorted _).lt_of_le
  exact (sortStrings_perm _).nodup_iff.mpr
    (nodup_foldl_uniqueSortedStep input [] List.nodup_nil)

/-- The slice of directories `kustomizationDirsFromFiles` builds. -/
theorem foldl_relDir_eq_map (files : List Str) (base : Str) (dirs : List Str) :
    files.foldl (fun dirs f => dirs ++ [relDir base (dirPath f)]) dirs
      = dirs ++ files.map (fun f => relDir base (dirPath f)) := by
  induction files generalizing dirs with
  | nil => simp
  | cons f fs ih =>
    simp only [List.foldl_cons, List.map_cons]
    rw [ih]
    simp

theorem kustomizationDirsFromFiles_eq (files : List Str) (base : Str) :
    kustomizationDirsFromFiles files base
      = uniqueSorted (files.map (fun f => relDir base (dirPath f))) := by
  unfold kustomizationDirsFromFiles
  rw [foldl_relDir_eq_map]
  simp

/-! ## More on `dedupeTopLevelDirs` -/

theorem trimSuffix_of_not_hasSuffix (p suf : Str) (h : hasSuffix p suf = false) :
    trimSuffix p suf = p := by
  unfold trimSuffix
  simp [h]

/-- A kept root is an input path, stripped. -/
theorem dedupeTopLevelDirs_mem_input (paths : List Str) (k : Str)
    (hk : k ∈ dedupeTopLevelDirs paths) : ∃ p ∈ paths, k = trimSuffix p ['/'] := by
  rw [dedupeTopLevelDirs_eq] at hk
  rcases foldl_dedupeStep_mem _ _ k hk with h | ⟨p, hp, e⟩
  · exact absurd h (List.not_mem_nil _)
  · exact ⟨p, (sortStrings_perm paths).mem_iff.mp hp, e⟩

/-- An input path, stripped, is a kept root or lies below one. -/
theorem dedupeTopLevelDirs_covered (paths : List Str) (p : Str) (hp : p ∈ paths) :
    ∃ k ∈ dedupeTopLevelDirs paths,
      trimSuffix p ['/'] = k ∨ (k ++ ['/']) <+: trimSuffix p ['/'] := by
  rw [dedupeTopLevelDirs_eq]
  exact foldl_dedupeStep_covered (sortStrings paths) [] p
    ((sortStrings_perm paths).mem_iff.mpr hp)

/-- Two kept roots are never nested. -/
theorem dedupeTopLevelDirs_not_nested (paths : List Str) (a b : Str)
    (ha : a ∈ dedupeTopLevelDirs paths) (hb : b ∈ dedupeTopLevelDirs paths) :
    ¬ (a ++ ['/']) <+: b := by
  intro h
  have hab : a ≠ b := by
    intro e
    subst e
    have := h.length_le
    simp at this
  have hp := dedupeTopLevelDirs_pairwise paths
  have hsymm : Symmetric (fun x y : Str =>
      x ≠ y ∧ ¬ (x ++ ['/']) <+: y ∧ ¬ (y ++ ['/']) <+: x) :=
    fun x y ⟨h1, h2, h3⟩ => ⟨fun e => h1 e.symm, h3, h2⟩
  exact (hp.forall hsymm ha hb hab).2.1 h

/-- C30: for input paths without a trailing `"/"`, a path is in the result of
`dedupeTopLevelDirs` exactly when it is an input path and no other input path `q`
is an ancestor of it (`p` starts with `q + "/"`); a path that merely shares a
string prefix with another is kept, so `app` and `apple` both stay. -/
theorem dedupe_keeps_exactly_top_level (paths : List Str)
    (h : ∀ p ∈ paths, hasSuffix p ['/'] = false) (p : Str) :
    (p ∈ dedupeTopLevelDirs paths ↔
      p ∈ paths ∧ ∀ q ∈ paths, q ≠ p → hasPrefix p (q ++ ['/']) = false) ∧
    dedupeTopLevelDirs ["app".toList, "apple".toList] = ["app".toList, "apple".toList] := by
  refine ⟨?_, by decide⟩
  constructor
  · intro hp
    have hin : p ∈ paths := by
      obtain ⟨x, hx, e⟩ := dedupeTopLevelDirs_mem_input paths p hp
      rw [trimSuffix_of_not_hasSuffix x _ (h x hx)] at e
      exact e ▸ hx
    refine ⟨hin, ?_⟩
    intro q hq _
    apply Bool.eq_false_iff.mpr
    intro hpre
    have hqp : (q ++ ['/']) <+: p := (hasPrefix_iff _ _).mp hpre
    obtain ⟨k, hk, hc⟩ := dedupeTopLevelDirs_covered paths q hq
    rw [trimSuffix_of_not_hasSuffix q _ (h q hq)] at hc
    have hkp : (k ++ ['/']) <+: p := by
      rcases hc with e | e
      · rw [← e]
        exact hqp
      · exact e.trans ((List.prefix_append q ['/']).trans hqp)
    exact dedupeTopLevelDirs_not_nested paths k p hk hp hkp
  · rintro ⟨hin, hno⟩
    obtain ⟨k, hk, hc⟩ := dedupeTopLevelDirs_covered paths p hin
    rw [trimSuffix_of_not_hasSuffix p _ (h p hin)] at hc
    rcases hc with e | e
    · rw [e]
      exact hk
    · exfalso
      obtain ⟨x, hx, ex⟩ := dedupeTopLevelDirs_mem_input paths k hk
      rw [trimSuffix_of_not_hasSuffix x _ (h x hx)] at ex
      subst ex
      have hne : k ≠ p := by
        intro e2
        rw [e2] at e
        have := e.length_le
        simp at this
      have := hno k hx hne
      rw [(hasPrefix_iff _ _).mpr e] at this
      exact absurd this (by simp)

theorem dedupe_keeps_exactly_top_level_witness :
    ("apps/b".toList ∈ dedupeTopLevelDirs
        ["apps/b/overlays".toList, "apps/b".toList, "apps/bb".toList, "lib".toList] ↔
      "apps/b".toList ∈
        ["apps/b/overlays".toList, "apps/b".toList, "apps/bb".toList, "lib".toList] ∧
      ∀ q ∈ ["apps/b/overlays".toList, "apps/b".toList, "apps/bb".toList, "lib".toList],
        q ≠ "apps/b".toList → hasPrefix "apps/b".toList (q ++ ['/']) = false) ∧
    dedupeTopLevelDirs ["app".toList, "apple".toList] = ["app".toList, "apple".toList] :=
  dedupe_keeps_exactly_top_level
    ["apps/b/overlays".toList, "apps/b".toList, "apps/bb".toList, "lib".toList]
    (by decide) "apps/b".toList

/-! ## `verifySHA256` -/

theorem hexDigit_utf8Size (n : Nat) : (hexDigit n).utf8Size = 1 := by
  by_cases h : n < 16
  · have hall : ∀ m, m < 16 → (hexDigit m).utf8Size = 1 := by decide
    exact hall n h
  · have : "0123456789abcdef".toList.length ≤ n := by
      simp only [not_lt] at h
      exact h
    unfold hexDigit
    rw [List.getD_eq_default _ _ this]
    decide

/-- The hexadecimal encoding has two characters for each byte. -/
theorem hexEncode_length (bytes : List Nat) : (hexEncode bytes).length = 2 * bytes.length := by
  induction bytes with
  | nil => rfl
  | cons b bs ih =>
    simp only [hexEncode, List.flatMap_cons, List.length_append, List.length_cons,
      List.length_nil] at ih ⊢
    omega

/-- The hexadecimal encoding is ASCII: two bytes for each byte encoded. -/
theorem hexEncode_len (bytes : List Nat) : len (hexEncode bytes) = 2 * bytes.length := by
  induction bytes with
  | nil => rfl
  | cons b bs ih =>
    simp only [len, hexEncode, List.flatMap_cons, List.map_append, List.sum_append,
      List.map_cons, List.map_nil, List.sum_cons, List.sum_nil, hexDigit_utf8Size,
      List.length_cons] at ih ⊢
    omega

/-- Lower-casing ASCII letters leaves white space alone. -/
theorem asciiToLower_isSpace (c : Char) (h : isSpace c = true) :
    isSpace (asciiToLower c) = true := by
  have hc : ¬ (65 ≤ c.toNat ∧ c.toNat ≤ 90) := by
    simp only [isSpace, Bool.or_eq_true, Bool.and_eq_true, decide_eq_true_eq, beq_iff_eq] at h
    omega
  unfold asciiToLower
  rw [if_neg hc]
  exact h

/-- When the trimmed, lower-cased digest is empty, so is the fully normalized one. -/
theorem normalized_digest_nil (s : Str) (h : s = []) :
    (trimPrefix s "sha256:".toList).filter (· != ' ') = [] := by
  subst h
  rfl

/-- The result of `verifySHA256` once the trimmed digest is not empty. -/
theorem verifySHA256_of_ne_nil (toLower : Char → Char) (sha256Sum : List Nat → List Nat)
    (file : Option (List Nat)) (expected : Str)
    (h : trimSpace (expected.map toLower) ≠ []) :
    verifySHA256 toLower sha256Sum file expected =
      if len ((trimPrefix (trimSpace (expected.map toLower)) "sha256:".toList).filter
          (· != ' ')) ≠ 64 then
        some (VerifyError.invalidLength
          (len ((trimPrefix (trimSpace (expected.map toLower)) "sha256:".toList).filter
            (· != ' '))))
      else
        match file with
        | none => some VerifyError.openFailed
        | some content =>
          if hexEncode (sha256Sum content) ≠
              (trimPrefix (trimSpace (expected.map toLower)) "sha256:".toList).filter
                (· != ' ') then
            some (VerifyError.mismatch
              ((trimPrefix (trimSpace (expected.map toLower)) "sha256:".toList).filter
                (· != ' '))
              (hexEncode (sha256Sum content)))
          else none := by
  unfold verifySHA256
  simp only
  refine (if_neg h).trans ?_
  cases file with
  | none => rfl
  | some content => rfl

/-- C28: `verifySHA256` rejects a malformed digest.  When the expected string,
lower-cased, trimmed, without a leading `"sha256:"` and without spaces, is not
empty and is not 64 characters long (or not 64 bytes long), an error is returned
whatever the file is. -/
theorem verifySHA256_rejects_malformed (toLower : Char → Char)
    (sha256Sum : List Nat → List Nat) (h32 : ∀ c, (sha256Sum c).length = 32)
    (file : Option (List Nat)) (expected : Str)
    (hne : (trimPrefix (trimSpace (expected.map toLower)) "sha256:".toList).filter
      (· != ' ') ≠ [])
    (hlen : ((trimPrefix (trimSpace (expected.map toLower)) "sha256:".toList).filter
        (· != ' ')).length ≠ 64 ∨
      len ((trimPrefix (trimSpace (expected.map toLower)) "sha256:".toList).filter
        (· != ' ')) ≠ 64) :
    ∃ err, verifySHA256 toLower sha256Sum file expected = some err := by
  have hs : trimSpace (expected.map toLower) ≠ [] :=
    fun e => hne (normalized_digest_nil _ e)
  rw [verifySHA256_of_ne_nil _ _ _ _ hs]
  split
  · exact ⟨_, rfl⟩
  · rename_i hl
    cases file with
    | none => exact ⟨_, rfl⟩
    | some content =>
      simp only
      split
      · exact ⟨_, rfl⟩
      · rename_i heq
        exfalso
        have heq2 := not_not.mp heq
        rcases hlen with h | h
        · apply h
          rw [← heq2, hexEncode_length, h32]
        · apply h
          rw [← heq2, hexEncode_len, h32]

theorem verifySHA256_rejects_malformed_witness :
    (∃ err, verifySHA256 asciiToLower (fun _ => List.replicate 32 0) (some [104, 105])
      "badsha".toList = some err) ∧
    (∃ err, verifySHA256 asciiToLower (fun _ => List.replicate 32 0) none
      "short".toList = some err) :=
  ⟨verifySHA256_rejects_malformed asciiToLower (fun _ => List.replicate 32 0)
      (fun _ => List.length_replicate 32 0) (some [104, 105]) "badsha".toList
      (by decide) (Or.inl (by decide)),
   verifySHA256_rejects_malformed asciiToLower (fun _ => List.replicate 32 0)
      (fun _ => List.length_replicate 32 0) none "short".toList
      (by decide) (Or.inl (by decide))⟩

/-- C29: `verifySHA256` succeeds exactly when the digest matches.  For a readable
file and an expected string that normalizes (lower-case, trimmed, without a leading
`"sha256:"` and without spaces) to 64 characters (or 64 bytes), no error is
returned exactly when the normalized string is the hexadecimal SHA-256 of the
content; and an expected string that is empty or only white space gives no error,
whatever the file is. -/
theorem verifySHA256_ok_iff (toLower : Char → Char) (sha256Sum : List Nat → List Nat)
    (h32 : ∀ c, (sha256Sum c).length = 32)
    (hsp : ∀ c, isSpace c = true → isSpace (toLower c) = true)
    (content : List Nat) (expected : Str)
    (hlen : ((trimPrefix (trimSpace (expected.map toLower)) "sha256:".toList).filter
        (· != ' ')).length = 64 ∨
      len ((trimPrefix (trimSpace (expected.map toLower)) "sha256:".toList).filter
        (· != ' ')) = 64) :
    (verifySHA256 toLower sha256Sum (some content) expected = none ↔
      (trimPrefix (trimSpace (expected.map toLower)) "sha256:".toList).filter (· != ' ')
        = hexEncode (sha256Sum content)) ∧
    (∀ (file : Option (List Nat)) (blank : Str), (∀ c ∈ blank, isSpace c = true) →
      verifySHA256 toLower sha256Sum file blank = none) := by
  constructor
  · have hs : trimSpace (expected.map toLower) ≠ [] := by
      intro e
      have hn := normalized_digest_nil _ e
      rw [hn] at hlen
      rcases hlen with h | h
      · simp at h
      · simp [len] at h
    rw [verifySHA256_of_ne_nil _ _ _ _ hs]
    split
    · rename_i hl
      constructor
      · intro h
        exact absurd h (by simp)
      · intro h
        exfalso
        apply hl
        rw [h, hexEncode_len, h32]
    · simp only
      split
      · rename_i hneq
        constructor
        · intro h
          exact absurd h (by simp)
        · intro h
          exact absurd h.symm hneq
      · rename_i heq
        constructor
        · intro _
          exact (not_not.mp heq).symm
        · intro _
          rfl
  · intro file blank hb
    unfold verifySHA256
    simp only
    have hall : ∀ c ∈ blank.map toLower, isSpace c = true := by
      intro c hc
      obtain ⟨d, hd, rfl⟩ := List.mem_map.mp hc
      exact hsp d (hb d hd)
    have : trimSpace (blank.map toLower) = [] := by
      unfold trimSpace
      rw [List.dropWhile_eq_nil_iff.mpr hall]
      rfl
    rw [if_pos this]

theorem verifySHA256_ok_iff_witness :
    (verifySHA256 asciiToLower (fun _ => List.replicate 32 171) (some [104, 105])
        "  SHA256:ABABABAB abababab ABABABAB abababab ABABABAB abababab ABABABAB abababab ".toList
        = none ↔
      (trimPrefix (trimSpace
        ("  SHA256:ABABABAB abababab ABABABAB abababab ABABABAB abababab ABABABAB abababab ".toList.map
          asciiToLower)) "sha256:".toList).filter (· != ' ')
        = hexEncode ((fun _ => List.replicate 32 171) [104, 105])) ∧
    (∀ (file : Option (List Nat)) (blank : Str), (∀ c ∈ blank, isSpace c = true) →
      verifySHA256 asciiToLower (fun _ => List.replicate 32 171) file blank = none) :=
  verifySHA256_ok_iff asciiToLower (fun _ => List.replicate 32 171)
    (fun _ => List.length_replicate 32 171) asciiToLower_isSpace [104, 105]
    "  SHA256:ABABABAB abababab ABABABAB abababab ABABABAB abababab ABABABAB abababab ".toList
    (Or.inl (by decide))

/-! ## Path elements -/

theorem isFileName_iff (n : Str) :
    isFileName n = true ↔ n ≠ [] ∧ '/' ∉ n ∧ n ≠ dot ∧ n ≠ dotdot := by
  simp [isFileName, and_assoc]

theorem splitOn_cons_sep (s : Str) : ('/' :: s).splitOn '/' = [] :: s.splitOn '/' := by
  simp [List.splitOn]

theorem splitOn_of_not_mem (n : Str) (h : '/' ∉ n) : n.splitOn '/' = [n] := by
  unfold List.splitOn
  apply List.splitOnP_eq_single
  intro x hx hp
  have : x = '/' := by simpa using hp
  exact h (this ▸ hx)

/-- Splitting a path that ends in a slash and a slash-free element. -/
theorem splitOn_append_sep (p n : Str) (h : '/' ∉ n) :
    (p ++ '/' :: n).splitOn '/' = p.splitOn '/' ++ [n] := by
  induction p with
  | nil =>
    rw [List.nil_append, splitOn_cons_sep, splitOn_of_not_mem n h]
    rfl
  | cons x xs ih =>
    have hne : xs.splitOn '/' ≠ [] := List.splitOnP_ne_nil _ _
    simp only [List.splitOn] at ih hne ⊢
    rw [List.cons_append, List.splitOnP_cons, List.splitOnP_cons, ih]
    by_cases hx : (x == '/') = true
    · simp [hx]
    · simp only [hx, if_false]
      cases hs : List.splitOnP (fun x => x == '/') xs with
      | nil => exact absurd hs hne
      | cons a t => simp

/-- The elements of a split path hold no slash. -/
theorem not_mem_of_mem_splitOn (p c : Str) (h : c ∈ p.splitOn '/') : '/' ∉ c := by
  induction p generalizing c with
  | nil =>
    simp [List.splitOn] at h
    subst h
    simp
  | cons x xs ih =>
    have hne : xs.splitOn '/' ≠ [] := List.splitOnP_ne_nil _ _
    simp only [List.splitOn] at ih hne h
    rw [List.splitOnP_cons] at h
    by_cases hx : (x == '/') = true
    · rw [if_pos hx, List.mem_cons] at h
      rcases h with h | h
      · rw [h]
        simp
      · exact ih c h
    · rw [if_neg hx] at h
      cases hs : List.splitOnP (fun x => x == '/') xs with
      | nil => exact absurd hs hne
      | cons a t =>
        rw [hs] at h ih
        simp only [List.modifyHead_cons, List.mem_cons] at h
        rcases h with h | h
        · rw [h]
          intro hm
          rcases List.mem_cons.mp hm with e | hm
          · exact hx (by simp [← e])
          · exact ih a (List.mem_cons_self _ _) hm
        · exact ih c (List.mem_cons_of_mem _ h)

theorem canonStack_tail (r : Bool) (c : Str) (rest : List Str)
    (h : canonStack r (c :: rest)) : canonStack r rest := h.2.2

/-- One step of `Clean` keeps the written elements canonical. -/
theorem canonStack_cleanStep (r : Bool) (out : List Str) (c : Str)
    (h : canonStack r out) (hc : '/' ∉ c) : canonStack r (cleanStep r out c) := by
  unfold cleanStep
  by_cases h1 : c = [] ∨ c = dot
  · rw [if_pos h1]
    exact h
  · rw [if_neg h1]
    have hc1 : c ≠ [] := fun e => h1 (Or.inl e)
    have hc2 : c ≠ dot := fun e => h1 (Or.inr e)
    by_cases h2 : c = dotdot
    · rw [if_pos h2]
      cases out with
      | nil =>
        cases r with
        | true => simp [canonStack]
        | false =>
          simp only [Bool.false_eq_true, if_false]
          exact ⟨⟨hc1, hc, hc2⟩, fun _ => ⟨rfl, Or.inl rfl⟩, trivial⟩
      | cons t rest =>
        simp only
        by_cases h3 : t = dotdot
        · rw [if_pos h3]
          refine ⟨⟨hc1, hc, hc2⟩, fun _ => ⟨(h.2.1 h3).1, Or.inr ?_⟩, h⟩
          simp [h3]
        · rw [if_neg h3]
          exact h.2.2
    · rw [if_neg h2]
      exact ⟨⟨hc1, hc, hc2⟩, fun e => absurd e h2, h⟩

theorem canonStack_foldl (r : Bool) (xs : List Str) (out : List Str)
    (h : canonStack r out) (hxs : ∀ c ∈ xs, '/' ∉ c) :
    canonStack r (xs.foldl (cleanStep r) out) := by
  induction xs generalizing out with
  | nil => exact h
  | cons x xs ih =>
    simp only [List.foldl_cons]
    exact ih _ (canonStack_cleanStep r out x h (hxs x (List.mem_cons_self _ _)))
      (fun c hc => hxs c (List.mem_cons_of_mem _ hc))

/-- A canonical element is pushed by `Clean` as it is. -/
theorem cleanStep_canon (r : Bool) (c : Str) (rest : List Str)
    (h : canonStack r (c :: rest)) : cleanStep r rest c = c :: rest := by
  obtain ⟨⟨h1, _, h3⟩, h4, _⟩ := h
  unfold cleanStep
  rw [if_neg (by rintro (e | e); exact h1 e; exact h3 e)]
  by_cases h2 : c = dotdot
  · rw [if_pos h2]
    obtain ⟨hr, hrest⟩ := h4 h2
    cases rest with
    | nil => simp [hr]
    | cons t rest' =>
      rcases hrest with e | e
      · exact absurd e (by simp)
      · have ht : t = dotdot := by simpa using e
        simp [ht]
  · rw [if_neg h2]

/-- Cleaning canonical elements again gives them back. -/
theorem foldl_cleanStep_canon (r : Bool) (st : List Str) (h : canonStack r st) :
    st.reverse.foldl (cleanStep r) [] = st := by
  induction st with
  | nil => rfl
  | cons c rest ih =>
    rw [List.reverse_cons, List.foldl_append, ih (canonStack_tail r c rest h)]
    simp only [List.foldl_cons, List.foldl_nil]
    exact cleanStep_canon r c rest h

/-- A file name on top of a canonical stack is canonical. -/
theorem canonStack_cons_fileName (r : Bool) (n : Str) (st : List Str)
    (hn : isFileName n = true) (h : canonStack r st) : canonStack r (n :: st) := by
  obtain ⟨h1, h2, h3, h4⟩ := (isFileName_iff n).mp hn
  exact ⟨⟨h1, h2, h3⟩, fun e => absurd e h4, h⟩

theorem canonStack_append_fileNames (r : Bool) (ns : List Str) (st : List Str)
    (hns : ∀ n ∈ ns, isFileName n = true) (h : canonStack r st) :
    canonStack r (ns.reverse ++ st) := by
  induction ns generalizing st with
  | nil => exact h
  | cons n ns ih =>
    rw [List.reverse_cons, List.append_assoc]
    apply ih (n :: st) (fun m hm => hns m (List.mem_cons_of_mem _ hm))
    exact canonStack_cons_fileName r n st (hns n (List.mem_cons_self _ _)) h

theorem canonStack_elem (r : Bool) (st : List Str) (h : canonStack r st) (c : Str)
    (hc : c ∈ st) : c ≠ [] ∧ '/' ∉ c ∧ c ≠ dot := by
  induction st with
  | nil => exact absurd hc (List.not_mem_nil _)
  | cons a rest ih =>
    rcases List.mem_cons.mp hc with rfl | hc
    · exact h.1
    · exact ih h.2.2 hc

/-- The elements `Clean` keeps are canonical. -/
theorem canonStack_cleanElems (p : Str) : canonStack (isRooted p) (cleanElems p).reverse := by
  unfold cleanElems
  rw [List.reverse_reverse]
  exact canonStack_foldl _ _ [] trivial (fun c hc => not_mem_of_mem_splitOn p c hc)

/-! ## Rendering and cleaning paths -/

theorem renderPath_ne_nil (r : Bool) (cs : List Str) : renderPath r cs ≠ [] := by
  unfold renderPath
  simp only
  by_cases h : ((if r = true then ['/'] else []) ++ ['/'].intercalate cs) = []
  · rw [if_pos h]
    simp [dot]
  · rw [if_neg h]
    exact h

theorem intercalate_singleton (n : Str) : ['/'].intercalate [n] = n := by
  simp [List.intercalate]

theorem intercalate_cons_cons (a b : Str) (t : List Str) :
    ['/'].intercalate (a :: b :: t) = a ++ '/' :: ['/'].intercalate (b :: t) := by
  simp [List.intercalate]

/-- Joining one more element at the end. -/
theorem intercalate_snoc (cs : List Str) (n : Str) (h : cs ≠ []) :
    ['/'].intercalate (cs ++ [n]) = ['/'].intercalate cs ++ '/' :: n := by
  induction cs with
  | nil => exact absurd rfl h
  | cons a t ih =>
    cases t with
    | nil => simp [List.intercalate]
    | cons b t' =>
      rw [List.cons_append, List.cons_append, intercalate_cons_cons, intercalate_cons_cons,
        ← List.cons_append, ih (by simp)]
      simp

/-- The slash-free, non-empty elements of a canonical list. -/
theorem canon_elems (r : Bool) (cs : List Str) (h : canonStack r cs.reverse) :
    ∀ c ∈ cs, c ≠ [] ∧ '/' ∉ c ∧ c ≠ dot :=
  fun c hc => canonStack_elem r _ h c (List.mem_reverse.mpr hc)

theorem splitOn_intercalate_canon (r : Bool) (cs : List Str) (h : canonStack r cs.reverse)
    (hne : cs ≠ []) : (['/'].intercalate cs).splitOn '/' = cs :=
  List.splitOn_intercalate cs '/' (fun l hl => (canon_elems r cs h l hl).2.1) hne

/-- A canonical list of elements, joined, begins with a character other than the
slash. -/
theorem intercalate_canon_head (r : Bool) (cs : List Str) (h : canonStack r cs.reverse)
    (hne : cs ≠ []) : ∃ a s, ['/'].intercalate cs = a :: s ∧ a ≠ '/' := by
  have hs := splitOn_intercalate_canon r cs h hne
  cases hi : ['/'].intercalate cs with
  | nil =>
    rw [hi] at hs
    have : cs = [[]] := by
      rw [← hs]
      rfl
    exact absurd rfl (canon_elems r cs h [] (by rw [this]; simp)).1
  | cons a s =>
    refine ⟨a, s, rfl, ?_⟩
    intro ha
    rw [hi, ha, splitOn_cons_sep] at hs
    exact absurd rfl (canon_elems r cs h [] (by rw [← hs]; simp)).1

/-- The elements of a rendered canonical path. -/
theorem splitOn_renderPath (r : Bool) (cs : List Str) (h : canonStack r cs.reverse)
    (hne : cs ≠ []) :
    (renderPath r cs).splitOn '/' = (if r then [[]] else []) ++ cs := by
  obtain ⟨a, s, hi, ha⟩ := intercalate_canon_head r cs h hne
  have hs := splitOn_intercalate_canon r cs h hne
  unfold renderPath
  simp only
  cases r with
  | true =>
    simp only [if_true, List.singleton_append]
    rw [if_neg (by simp), splitOn_cons_sep, hs]
  | false =>
    simp only [Bool.false_eq_true, if_false, List.nil_append]
    rw [if_neg (by rw [hi]; simp), hs]

theorem isRooted_cons (a : Char) (s : Str) : isRooted (a :: s) = decide (a = '/') := by
  by_cases h : a = '/'
  · subst h
    simp [isRooted, hasPrefix, List.isPrefixOf]
  · have h2 : ¬ '/' = a := fun e => h e.symm
    simp [isRooted, hasPrefix, List.isPrefixOf, h, h2]

theorem isRooted_append (p q : Str) (h : p ≠ []) : isRooted (p ++ q) = isRooted p := by
  cases p with
  | nil => exact absurd rfl h
  | cons a s => rw [List.cons_append, isRooted_cons, isRooted_cons]

theorem isRooted_renderPath (r : Bool) (cs : List Str) (h : canonStack r cs.reverse) :
    isRooted (renderPath r cs) = r := by
  by_cases hne : cs = []
  · subst hne
    cases r <;> decide
  · obtain ⟨a, s, hi, ha⟩ := intercalate_canon_head r cs h hne
    unfold renderPath
    simp only
    cases r with
    | true =>
      simp only [if_true, List.singleton_append]
      rw [if_neg (by simp), isRooted_cons]
      simp
    | false =>
      simp only [Bool.false_eq_true, if_false, List.nil_append]
      rw [if_neg (by rw [hi]; simp), hi, isRooted_cons]
      simp [ha]

/-- Cleaning a rendered canonical path gives its elements back. -/
theorem cleanElems_renderPath (r : Bool) (cs : List Str) (h : canonStack r cs.reverse) :
    cleanElems (renderPath r cs) = cs := by
  by_cases hne : cs = []
  · subst hne
    cases r <;> decide
  · unfold cleanElems
    rw [isRooted_renderPath r cs h, splitOn_renderPath r cs h hne]
    have hfix := foldl_cleanStep_canon r cs.reverse h
    rw [List.reverse_reverse] at hfix
    cases r with
    | true =>
      simp only [if_true, List.singleton_append, List.foldl_cons]
      have : cleanStep true [] [] = [] := by simp [cleanStep]
      rw [this, hfix, List.reverse_reverse]
    | false =>
      simp only [Bool.false_eq_true, if_false, List.nil_append]
      rw [hfix, List.reverse_reverse]

theorem cleanPath_of_ne_nil (p : Str) (h : p ≠ []) :
    cleanPath p = renderPath (isRooted p) (cleanElems p) := by
  unfold cleanPath
  rw [if_neg h]

/-- `Clean` leaves a rendered canonical path as it is. -/
theorem cleanPath_renderPath (r : Bool) (cs : List Str) (h : canonStack r cs.reverse) :
    cleanPath (renderPath r cs) = renderPath r cs := by
  rw [cleanPath_of_ne_nil _ (renderPath_ne_nil r cs), isRooted_renderPath r cs h,
    cleanElems_renderPath r cs h]

theorem cleanElems_append_fileName (p n : Str) (hp : p ≠ []) (hn : isFileName n = true) :
    cleanElems (p ++ ['/'] ++ n) = cleanElems p ++ [n] := by
  obtain ⟨h1, h2, h3, h4⟩ := (isFileName_iff n).mp hn
  unfold cleanElems
  rw [List.append_assoc, isRooted_append p _ hp]
  have : (['/'] ++ n : Str) = '/' :: n := rfl
  rw [this, splitOn_append_sep p n h2, List.foldl_append]
  simp only [List.foldl_cons, List.foldl_nil]
  have hstep : ∀ out, cleanStep (isRooted p) out n = n :: out := by
    intro out
    unfold cleanStep
    rw [if_neg (by rintro (e | e); exact h1 e; exact h3 e), if_neg h4]
  rw [hstep]
  simp

/-- `Join` of a path and a file name appends the name to the cleaned path. -/
theorem joinPath_fileName (p n : Str) (hp : p ≠ []) (hn : isFileName n = true) :
    joinPath p n = renderPath (isRooted p) (cleanElems p ++ [n]) := by
  unfold joinPath
  rw [if_pos hp, cleanPath_of_ne_nil _ (by simp [hp]), cleanElems_append_fileName p n hp hn,
    List.append_assoc, isRooted_append p _ hp]

theorem canon_append_fileNames (r : Bool) (cs ns : List Str) (h : canonStack r cs.reverse)
    (hns : ∀ n ∈ ns, isFileName n = true) : canonStack r (cs ++ ns).reverse := by
  rw [List.reverse_append]
  exact canonStack_append_fileNames r ns _ hns h

theorem walkPath_nil (root : Str) : walkPath root [] = root := rfl

theorem walkPath_snoc (root : Str) (cs : List Str) (n : Str) :
    walkPath root (cs ++ [n]) = joinPath (walkPath root cs) n := by
  simp [walkPath, List.foldl_append]

/-- The path of an entry below the root: the cleaned root followed by the names. -/
theorem walkPath_eq_render (root : Str) (comps : List Str) (hroot : root ≠ [])
    (hns : ∀ n ∈ comps, isFileName n = true) (hne : comps ≠ []) :
    walkPath root comps = renderPath (isRooted root) (cleanElems root ++ comps) := by
  induction comps using List.reverseRecOn with
  | nil => exact absurd rfl hne
  | append_singleton cs n ih =>
    have hn : isFileName n = true := hns n (by simp)
    have hcs : ∀ m ∈ cs, isFileName m = true := fun m hm => hns m (by simp [hm])
    rw [walkPath_snoc]
    by_cases hc : cs = []
    · subst hc
      rw [walkPath_nil, joinPath_fileName root n hroot hn, List.nil_append]
    · rw [ih hcs hc]
      have hcanon := canon_append_fileNames (isRooted root) (cleanElems root) cs
        (canonStack_cleanElems root) hcs
      rw [joinPath_fileName _ n (renderPath_ne_nil _ _) hn, isRooted_renderPath _ _ hcanon,
        cleanElems_renderPath _ _ hcanon, List.append_assoc]

/-! ## Base name and relative path of a walked entry -/

/-- The last element of a path that ends in a file name is its base name. -/
theorem basePath_append_fileName (y n : Str) (hn : isFileName n = true)
    (hy : y = [] ∨ ∃ y1, y = y1 ++ ['/']) : basePath (y ++ n) = n := by
  obtain ⟨h1, h2, _, _⟩ := (isFileName_iff n).mp hn
  have hlast : ∀ hl : y ++ n ≠ [], ((y ++ n).getLast hl == '/') = false := by
    intro hl
    rw [List.getLast_append_of_ne_nil h1]
    have hm := List.getLast_mem h1
    by_contra hc
    have : n.getLast h1 = '/' := by simpa using hc
    exact h2 (this ▸ hm)
  have hq : (y ++ n).rdropWhile (· == '/') = y ++ n := by
    rw [List.rdropWhile_eq_self_iff]
    intro hl
    simp [hlast hl]
  have hall : ∀ a ∈ n.reverse, (a != '/') = true := by
    intro a ha
    have : a ∈ n := List.mem_reverse.mp ha
    simp only [bne_iff_ne, ne_eq]
    intro e
    exact h2 (e ▸ this)
  have hr : (y ++ n).rtakeWhile (· != '/') = n := by
    unfold List.rtakeWhile
    rw [List.reverse_append, List.takeWhile_append_of_pos hall]
    have : List.takeWhile (fun x => x != '/') y.reverse = [] := by
      rcases hy with e | ⟨y1, e⟩
      · subst e
        rfl
      · subst e
        simp
    rw [this]
    simp
  unfold basePath
  rw [if_neg (by simp [h1])]
  simp only
  rw [hq, hr, if_neg h1]

/-- A rendered path whose last element is a file name ends in that name, right
after a slash or at the start. -/
theorem renderPath_snoc (r : Bool) (cs : List Str) (n : Str) (hn : isFileName n = true) :
    ∃ y, renderPath r (cs ++ [n]) = y ++ n ∧ (y = [] ∨ ∃ y1, y = y1 ++ ['/']) := by
  obtain ⟨h1, _, _, _⟩ := (isFileName_iff n).mp hn
  unfold renderPath
  simp only
  by_cases hc : cs = []
  · subst hc
    rw [List.nil_append, intercalate_singleton]
    cases r with
    | true =>
      refine ⟨['/'], ?_, Or.inr ⟨[], rfl⟩⟩
      simp
    | false =>
      refine ⟨[], ?_, Or.inl rfl⟩
      simp [h1]
  · rw [intercalate_snoc cs n hc]
    refine ⟨(if r = true then ['/'] else []) ++ ['/'].intercalate cs ++ ['/'], ?_,
      Or.inr ⟨_, rfl⟩⟩
    rw [if_neg (by simp)]
    simp

theorem basePath_renderPath_snoc (r : Bool) (cs : List Str) (n : Str)
    (hn : isFileName n = true) : basePath (renderPath r (cs ++ [n])) = n := by
  obtain ⟨y, e, hy⟩ := renderPath_snoc r cs n hn
  rw [e]
  exact basePath_append_fileName y n hn hy

/-- The base name of an entry below the root is its name. -/
theorem basePath_walkPath_snoc (root : Str) (cs : List Str) (n : Str) (hroot : root ≠ [])
    (hns : ∀ m ∈ cs ++ [n], isFileName m = true) :
    basePath (walkPath root (cs ++ [n])) = n := by
  rw [walkPath_eq_render root (cs ++ [n]) hroot hns (by simp), ← List.append_assoc]
  exact basePath_renderPath_snoc _ _ n (hns n (by simp))

theorem stripCommon_append (xs ns : List Str) : stripCommon xs (xs ++ ns) = ([], ns) := by
  induction xs with
  | nil => cases ns <;> rfl
  | cons a t ih =>
    rw [List.cons_append, stripCommon, if_pos rfl]
    exact ih

/-- The elements `Rel` compares in a rendered canonical path. -/
theorem relElems_renderPath (r : Bool) (cs : List Str) (h : canonStack r cs.reverse) :
    relElems (if renderPath r cs = dot then [] else renderPath r cs)
      = (if r then [[]] else []) ++ cs := by
  by_cases hne : cs = []
  · subst hne
    cases r <;> decide
  · have hs := splitOn_renderPath r cs h hne
    have helem := canon_elems r cs h
    have h1 : renderPath r cs ≠ dot := by
      intro e
      rw [e] at hs
      have hd : dot.splitOn '/' = [dot] := by decide
      rw [hd] at hs
      cases r with
      | true =>
        simp only [if_true, List.singleton_append] at hs
        have := (List.cons.inj hs).1
        exact absurd this (by decide)
      | false =>
        simp only [Bool.false_eq_true, if_false, List.nil_append] at hs
        exact (helem dot (by rw [← hs]; simp)).2.2 rfl
    have h2 : renderPath r cs ≠ ['/'] := by
      intro e
      rw [e] at hs
      have hd : (['/'] : Str).splitOn '/' = [[], []] := by decide
      rw [hd] at hs
      cases r with
      | true =>
        simp only [if_true, List.singleton_append] at hs
        have := (List.cons.inj hs).2
        exact (helem [] (by rw [← this]; simp)).1 rfl
      | false =>
        simp only [Bool.false_eq_true, if_false, List.nil_append] at hs
        exact (helem [] (by rw [← hs]; simp)).1 rfl
    rw [if_neg h1]
    unfold relElems
    rw [if_neg (renderPath_ne_nil r cs), if_neg h2, hs]

/-- `Rel` from the root to an entry below it is the list of names, joined. -/
theorem relPath_walkPath (root : Str) (comps : List Str) (hroot : root ≠ [])
    (hns : ∀ n ∈ comps, isFileName n = true) (hne : comps ≠ []) :
    relPath root (walkPath root comps) = some (['/'].intercalate comps) := by
  have hc0 := canonStack_cleanElems root
  have hc1 := canon_append_fileNames (isRooted root) (cleanElems root) comps hc0 hns
  have hbase : cleanPath root = renderPath (isRooted root) (cleanElems root) :=
    cleanPath_of_ne_nil root hroot
  have htarg : cleanPath (walkPath root comps)
      = renderPath (isRooted root) (cleanElems root ++ comps) := by
    rw [walkPath_eq_render root comps hroot hns hne]
    exact cleanPath_renderPath _ _ hc1
  have hdiff : renderPath (isRooted root) (cleanElems root ++ comps)
      ≠ renderPath (isRooted root) (cleanElems root) := by
    intro e
    have e2 := congrArg cleanElems e
    rw [cleanElems_renderPath _ _ hc1, cleanElems_renderPath _ _ hc0] at e2
    have hl := congrArg List.length e2
    simp only [List.length_append] at hl
    have : comps.length = 0 := by omega
    exact hne (List.length_eq_zero.mp this)
  have htd : renderPath (isRooted root) (cleanElems root ++ comps) ≠ dot := by
    intro e
    have e2 := congrArg cleanElems e
    rw [cleanElems_renderPath _ _ hc1] at e2
    have hd : cleanElems dot = [] := by decide
    rw [hd] at e2
    have : comps = [] := (List.append_eq_nil.mp e2).2
    exact hne this
  have hrootedBase : isRooted (if renderPath (isRooted root) (cleanElems root) = dot then []
      else renderPath (isRooted root) (cleanElems root)) = isRooted root := by
    by_cases hd : renderPath (isRooted root) (cleanElems root) = dot
    · rw [if_pos hd]
      have := isRooted_renderPath _ _ hc0
      rw [hd] at this
      rw [← this]
      decide
    · rw [if_neg hd]
      exact isRooted_renderPath _ _ hc0
  have he1 := relElems_renderPath _ _ hc0
  have he2 := relElems_renderPath _ _ hc1
  rw [if_neg htd] at he2
  unfold relPath
  simp only
  rw [hbase, htarg, if_neg hdiff, hrootedBase, isRooted_renderPath _ _ hc1]
  simp only [bne_self_eq_false, Bool.false_eq_true, if_false]
  rw [he1, he2, ← List.append_assoc, stripCommon_append]
  simp

/-- Names joined by slashes: not empty, not `"."`, no leading `"./"`, and no slash
at either end. -/
theorem intercalate_fileNames (comps : List Str) (hns : ∀ n ∈ comps, isFileName n = true)
    (hne : comps ≠ []) :
    ['/'].intercalate comps ≠ [] ∧ ['/'].intercalate comps ≠ dot ∧
    hasPrefix (['/'].intercalate comps) ['.', '/'] = false ∧
    trim (['/'].intercalate comps) '/' = ['/'].intercalate comps := by
  have hcanon : canonStack false comps.reverse := by
    have := canonStack_append_fileNames false comps [] hns trivial
    simpa using this
  have hs := splitOn_intercalate_canon false comps hcanon hne
  have helem := canon_elems false comps hcanon
  obtain ⟨a, s, hi, ha⟩ := intercalate_canon_head false comps hcanon hne
  have h1 : ['/'].intercalate comps ≠ [] := by
    rw [hi]
    simp
  have h2 : ['/'].intercalate comps ≠ dot := by
    intro e
    rw [e] at hs
    have hd : dot.splitOn '/' = [dot] := by decide
    rw [hd] at hs
    exact (helem dot (by rw [← hs]; simp)).2.2 rfl
  have h3 : hasPrefix (['/'].intercalate comps) ['.', '/'] = false := by
    apply Bool.eq_false_iff.mpr
    intro hp
    obtain ⟨t, ht⟩ := (hasPrefix_iff _ _).mp hp
    rw [← ht] at hs
    have : (['.', '/'] ++ t : Str) = '.' :: '/' :: t := rfl
    rw [this] at hs
    have hsp : ('.' :: '/' :: t).splitOn '/' = dot :: t.splitOn '/' := by
      simp [List.splitOn, dot]
    rw [hsp] at hs
    exact (helem dot (by rw [← hs]; simp)).2.2 rfl
  refine ⟨h1, h2, h3, ?_⟩
  -- no slash at either end
  have hlast : (['/'].intercalate comps).rdropWhile (· == '/') = ['/'].intercalate comps := by
    obtain ⟨cs, n, rfl⟩ : ∃ cs n, comps = cs ++ [n] := by
      rcases List.eq_nil_or_concat comps with e | ⟨cs, n, e⟩
      · exact absurd e hne
      · exact ⟨cs, n, by simpa using e⟩
    have hn := hns n (by simp)
    obtain ⟨n1, n2, _, _⟩ := (isFileName_iff n).mp hn
    have hend : ∃ y, ['/'].intercalate (cs ++ [n]) = y ++ n := by
      by_cases hc : cs = []
      · subst hc
        exact ⟨[], by simp [intercalate_singleton]⟩
      · exact ⟨['/'].intercalate cs ++ ['/'], by rw [intercalate_snoc cs n hc]; simp⟩
    obtain ⟨y, hy⟩ := hend
    rw [hy, List.rdropWhile_eq_self_iff]
    intro hl
    rw [List.getLast_append_of_ne_nil n1]
    have hm := List.getLast_mem n1
    intro hc
    have : n.getLast n1 = '/' := by simpa using hc
    exact n2 (this ▸ hm)
  unfold trim
  rw [hlast, hi, List.dropWhile_cons_of_neg (by simpa using ha)]

/-- `relDir` of an entry below the root is the list of its names, joined. -/
theorem relDir_walkPath (root : Str) (comps : List Str) (hroot : root ≠ [])
    (hns : ∀ n ∈ comps, isFileName n = true) (hne : comps ≠ []) :
    relDir root (walkPath root comps) = ['/'].intercalate comps := by
  obtain ⟨_, h2, h3, h4⟩ := intercalate_fileNames comps hns hne
  unfold relDir
  simp only
  rw [relPath_walkPath root comps hroot hns hne]
  simp only
  rw [(trimPrefix_eq_self_iff _ _ (by simp)).mpr h3, h4, if_neg h2]

/-- `relDir` of the root itself is empty. -/
theorem relDir_self (root : Str) : relDir root root = [] := by
  unfold relDir relPath
  simp only [if_true]
  decide

/-- A file name is a clean path, its own base name, and is left alone by the
trimming of the exclusion loop. -/
theorem fileName_clean (n : Str) (hn : isFileName n = true) :
    cleanPath n = n ∧ basePath n = n ∧
    trim (trimPrefix n ['.', '/']) '/' = n := by
  obtain ⟨n1, n2, n3, n4⟩ := (isFileName_iff n).mp hn
  have hi := intercalate_fileNames [n] (by simpa using hn) (by simp)
  rw [intercalate_singleton] at hi
  obtain ⟨_, _, h3, h4⟩ := hi
  refine ⟨?_, ?_, ?_⟩
  · have hr : isRooted n = false := by
      cases n with
      | nil => exact absurd rfl n1
      | cons a s =>
        rw [isRooted_cons]
        have : a ≠ '/' := fun e => n2 (by simp [e])
        simp [this]
    rw [cleanPath_of_ne_nil n n1, hr]
    unfold cleanElems
    rw [hr, splitOn_of_not_mem n n2]
    simp only [List.foldl_cons, List.foldl_nil]
    have : cleanStep false [] n = [n] := by
      unfold cleanStep
      rw [if_neg (by rintro (e | e); exact n1 e; exact n3 e), if_neg n4]
    rw [this]
    simp only [List.reverse_cons, List.reverse_nil, List.nil_append]
    unfold renderPath
    simp only [Bool.false_eq_true, if_false, List.nil_append]
    rw [intercalate_singleton, if_neg n1]
  · have := basePath_append_fileName [] n hn (Or.inl rfl)
    simpa using this
  · rw [(trimPrefix_eq_self_iff _ _ (by simp)).mpr h3, h4]

/-! ## The walk of the scanner -/

theorem scanVisit_err (root : Str) (xb xr : List Str) (path : Str) (d : Option Bool)
    (files : List Str) : scanVisit root xb xr path d true files = (WalkResult.ok, files) := by
  simp [scanVisit]

theorem scanVisit_file (root : Str) (xb xr : List Str) (path : Str) (files : List Str) :
    scanVisit root xb xr path (some false) false files =
      (WalkResult.ok, if basePath path ∈ descriptorNames then files ++ [path] else files) := by
  unfold scanVisit descriptorNames
  simp only [Bool.false_eq_true, if_false, Option.some.injEq, List.mem_cons, List.mem_singleton,
    List.not_mem_nil, or_false]
  by_cases h : basePath path = "kustomization.yaml".toList ∨
      basePath path = "kustomization.yml".toList
  · rw [if_pos h, if_pos h]
  · rw [if_neg h, if_neg h]

theorem scanVisit_dir_pruned (root : Str) (xb xr : List Str) (comps : List Str)
    (files : List Str) (h : prunedAt root xb xr comps) :
    scanVisit root xb xr (walkPath root comps) (some true) false files =
      (WalkResult.skipDir, files) := by
  unfold scanVisit
  unfold prunedAt at h
  simp only [Bool.false_eq_true, if_false, if_true]
  by_cases h1 : basePath (walkPath root comps) ∈ xb
  · rw [if_pos h1]
  · rw [if_neg h1]
    rcases h with h | h
    · exact absurd h h1
    · rw [if_pos h]

theorem scanVisit_dir_kept (root : Str) (xb xr : List Str) (comps : List Str)
    (files : List Str) (h : ¬ prunedAt root xb xr comps) :
    scanVisit root xb xr (walkPath root comps) (some true) false files =
      (WalkResult.ok, files) := by
  unfold scanVisit
  unfold prunedAt at h
  simp only [Bool.false_eq_true, if_false, if_true]
  rw [if_neg (fun h1 => h (Or.inl h1)), if_neg (fun h2 => h (Or.inr h2))]

/-- The entries below a directory are reached through at least one name. -/
theorem childEntries_cons (children : List (Str × Node)) (c : List Str) (b : Bool)
    (h : (c, b) ∈ childEntries children) : ∃ n c1, c = n :: c1 := by
  induction children with
  | nil => simp [childEntries] at h
  | cons x rest ih =>
    obtain ⟨name, d⟩ := x
    simp only [childEntries, List.mem_append, List.mem_map] at h
    rcases h with ⟨e, _, he⟩ | h
    · exact ⟨name, e.1, (Prod.mk.inj he).1.symm⟩
    · exact ih h

mutual
/-- The scan of a tree never fails, and it adds to `files` the paths of the
descriptor files of the tree that no pruned directory hides. -/
theorem walkDir_scan (root : Str) (xb xr : List Str) :
    ∀ (node : Node) (comps : List Str) (files : List Str),
      (walkDir (scanVisit root xb xr) (walkPath root comps) node files).1 = WalkResult.ok ∧
      ∀ p, p ∈ (walkDir (scanVisit root xb xr) (walkPath root comps) node files).2 ↔
        p ∈ files ∨ ∃ c, (c, false) ∈ treeEntries node ∧ p = walkPath root (comps ++ c) ∧
          basePath p ∈ descriptorNames ∧ notPruned root xb xr comps c
  | .file, comps, files => by
    simp only [walkDir, scanVisit_file, treeEntries, List.mem_singleton, Prod.mk.injEq,
      and_true]
    refine ⟨trivial, ?_⟩
    intro p
    by_cases hd : basePath (walkPath root comps) ∈ descriptorNames
    · rw [if_pos hd]
      constructor
      · intro h
        rcases List.mem_append.mp h with h | h
        · exact Or.inl h
        · rw [List.mem_singleton] at h
          subst h
          exact Or.inr ⟨[], rfl, by simp, hd, trivial⟩
      · rintro (h | ⟨c, rfl, rfl, _, _⟩)
        · exact List.mem_append_left _ h
        · simp
    · rw [if_neg hd]
      constructor
      · exact Or.inl
      · rintro (h | ⟨c, rfl, rfl, h2, _⟩)
        · exact h
        · simp only [List.append_nil] at h2
          exact absurd h2 hd
  | .dir readErr children, comps, files => by
    have ih := walkDirEntries_scan root xb xr children comps files
    have hchild : ∀ c, (c, false) ∈ treeEntries (Node.dir readErr children) ↔
        (c, false) ∈ childEntries children := by
      intro c
      simp [treeEntries]
    by_cases hp : prunedAt root xb xr comps
    · simp only [walkDir, scanVisit_dir_pruned root xb xr comps files hp]
      refine ⟨trivial, ?_⟩
      intro p
      constructor
      · exact Or.inl
      · rintro (h | ⟨c, hc, _, _, hn⟩)
        · exact h
        · obtain ⟨n, c1, rfl⟩ := childEntries_cons children c false ((hchild c).mp hc)
          exact absurd hp hn.1
    · simp only [walkDir, scanVisit_dir_kept root xb xr comps files hp, scanVisit_err,
        ite_self]
      refine ⟨ih.1, ?_⟩
      intro p
      rw [ih.2 p]
      constructor
      · rintro (h | ⟨n, c, hc, e, hd, hn⟩)
        · exact Or.inl h
        · exact Or.inr ⟨n :: c, (hchild _).mpr hc, e, hd, hp, hn⟩
      · rintro (h | ⟨c, hc, e, hd, hn⟩)
        · exact Or.inl h
        · obtain ⟨n, c1, rfl⟩ := childEntries_cons children c false ((hchild c).mp hc)
          exact Or.inr ⟨n, c1, (hchild _).mp hc, e, hd, hn.2⟩
/-- The loop over the entries of a directory that is not pruned. -/
theorem walkDirEntries_scan (root : Str) (xb xr : List Str) :
    ∀ (children : List (Str × Node)) (comps : List Str) (files : List Str),
      (walkDirEntries (scanVisit root xb xr) (walkPath root comps) children files).1
        = WalkResult.ok ∧
      ∀ p, p ∈ (walkDirEntries (scanVisit root xb xr) (walkPath root comps) children
          files).2 ↔
        p ∈ files ∨ ∃ n c, (n :: c, false) ∈ childEntries children ∧
          p = walkPath root (comps ++ n :: c) ∧ basePath p ∈ descriptorNames ∧
          notPruned root xb xr (comps ++ [n]) c
  | [], comps, files => by
    simp [walkDirEntries, childEntries]
  | (name, d) :: rest, comps, files => by
    have ih1 := walkDir_scan root xb xr d (comps ++ [name]) files
    rw [walkPath_snoc] at ih1
    cases hw : walkDir (scanVisit root xb xr) (joinPath (walkPath root comps) name) d files with
    | mk res files1 =>
      rw [hw] at ih1
      simp only at ih1
      obtain ⟨hres, hmem⟩ := ih1
      subst hres
      have ih2 := walkDirEntries_scan root xb xr rest comps files1
      simp only [walkDirEntries, hw]
      refine ⟨ih2.1, ?_⟩
      intro p
      rw [ih2.2 p, hmem p]
      simp only [childEntries, List.mem_append, List.mem_map, Prod.mk.injEq, List.cons.injEq]
      constructor
      · rintro ((h | ⟨c, hc, e, hd, hn⟩) | ⟨n, c, hc, e, hd, hn⟩)
        · exact Or.inl h
        · refine Or.inr ⟨name, c, Or.inl ⟨(c, false), hc, ⟨rfl, rfl⟩, rfl⟩, ?_, hd, hn⟩
          rw [e]
          simp
        · exact Or.inr ⟨n, c, Or.inr hc, e, hd, hn⟩
      · rintro (h | ⟨n, c, hc | hc, e, hd, hn⟩)
        · exact Or.inl (Or.inl h)
        · obtain ⟨⟨x1, x2⟩, hx, ⟨rfl, rfl⟩, hx2⟩ := hc
          simp only at hx2
          subst hx2
          refine Or.inl (Or.inr ⟨x1, hx, ?_, hd, hn⟩)
          rw [e]
          simp
        · exact Or.inr ⟨n, c, hc, e, hd, hn⟩
end

mutual
/-- Read errors change nothing in the scan: the callback returns `nil` on them. -/
theorem walkDir_clearReadErrors (root : Str) (xb xr : List Str) :
    ∀ (node : Node) (path : Str) (files : List Str),
      walkDir (scanVisit root xb xr) path (clearReadErrors node) files
        = walkDir (scanVisit root xb xr) path node files
  | .file, path, files => by
    simp [clearReadErrors, walkDir]
  | .dir readErr children, path, files => by
    have ih := walkDirEntries_clearReadErrors root xb xr children path
    simp only [clearReadErrors, walkDir, scanVisit_err, Bool.false_eq_true, if_false]
    cases hv : scanVisit root xb xr path (some true) false files with
    | mk res files1 =>
      cases res with
      | ok =>
        simp only
        rw [ih files1]
        cases readErr <;> rfl
      | skipDir => rfl
      | fail => rfl
theorem walkDirEntries_clearReadErrors (root : Str) (xb xr : List Str) :
    ∀ (children : List (Str × Node)) (path : Str) (files : List Str),
      walkDirEntries (scanVisit root xb xr) path (clearReadErrorsList children) files
        = walkDirEntries (scanVisit root xb xr) path children files
  | [], path, files => by
    simp [clearReadErrorsList, walkDirEntries]
  | (name, d) :: rest, path, files => by
    have ih1 := walkDir_clearReadErrors root xb xr d (joinPath path name) files
    simp only [clearReadErrorsList, walkDirEntries, ih1]
    cases hw : walkDir (scanVisit root xb xr) (joinPath path name) d files with
    | mk res files1 =>
      cases res with
      | ok =>
        simp only
        exact walkDirEntries_clearReadErrors root xb xr rest path files1
      | skipDir => rfl
      | fail => rfl
end

mutual
/-- In a tree of file names, every entry is reached through file names. -/
theorem validTree_names : ∀ (node : Node), validTree node = true →
    ∀ c b, (c, b) ∈ treeEntries node → ∀ n ∈ c, isFileName n = true
  | .file, _, c, b, hc, n, hn => by
    simp only [treeEntries, List.mem_singleton, Prod.mk.injEq] at hc
    rw [hc.1] at hn
    exact absurd hn (List.not_mem_nil _)
  | .dir _ children, hv, c, b, hc, n, hn => by
    simp only [treeEntries, List.mem_cons, Prod.mk.injEq] at hc
    rcases hc with ⟨e, _⟩ | hc
    · rw [e] at hn
      exact absurd hn (List.not_mem_nil _)
    · exact validChildren_names children (by simpa [validTree] using hv) c b hc n hn
theorem validChildren_names : ∀ (children : List (Str × Node)),
    validChildren children = true →
    ∀ c b, (c, b) ∈ childEntries children → ∀ n ∈ c, isFileName n = true
  | [], _, c, b, hc, n, hn => by
    simp [childEntries] at hc
  | (name, d) :: rest, hv, c, b, hc, n, hn => by
    simp only [validChildren, Bool.and_eq_true] at hv
    obtain ⟨⟨hname, hd⟩, hrest⟩ := hv
    simp only [childEntries, List.mem_append, List.mem_map] at hc
    rcases hc with ⟨e, he, heq⟩ | hc
    · obtain ⟨e1, e2⟩ := Prod.mk.inj heq
      rw [← e1] at hn
      rcases List.mem_cons.mp hn with rfl | hn
      · exact hname
      · exact validTree_names d hd e.1 e.2 he n hn
    · exact validChildren_names rest hrest c b hc n hn
end

/-! ## The result of the scan -/

theorem filepathWalkDir_scan_ok (root : Str) (xb xr : List Str) (tree : Option Node) :
    (filepathWalkDir (scanVisit root xb xr) root tree []).1 = WalkResult.ok := by
  unfold filepathWalkDir
  cases tree with
  | none => simp [scanVisit]
  | some d =>
    have h : (walkDir (scanVisit root xb xr) root d []).1 = WalkResult.ok :=
      (walkDir_scan root xb xr d [] []).1
    simp only
    rw [if_neg (by rw [h]; decide)]
    exact h

theorem filepathWalkDir_scan_files (root : Str) (xb xr : List Str) (d : Node) :
    (filepathWalkDir (scanVisit root xb xr) root (some d) []).2
      = (walkDir (scanVisit root xb xr) root d []).2 := by
  have h : (walkDir (scanVisit root xb xr) root d []).1 = WalkResult.ok :=
    (walkDir_scan root xb xr d [] []).1
  unfold filepathWalkDir
  simp only
  rw [if_neg (by rw [h]; decide)]

/-- The scan returns the collected paths, sorted; it never returns an error. -/
theorem findKustomizationFilesWithExclusions_eq (root : Str) (tree : Option Node)
    (excl : List Str) :
    findKustomizationFilesWithExclusions root tree excl
      = some (sortStrings (collectedFiles root tree excl)) := by
  unfold findKustomizationFilesWithExclusions collectedFiles
  simp only
  rw [if_neg (by rw [filepathWalkDir_scan_ok]; decide)]

/-- The paths the walk collects: the descriptor files no pruned directory hides. -/
theorem mem_collectedFiles (root : Str) (d : Node) (excl : List Str) (p : Str) :
    p ∈ collectedFiles root (some d) excl ↔
      ∃ c, (c, false) ∈ treeEntries d ∧ p = walkPath root c ∧
        basePath p ∈ descriptorNames ∧
        notPruned root (excl.foldl exclusionStep ([], [])).1
          (excl.foldl exclusionStep ([], [])).2 [] c := by
  unfold collectedFiles
  simp only
  rw [filepathWalkDir_scan_files]
  have h := (walkDir_scan root (excl.foldl exclusionStep ([], [])).1
    (excl.foldl exclusionStep ([], [])).2 d [] []).2 p
  simp only [List.nil_append, List.not_mem_nil, false_or] at h
  exact h

theorem collectedFiles_none (root : Str) (excl : List Str) :
    collectedFiles root none excl = [] := by
  simp [collectedFiles, filepathWalkDir, scanVisit]

theorem collectedFiles_clearReadErrors (root : Str) (d : Node) (excl : List Str) :
    collectedFiles root (some (clearReadErrors d)) excl = collectedFiles root (some d) excl := by
  unfold collectedFiles
  simp only
  rw [filepathWalkDir_scan_files, filepathWalkDir_scan_files, walkDir_clearReadErrors]

/-! ## Which directories are pruned -/

theorem prunedAt_root (root : Str) (xb xr : List Str) :
    prunedAt root xb xr [] ↔ basePath root ∈ xb := by
  unfold prunedAt
  rw [walkPath_nil, relDir_self]
  simp

theorem prunedAt_snoc (root : Str) (xb xr : List Str) (cs : List Str) (n : Str)
    (hroot : root ≠ []) (hns : ∀ m ∈ cs ++ [n], isFileName m = true) :
    prunedAt root xb xr (cs ++ [n]) ↔ n ∈ xb ∨ ['/'].intercalate (cs ++ [n]) ∈ xr := by
  unfold prunedAt
  rw [basePath_walkPath_snoc root cs n hroot hns,
    relDir_walkPath root (cs ++ [n]) hroot hns (by simp)]
  have := (intercalate_fileNames (cs ++ [n]) hns (by simp)).1
  simp [this]

theorem prunedAt_of_ne_nil (root : Str) (xr : List Str) (comps : List Str)
    (hroot : root ≠ []) (hns : ∀ m ∈ comps, isFileName m = true) (hne : comps ≠ []) :
    prunedAt root [] xr comps ↔ ['/'].intercalate comps ∈ xr := by
  unfold prunedAt
  rw [relDir_walkPath root comps hroot hns hne]
  have := (intercalate_fileNames comps hns hne).1
  simp [this]

/-- Names joined by slashes give a single name only when there is one name. -/
theorem intercalate_eq_name (cs : List Str) (n : Str) (hne : cs ≠ []) (hn : '/' ∉ n) :
    ['/'].intercalate cs = n ↔ cs = [n] := by
  cases cs with
  | nil => exact absurd rfl hne
  | cons a t =>
    cases t with
    | nil =>
      rw [intercalate_singleton]
      simp
    | cons b t2 =>
      rw [intercalate_cons_cons]
      constructor
      · intro h
        exact absurd (by rw [← h]; simp) hn
      · intro h
        simp at h

theorem git_isFileName : isFileName ".git".toList = true := by decide

/-- With the default exclusions a directory below the root is pruned when its name
is `.git`. -/
theorem prunedAt_default_snoc (root : Str) (cs : List Str) (n : Str) (hroot : root ≠ [])
    (hns : ∀ m ∈ cs ++ [n], isFileName m = true) :
    prunedAt root [".git".toList] [".git".toList] (cs ++ [n]) ↔ n = ".git".toList := by
  rw [prunedAt_snoc root _ _ cs n hroot hns, List.mem_singleton, List.mem_singleton,
    intercalate_eq_name (cs ++ [n]) _ (by simp) (by decide)]
  constructor
  · rintro (h | h)
    · exact h
    · have h2 := congrArg List.getLast? h
      simpa using h2
  · exact Or.inl

theorem notPruned_cons (root : Str) (xb xr : List Str) (pre : List Str) (n : Str)
    (c : List Str) :
    notPruned root xb xr pre (n :: c) ↔
      ¬ prunedAt root xb xr pre ∧ notPruned root xb xr (pre ++ [n]) c := by
  rw [notPruned]

/-- With the default exclusions: no directory on the way is named `.git`. -/
theorem notPruned_default (root : Str) (hroot : root ≠ []) :
    ∀ (c pre : List Str), (∀ m ∈ pre ++ c, isFileName m = true) →
      (notPruned root [".git".toList] [".git".toList] pre c ↔
        (c ≠ [] → ¬ prunedAt root [".git".toList] [".git".toList] pre) ∧
          ".git".toList ∉ c.dropLast)
  | [], pre, _ => by simp [notPruned]
  | [n], pre, _ => by simp [notPruned]
  | n :: n2 :: c, pre, h => by
    have hv : ∀ m ∈ (pre ++ [n]) ++ (n2 :: c), isFileName m = true := by
      intro m hm
      exact h m (by simpa using hm)
    have ih := notPruned_default root hroot (n2 :: c) (pre ++ [n]) hv
    have hs := prunedAt_default_snoc root pre n hroot
      (fun m hm => hv m (List.mem_append_left _ hm))
    rw [notPruned_cons, ih, hs, List.dropLast_cons₂, List.mem_cons]
    constructor
    · rintro ⟨h1, h2, h3⟩
      refine ⟨fun _ => h1, ?_⟩
      rintro (e | e)
      · exact h2 (by simp) e.symm
      · exact h3 e
    · rintro ⟨h1, h2⟩
      exact ⟨h1 (by simp), fun _ e => h2 (Or.inl e.symm), fun e => h2 (Or.inr e)⟩

/-- When `.git` is excluded by base name, no directory on the way is named `.git`. -/
theorem notPruned_no_git (root : Str) (xb xr : List Str) (hroot : root ≠ [])
    (hgit : ".git".toList ∈ xb) :
    ∀ (c pre : List Str), (∀ m ∈ pre ++ c, isFileName m = true) →
      notPruned root xb xr pre c → ".git".toList ∉ c.dropLast
  | [], pre, _, _ => by simp
  | [n], pre, _, _ => by simp
  | n :: n2 :: c, pre, h, hn => by
    have hv : ∀ m ∈ (pre ++ [n]) ++ (n2 :: c), isFileName m = true := by
      intro m hm
      exact h m (by simpa using hm)
    rw [notPruned_cons] at hn
    have ih := notPruned_no_git root xb xr hroot hgit (n2 :: c) (pre ++ [n]) hv hn.2
    have hn2 := hn.2
    rw [notPruned_cons] at hn2
    have hs := prunedAt_snoc root xb xr pre n hroot
      (fun m hm => hv m (List.mem_append_left _ hm))
    rw [List.dropLast_cons₂, List.mem_cons]
    rintro (e | e)
    · exact hn2.1 (hs.mpr (Or.inl (e ▸ hgit)))
    · exact ih e

/-- With one exclusion, a name: below a directory other than the root nothing more
is pruned, so only the directory itself decides. -/
theorem notPruned_single_below (root : Str) (x : Str) (hroot : root ≠ [])
    (hx : isFileName x = true) :
    ∀ (c pre : List Str), (∀ m ∈ pre ++ c, isFileName m = true) → pre ≠ [] →
      (notPruned root [] [x] pre c ↔ (c ≠ [] → pre ≠ [x]))
  | [], pre, _, _ => by simp [notPruned]
  | n :: c, pre, h, hpre => by
    have hv : ∀ m ∈ (pre ++ [n]) ++ c, isFileName m = true := by
      intro m hm
      exact h m (by simpa using hm)
    have ih := notPruned_single_below root x hroot hx c (pre ++ [n]) hv (by simp)
    have hs := prunedAt_of_ne_nil root [x] pre hroot
      (fun m hm => h m (List.mem_append_left _ hm)) hpre
    rw [List.mem_singleton, intercalate_eq_name pre x hpre ((isFileName_iff x).mp hx).2.1] at hs
    rw [notPruned_cons, ih, hs]
    have hlen : pre ++ [n] ≠ [x] := by
      intro e
      have := congrArg List.length e
      simp only [List.length_append, List.length_singleton] at this
      exact hpre (List.length_eq_zero.mp (by omega))
    constructor
    · rintro ⟨h1, _⟩ _
      exact h1
    · intro h1
      exact ⟨h1 (by simp), fun _ => hlen⟩

/-- With one exclusion, a name: exactly the entries below the directory of that name
directly under the root are hidden. -/
theorem notPruned_single (root : Str) (x : Str) (hroot : root ≠ [])
    (hx : isFileName x = true) (c : List Str) (h : ∀ m ∈ c, isFileName m = true) :
    notPruned root [] [x] [] c ↔ ¬ ∃ rest, rest ≠ [] ∧ c = x :: rest := by
  cases c with
  | nil => simp [notPruned]
  | cons n c =>
    have hb := notPruned_single_below root x hroot hx c [n] (by simpa using h) (by simp)
    rw [notPruned_cons, prunedAt_root, List.nil_append, hb]
    constructor
    · rintro ⟨_, h1⟩ ⟨rest, hrest, e⟩
      obtain ⟨e1, e2⟩ := List.cons.inj e
      subst e2
      exact h1 hrest (by rw [e1])
    · intro h1
      refine ⟨by simp, fun hc e => h1 ⟨c, hc, ?_⟩⟩
      rw [(List.cons.inj e).1]

/-! ## The exclusion sets -/

theorem exclusions_default :
    [".git".toList].foldl exclusionStep ([], []) = ([".git".toList], [".git".toList]) := by
  decide

theorem exclusions_single (e : Str) (he : isFileName (trimSpace e) = true)
    (hgit : trimSpace e ≠ ".git".toList) :
    [e].foldl exclusionStep ([], []) = ([], [trimSpace e]) := by
  obtain ⟨h1, _, h3, _⟩ := (isFileName_iff _).mp he
  obtain ⟨c1, c2, c3⟩ := fileName_clean _ he
  simp only [List.foldl_cons, List.foldl_nil, exclusionStep]
  rw [if_neg h1, c1, c2, c3, if_neg hgit, if_pos ⟨h1, h3⟩]

theorem exclusionStep_fst_mono (st : List Str × List Str) (e x : Str) (h : x ∈ st.1) :
    x ∈ (exclusionStep st e).1 := by
  unfold exclusionStep
  simp only
  split
  · exact h
  · simp only
    split
    · exact List.mem_cons_of_mem _ h
    · exact h

theorem foldl_exclusionStep_fst_mono (excl : List Str) (st : List Str × List Str) (x : Str)
    (h : x ∈ st.1) : x ∈ (excl.foldl exclusionStep st).1 := by
  induction excl generalizing st with
  | nil => exact h
  | cons e es ih => exact ih _ (exclusionStep_fst_mono st e x h)

theorem exclusionStep_git (st : List Str × List Str) :
    ".git".toList ∈ (exclusionStep st ".git".toList).1 := by
  have h1 : trimSpace ".git".toList = ".git".toList := by decide
  have h2 : cleanPath ".git".toList = ".git".toList := by decide
  have h3 : basePath ".git".toList = ".git".toList := by decide
  unfold exclusionStep
  simp only [h1, h2, h3]
  rw [if_neg (by decide)]
  simp

/-- The exclusion `.git` is a base-name exclusion. -/
theorem git_mem_exclusions (excl : List Str) (st : List Str × List Str)
    (h : ".git".toList ∈ excl) : ".git".toList ∈ (excl.foldl exclusionStep st).1 := by
  induction excl generalizing st with
  | nil => exact absurd h (List.not_mem_nil _)
  | cons e es ih =>
    rcases List.mem_cons.mp h with e1 | e1
    · subst e1
      exact foldl_exclusionStep_fst_mono es _ _ (exclusionStep_git st)
    · exact ih _ e1

/-! ## Paths of entries are distinct -/

theorem cleanElems_walkPath (root : Str) (c : List Str) (hroot : root ≠ [])
    (hns : ∀ n ∈ c, isFileName n = true) :
    cleanElems (walkPath root c) = cleanElems root ++ c := by
  by_cases hc : c = []
  · subst hc
    simp [walkPath_nil]
  · rw [walkPath_eq_render root c hroot hns hc]
    exact cleanElems_renderPath _ _
      (canon_append_fileNames (isRooted root) (cleanElems root) c (canonStack_cleanElems root)
        hns)

theorem walkPath_injective (root : Str) (c1 c2 : List Str) (hroot : root ≠ [])
    (h1 : ∀ n ∈ c1, isFileName n = true) (h2 : ∀ n ∈ c2, isFileName n = true)
    (h : walkPath root c1 = walkPath root c2) : c1 = c2 := by
  have e := congrArg cleanElems h
  rw [cleanElems_walkPath root c1 hroot h1, cleanElems_walkPath root c2 hroot h2] at e
  exact List.append_cancel_left e

/-! ## The scanner: claims -/

/-- C22 (the code at the failing input): when the scan root cannot be read at all
(`os.Lstat` fails), the callback gets the error and returns `nil`, so the scan
returns the empty file list and no error, for every root and exclusion list, and
no file system makes it return an error; the part of the claim about the entries
below the root holds: a directory that cannot be read leaves the result as it is
without the read error. -/
theorem scan_of_missing_root_returns_no_error (root : Str) (excl : List Str) :
    findKustomizationFilesWithExclusions root none excl = some [] ∧
    findKustomizationFiles root none = some [] ∧
    (∀ tree : Option Node, findKustomizationFilesWithExclusions root tree excl ≠ none) ∧
    ∀ tree : Node, findKustomizationFilesWithExclusions root (some tree) excl
      = findKustomizationFilesWithExclusions root (some (clearReadErrors tree)) excl := by
  refine ⟨?_, ?_, ?_, ?_⟩
  · rw [findKustomizationFilesWithExclusions_eq, collectedFiles_none]
    rfl
  · unfold findKustomizationFiles
    rw [findKustomizationFilesWithExclusions_eq, collectedFiles_none]
    rfl
  · intro tree
    rw [findKustomizationFilesWithExclusions_eq]
    exact Option.some_ne_none _
  · intro tree
    rw [findKustomizationFilesWithExclusions_eq, findKustomizationFilesWithExclusions_eq,
      collectedFiles_clearReadErrors]

/-- C23: with the default exclusions `findKustomizationFiles` returns exactly the
paths of the non-directory entries of the tree whose base name is
`kustomization.yaml` or `kustomization.yml` and that do not lie under a directory
named `.git` (the scan root, when it is a directory, or a directory on the way down
from it). -/
theorem findKustomizationFiles_exact (root : Str) (tree : Node)
    (hroot : root ≠ []) (hv : validTree tree = true) :
    ∃ files, findKustomizationFiles root (some tree) = some files ∧
      ∀ p, p ∈ files ↔ ∃ c, (c, false) ∈ treeEntries tree ∧ p = walkPath root c ∧
        basePath p ∈ descriptorNames ∧
        (c ≠ [] → basePath root ≠ ".git".toList) ∧ ".git".toList ∉ c.dropLast := by
  refine ⟨_, findKustomizationFilesWithExclusions_eq root (some tree) [".git".toList], ?_⟩
  intro p
  rw [(sortStrings_perm _).mem_iff, mem_collectedFiles, exclusions_default]
  have hkey : ∀ c, (c, false) ∈ treeEntries tree →
      (notPruned root [".git".toList] [".git".toList] [] c ↔
        (c ≠ [] → basePath root ≠ ".git".toList) ∧ ".git".toList ∉ c.dropLast) := by
    intro c hc
    rw [notPruned_default root hroot c [] (by simpa using validTree_names tree hv c false hc),
      prunedAt_root, List.mem_singleton]
  constructor
  · rintro ⟨c, hc, e1, hd, hn⟩
    exact ⟨c, hc, e1, hd, (hkey c hc).mp hn⟩
  · rintro ⟨c, hc, e1, hd, hn⟩
    exact ⟨c, hc, e1, hd, (hkey c hc).mpr hn⟩

theorem findKustomizationFiles_exact_witness :
    "/r".toList ≠ [] ∧ validTree exampleTree = true ∧
    ∃ files, findKustomizationFiles "/r".toList (some exampleTree) = some files ∧
      ∀ p, p ∈ files ↔ ∃ c, (c, false) ∈ treeEntries exampleTree ∧
        p = walkPath "/r".toList c ∧ basePath p ∈ descriptorNames ∧
        (c ≠ [] → basePath "/r".toList ≠ ".git".toList) ∧ ".git".toList ∉ c.dropLast :=
  ⟨by decide, by decide,
    findKustomizationFiles_exact "/r".toList exampleTree (by decide) (by decide)⟩

/-- C24: the file list `findKustomizationFilesWithExclusions` returns is in
ascending order, and it does not depend on the order of the visit: two walks that
collect the same paths in different orders return the same list. -/
theorem scan_result_sorted (root : Str) (tree1 tree2 : Option Node) (excl : List Str)
    (h : (collectedFiles root tree1 excl).Perm (collectedFiles root tree2 excl)) :
    ∃ files, findKustomizationFilesWithExclusions root tree1 excl = some files ∧
      findKustomizationFilesWithExclusions root tree2 excl = some files ∧
      files.Sorted (· ≤ ·) ∧ files.Perm (collectedFiles root tree1 excl) := by
  refine ⟨_, findKustomizationFilesWithExclusions_eq root tree1 excl, ?_,
    sortStrings_sorted _, sortStrings_perm _⟩
  rw [findKustomizationFilesWithExclusions_eq, sortStrings_eq_of_perm _ _ h]

theorem scan_result_sorted_witness :
    (collectedFiles "/r".toList (some exampleTree) [".git".toList]).Perm
      (collectedFiles "/r".toList (some exampleTreeReversed) [".git".toList]) ∧
    collectedFiles "/r".toList (some exampleTree) [".git".toList]
      ≠ collectedFiles "/r".toList (some exampleTreeReversed) [".git".toList] ∧
    ∃ files, findKustomizationFilesWithExclusions "/r".toList (some exampleTree)
        [".git".toList] = some files ∧
      findKustomizationFilesWithExclusions "/r".toList (some exampleTreeReversed)
        [".git".toList] = some files ∧
      files.Sorted (· ≤ ·) ∧
      files.Perm (collectedFiles "/r".toList (some exampleTree) [".git".toList]) :=
  ⟨by decide, by decide,
    scan_result_sorted "/r".toList (some exampleTree) (some exampleTreeReversed)
      [".git".toList] (by decide)⟩

/-- C25: when `.git` is among the exclusions, no entry of the tree that lies under
a directory named `.git`, at whatever depth below the scan root, is returned. -/
theorem git_pruned_at_every_depth (root : Str) (tree : Node) (excl : List Str)
    (hroot : root ≠ []) (hv : validTree tree = true) (hgit : ".git".toList ∈ excl) :
    ∃ files, findKustomizationFilesWithExclusions root (some tree) excl = some files ∧
      ∀ c, (c, false) ∈ treeEntries tree → ".git".toList ∈ c.dropLast →
        walkPath root c ∉ files := by
  refine ⟨_, findKustomizationFilesWithExclusions_eq root (some tree) excl, ?_⟩
  intro c hc hg hmem
  rw [(sortStrings_perm _).mem_iff, mem_collectedFiles] at hmem
  obtain ⟨c2, hc2, e1, _, hn⟩ := hmem
  have hv1 := validTree_names tree hv c false hc
  have hv2 := validTree_names tree hv c2 false hc2
  have hcc := walkPath_injective root c c2 hroot hv1 hv2 e1
  subst hcc
  exact notPruned_no_git root _ _ hroot (git_mem_exclusions excl ([], []) hgit) c []
    (by simpa using hv1) hn hg

theorem git_pruned_at_every_depth_witness :
    "/r".toList ≠ [] ∧ validTree exampleTree = true ∧
    ".git".toList ∈ [".git".toList, "kustomize-builds".toList] ∧
    ∃ files, findKustomizationFilesWithExclusions "/r".toList (some exampleTree)
        [".git".toList, "kustomize-builds".toList] = some files ∧
      ∀ c, (c, false) ∈ treeEntries exampleTree → ".git".toList ∈ c.dropLast →
        walkPath "/r".toList c ∉ files :=
  ⟨by decide, by decide, by decide,
    git_pruned_at_every_depth "/r".toList exampleTree
      [".git".toList, "kustomize-builds".toList] (by decide) (by decide) (by decide)⟩

/-! ## The directories of the descriptor files -/

theorem cleanPath_idem (p : Str) : cleanPath (cleanPath p) = cleanPath p := by
  by_cases hp : p = []
  · subst hp
    decide
  · rw [cleanPath_of_ne_nil p hp]
    exact cleanPath_renderPath _ _ (canonStack_cleanElems p)

/-- The base directory itself is written as the empty string. -/
theorem relDir_of_clean_base (base : Str) : relDir base (cleanPath base) = [] := by
  unfold relDir relPath
  simp only [cleanPath_idem, if_true]
  decide

/-- C26 (as stated, refuted): for the file `base/kustomization.yaml`, directly in the
base directory `base`, the directory list is `[""]`; it does not hold the sentinel
`"."`. -/
theorem kustomizationDirs_sentinel_counterexample :
    kustomizationDirsFromFiles ["base/kustomization.yaml".toList] "base".toList
      = ["".toList] ∧
    dot ∉ kustomizationDirsFromFiles ["base/kustomization.yaml".toList] "base".toList ∧
    ¬ (∀ (files : List Str) (base f : Str), f ∈ files → dirPath f = cleanPath base →
        dot ∈ kustomizationDirsFromFiles files base) := by
  refine ⟨by decide, by decide, ?_⟩
  intro h
  have := h ["base/kustomization.yaml".toList] "base".toList "base/kustomization.yaml".toList
    (by decide) (by decide)
  revert this
  decide

/-- C26 (amended): for a file list holding a file directly in the base directory
(its `filepath.Dir` is the cleaned base), `kustomizationDirsFromFiles` holds the
empty string for that directory, and it never holds `"."`; the empty string is what
`normalizeRepoRelativeDir` maps to the sentinel `"."`. -/
theorem kustomizationDirs_base_is_empty_string (files : List Str) (base f : Str)
    (hf : f ∈ files) (hdir : dirPath f = cleanPath base) :
    [] ∈ kustomizationDirsFromFiles files base ∧
    dot ∉ kustomizationDirsFromFiles files base ∧
    normalizeRepoRelativeDir [] = dot := by
  refine ⟨?_, ?_, by decide⟩
  · rw [kustomizationDirsFromFiles_eq, mem_uniqueSorted]
    refine ⟨relDir base (dirPath f), List.mem_map.mpr ⟨f, hf, rfl⟩, ?_⟩
    rw [hdir, relDir_of_clean_base]
    decide
  · rw [kustomizationDirsFromFiles_eq, mem_uniqueSorted]
    rintro ⟨x, _, hx⟩
    by_cases h : x = dot
    · rw [if_pos h] at hx
      exact absurd hx (by decide)
    · rw [if_neg h] at hx
      exact h hx.symm

theorem kustomizationDirs_base_is_empty_string_witness :
    "base/kustomization.yaml".toList ∈
      ["base/a/kustomization.yaml".toList, "base/kustomization.yaml".toList] ∧
    dirPath "base/kustomization.yaml".toList = cleanPath "base".toList ∧
    [] ∈ kustomizationDirsFromFiles
      ["base/a/kustomization.yaml".toList, "base/kustomization.yaml".toList] "base".toList ∧
    dot ∉ kustomizationDirsFromFiles
      ["base/a/kustomization.yaml".toList, "base/kustomization.yaml".toList] "base".toList ∧
    normalizeRepoRelativeDir [] = dot :=
  ⟨by decide, by decide,
    kustomizationDirs_base_is_empty_string
      ["base/a/kustomization.yaml".toList, "base/kustomization.yaml".toList] "base".toList
      "base/kustomization.yaml".toList (by decide) (by decide)⟩

/-! ## Exclusion scoping -/

theorem prunedAt_append (root : Str) (xb1 xb2 xr1 xr2 : List Str) (comps : List Str) :
    prunedAt root (xb1 ++ xb2) (xr1 ++ xr2) comps ↔
      prunedAt root xb1 xr1 comps ∨ prunedAt root xb2 xr2 comps := by
  unfold prunedAt
  simp only [List.mem_append]
  tauto

/-- Two exclusion sets together prune what either of them prunes. -/
theorem notPruned_append (root : Str) (xb1 xb2 xr1 xr2 : List Str) :
    ∀ (c pre : List Str),
      notPruned root (xb1 ++ xb2) (xr1 ++ xr2) pre c ↔
        notPruned root xb1 xr1 pre c ∧ notPruned root xb2 xr2 pre c
  | [], pre => by simp [notPruned]
  | n :: c, pre => by
    rw [notPruned_cons, notPruned_cons, notPruned_cons, prunedAt_append,
      notPruned_append root xb1 xb2 xr1 xr2 c (pre ++ [n])]
    tauto

theorem exclusions_git_and_name (e : Str) (he : isFileName (trimSpace e) = true)
    (hgit : trimSpace e ≠ ".git".toList) :
    [".git".toList, e].foldl exclusionStep ([], [])
      = ([] ++ [".git".toList], [trimSpace e] ++ [".git".toList]) := by
  obtain ⟨h1, _, h3, _⟩ := (isFileName_iff _).mp he
  obtain ⟨c1, c2, c3⟩ := fileName_clean _ he
  have hd : exclusionStep ([], []) ".git".toList = ([".git".toList], [".git".toList]) := by
    decide
  simp only [List.foldl_cons, List.foldl_nil, hd]
  simp only [exclusionStep]
  rw [if_neg h1, c1, c2, c3, if_neg hgit, if_pos ⟨h1, h3⟩]
  rfl

/-- C21: an exclusion that is a name other than `.git` (such as `kustomize-builds`)
prunes only the directory of that name directly below the scan root, the one whose
path relative to the root equals the exclusion.  Alone, or together with `.git` as
in the scanner tests, the scan returns exactly the descriptor files of the tree that
do not lie below that directory (and, with `.git`, not under a directory named
`.git`): the ones in a nested directory of the same name are returned, the ones
below the root-level directory are not. -/
theorem exclusion_prunes_only_at_root (root : Str) (tree : Node) (e : Str)
    (hroot : root ≠ []) (hv : validTree tree = true)
    (he : isFileName (trimSpace e) = true) (hgit : trimSpace e ≠ ".git".toList) :
    (∃ files, findKustomizationFilesWithExclusions root (some tree) [e] = some files ∧
      ∀ p, p ∈ files ↔ ∃ c, (c, false) ∈ treeEntries tree ∧ p = walkPath root c ∧
        basePath p ∈ descriptorNames ∧ ¬ ∃ rest, rest ≠ [] ∧ c = trimSpace e :: rest) ∧
    (∃ files, findKustomizationFilesWithExclusions root (some tree) [".git".toList, e]
        = some files ∧
      ∀ p, p ∈ files ↔ ∃ c, (c, false) ∈ treeEntries tree ∧ p = walkPath root c ∧
        basePath p ∈ descriptorNames ∧ (¬ ∃ rest, rest ≠ [] ∧ c = trimSpace e :: rest) ∧
        (c ≠ [] → basePath root ≠ ".git".toList) ∧ ".git".toList ∉ c.dropLast) := by
  have hs : ∀ c, (c, false) ∈ treeEntries tree →
      (notPruned root [] [trimSpace e] [] c ↔ ¬ ∃ rest, rest ≠ [] ∧ c = trimSpace e :: rest) :=
    fun c hc => notPruned_single root _ hroot he c (validTree_names tree hv c false hc)
  have hg : ∀ c, (c, false) ∈ treeEntries tree →
      (notPruned root [".git".toList] [".git".toList] [] c ↔
        (c ≠ [] → basePath root ≠ ".git".toList) ∧ ".git".toList ∉ c.dropLast) := by
    intro c hc
    rw [notPruned_default root hroot c [] (by simpa using validTree_names tree hv c false hc),
      prunedAt_root, List.mem_singleton]
  constructor
  · refine ⟨_, findKustomizationFilesWithExclusions_eq root (some tree) [e], ?_⟩
    intro p
    rw [(sortStrings_perm _).mem_iff, mem_collectedFiles, exclusions_single e he hgit]
    constructor
    · rintro ⟨c, hc, e1, hd, hn⟩
      exact ⟨c, hc, e1, hd, (hs c hc).mp hn⟩
    · rintro ⟨c, hc, e1, hd, hn⟩
      exact ⟨c, hc, e1, hd, (hs c hc).mpr hn⟩
  · refine ⟨_, findKustomizationFilesWithExclusions_eq root (some tree) [".git".toList, e], ?_⟩
    intro p
    rw [(sortStrings_perm _).mem_iff, mem_collectedFiles, exclusions_git_and_name e he hgit]
    constructor
    · rintro ⟨c, hc, e1, hd, hn⟩
      rw [notPruned_append] at hn
      exact ⟨c, hc, e1, hd, (hs c hc).mp hn.1, (hg c hc).mp hn.2⟩
    · rintro ⟨c, hc, e1, hd, hn1, hn2⟩
      refine ⟨c, hc, e1, hd, ?_⟩
      rw [notPruned_append]
      exact ⟨(hs c hc).mpr hn1, (hg c hc).mpr hn2⟩

theorem exclusion_prunes_only_at_root_witness :
    "/r".toList ≠ [] ∧ validTree exampleTree = true ∧
    isFileName (trimSpace "kustomize-builds".toList) = true ∧
    trimSpace "kustomize-builds".toList ≠ ".git".toList ∧
    findKustomizationFilesWithExclusions "/r".toList (some exampleTree)
        [".git".toList, "kustomize-builds".toList]
      = some ["/r/apps/kustomize-builds/kustomization.yaml".toList,
          "/r/apps/other/kustomization.yaml".toList] ∧
    (∃ files, findKustomizationFilesWithExclusions "/r".toList (some exampleTree)
        ["kustomize-builds".toList] = some files ∧
      ∀ p, p ∈ files ↔ ∃ c, (c, false) ∈ treeEntries exampleTree ∧
        p = walkPath "/r".toList c ∧ basePath p ∈ descriptorNames ∧
        ¬ ∃ rest, rest ≠ [] ∧ c = trimSpace "kustomize-builds".toList :: rest) ∧
    (∃ files, findKustomizationFilesWithExclusions "/r".toList (some exampleTree)
        [".git".toList, "kustomize-builds".toList] = some files ∧
      ∀ p, p ∈ files ↔ ∃ c, (c, false) ∈ treeEntries exampleTree ∧
        p = walkPath "/r".toList c ∧ basePath p ∈ descriptorNames ∧
        (¬ ∃ rest, rest ≠ [] ∧ c = trimSpace "kustomize-builds".toList :: rest) ∧
        (c ≠ [] → basePath "/r".toList ≠ ".git".toList) ∧ ".git".toList ∉ c.dropLast) :=
  ⟨by decide, by decide, by decide, by decide, by decide,
    exclusion_prunes_only_at_root "/r".toList exampleTree "kustomize-builds".toList
      (by decide) (by decide) (by decide) (by decide)⟩

/-! ## Selection over a list of changed files -/

/-- The result of `selectRootsForChangedFiles` is the filter of the normalized
roots, also when a list is empty. -/
theorem selectRoots_eq_filter (roots changedFiles : List Str) :
    selectRootsForChangedFiles roots changedFiles =
      (roots.map normalizeRepoRelativeDir).filter
        (fun root => decide (root ∈ selectedRoots roots changedFiles)) := by
  unfold selectRootsForChangedFiles
  split
  · rename_i h
    rcases h with h | h
    · have : roots = [] := List.length_eq_zero.mp h
      subst this
      rfl
    · have : changedFiles = [] := List.length_eq_zero.mp h
      subst this
      simp [selectedRoots]
  · rfl

theorem mem_selectedRoots_append (roots A B : List Str) (e : Str) :
    e ∈ selectedRoots roots (A ++ B) ↔
      e ∈ selectedRoots roots A ∨ e ∈ selectedRoots roots B := by
  simp only [mem_selectedRoots, List.mem_append]
  constructor
  · rintro ⟨f, hf | hf, h⟩
    · exact Or.inl ⟨f, hf, h⟩
    · exact Or.inr ⟨f, hf, h⟩
  · rintro (⟨f, hf, h⟩ | ⟨f, hf, h⟩)
    · exact ⟨f, Or.inl hf, h⟩
    · exact ⟨f, Or.inr hf, h⟩

/-- C31: selection distributes over the change list.  A string is in the result for
`A ++ B` exactly when it is in the result for `A` or in the result for `B`; the
result is the same list for two change lists with the same files, whatever their
order and repetitions; and the result for `A` is a sub-list of the result for
`A ++ B`. -/
theorem selectRoots_distributes (roots A B : List Str) :
    (∀ e, e ∈ selectRootsForChangedFiles roots (A ++ B) ↔
      e ∈ selectRootsForChangedFiles roots A ∨ e ∈ selectRootsForChangedFiles roots B) ∧
    (∀ C : List Str, (∀ f, f ∈ C ↔ f ∈ A) →
      selectRootsForChangedFiles roots C = selectRootsForChangedFiles roots A) ∧
    (selectRootsForChangedFiles roots A).Sublist
      (selectRootsForChangedFiles roots (A ++ B)) ∧
    (selectRootsForChangedFiles roots B).Sublist
      (selectRootsForChangedFiles roots (A ++ B)) := by
  refine ⟨?_, ?_, ?_, ?_⟩
  · intro e
    simp only [mem_selectRootsForChangedFiles, mem_selectedRoots_append]
    tauto
  · intro C hC
    rw [selectRoots_eq_filter, selectRoots_eq_filter]
    apply List.filter_congr
    intro x _
    have : x ∈ selectedRoots roots C ↔ x ∈ selectedRoots roots A := by
      simp only [mem_selectedRoots, hC]
    simp only [this]
  · rw [selectRoots_eq_filter, selectRoots_eq_filter]
    apply List.monotone_filter_right
    intro x hx
    have hx2 : x ∈ selectedRoots roots A := by simpa using hx
    simpa using (mem_selectedRoots_append roots A B x).mpr (Or.inl hx2)
  · rw [selectRoots_eq_filter, selectRoots_eq_filter]
    apply List.monotone_filter_right
    intro x hx
    have hx2 : x ∈ selectedRoots roots B := by simpa using hx
    simpa using (mem_selectedRoots_append roots A B x).mpr (Or.inr hx2)

/-! ## Distinct roots stay distinct -/

/-- The path `mapRootsToRepoRootRelative` writes for a normalized root determines
the root. -/
theorem mapped_root_injective (wd : Str) :
    Function.Injective (fun r : Str =>
      if r = dot then wd else if wd = dot then r else wd ++ ['/'] ++ r) := by
  intro a b h
  simp only at h
  by_cases hw : wd = dot
  · subst hw
    by_cases ha : a = dot
    · by_cases hb : b = dot
      · rw [ha, hb]
      · rw [if_pos ha, if_neg hb, if_pos rfl] at h
        exact absurd h.symm hb
    · by_cases hb : b = dot
      · rw [if_neg ha, if_pos rfl, if_pos hb] at h
        exact absurd h ha
      · rw [if_neg ha, if_pos rfl, if_neg hb, if_pos rfl] at h
        exact h
  · by_cases ha : a = dot
    · by_cases hb : b = dot
      · rw [ha, hb]
      · rw [if_pos ha, if_neg hb, if_neg hw] at h
        have := congrArg List.length h
        simp at this
    · by_cases hb : b = dot
      · rw [if_neg ha, if_neg hw, if_pos hb] at h
        have := congrArg List.length h
        simp at this
      · rw [if_neg ha, if_neg hw, if_neg hb, if_neg hw] at h
        exact List.append_cancel_left h

/-- C32: `mapRootsToRepoRootRelative` preserves distinctness.  When the normalized
forms of the roots are pairwise distinct, so are the returned paths, for every
working directory. -/
theorem mapRoots_nodup (workingDir : Str) (roots : List Str)
    (h : (roots.map normalizeRepoRelativeDir).Nodup) :
    (mapRootsToRepoRootRelative workingDir roots).Nodup := by
  rw [mapRootsToRepoRootRelative_eq_map]
  have hm := List.Nodup.map (mapped_root_injective (normalizeRepoRelativeDir workingDir)) h
  rw [List.map_map] at hm
  exact hm

theorem mapRoots_nodup_witness :
    (["".toList, "apps/a".toList, "./apps/b/".toList].map normalizeRepoRelativeDir).Nodup ∧
    (mapRootsToRepoRootRelative "deploy".toList
      ["".toList, "apps/a".toList, "./apps/b/".toList]).Nodup :=
  ⟨by decide, mapRoots_nodup "deploy".toList
    ["".toList, "apps/a".toList, "./apps/b/".toList] (by decide)⟩

/-! ## The two normalizers -/

/-- The strip of one leading `"/"` before the trim of all of them changes nothing. -/
theorem trim_trimPrefix_slash (s : Str) : trim (trimPrefix s ['/']) '/' = trim s '/' := by
  rw [trim_eq_rdropWhile_dropWhile, trim_eq_rdropWhile_dropWhile, dropWhile_trimPrefix_slash]

/-- C33: the two normalizers agree except on the sentinel.
`normalizeRepoRelativeDir(p)` is `"."` when `normalizeRepoRelativePath(p)` is `""`
or `"."`, and it is `normalizeRepoRelativePath(p)` otherwise; the strip of one
leading `"/"`, which only `normalizeRepoRelativePath` has, changes nothing before
the trim of the slashes. -/
theorem normalizers_agree (p : Str) :
    normalizeRepoRelativeDir p =
      (if normalizeRepoRelativePath p = [] ∨ normalizeRepoRelativePath p = dot then dot
       else normalizeRepoRelativePath p) ∧
    (∀ s : Str, trim (trimPrefix s ['/']) '/' = trim s '/') := by
  refine ⟨?_, trim_trimPrefix_slash⟩
  unfold normalizeRepoRelativeDir normalizeRepoRelativePath
  simp only [trim_trimPrefix_slash]
  by_cases h : trimSpace p = []
  · rw [if_pos h, h]
    decide
  · rw [if_neg h]

/-! ## The sentinel in `dedupeTopLevelDirs` -/

/-- Membership in the result of `dedupeTopLevelDirs`: the stripped input paths that
no stripped input path is a textual ancestor of. -/
theorem mem_dedupeTopLevelDirs (paths : List Str) (p : Str) :
    p ∈ dedupeTopLevelDirs paths ↔
      (∃ x ∈ paths, p = trimSuffix x ['/']) ∧
      ∀ q ∈ paths, ¬ (trimSuffix q ['/'] ++ ['/']) <+: p := by
  constructor
  · intro hp
    refine ⟨dedupeTopLevelDirs_mem_input paths p hp, ?_⟩
    intro q hq hpre
    obtain ⟨k, hk, hc⟩ := dedupeTopLevelDirs_covered paths q hq
    have hkp : (k ++ ['/']) <+: p := by
      rcases hc with e | e
      · rw [← e]
        exact hpre
      · obtain ⟨t1, ht1⟩ := e
        obtain ⟨t2, ht2⟩ := hpre
        refine ⟨t1 ++ ['/'] ++ t2, ?_⟩
        rw [← ht2, ← ht1]
        simp
    exact dedupeTopLevelDirs_not_nested paths k p hk hp hkp
  · rintro ⟨⟨x, hx, e⟩, hno⟩
    obtain ⟨k, hk, hc⟩ := dedupeTopLevelDirs_covered paths x hx
    rw [← e] at hc
    rcases hc with e1 | e1
    · rw [e1]
      exact hk
    · obtain ⟨y, hy, ey⟩ := dedupeTopLevelDirs_mem_input paths k hk
      rw [ey] at e1
      exact absurd e1 (hno y hy)

theorem trimSuffix_sentinel (s : Str) (hsent : s = [] ∨ s = dot) :
    trimSuffix s ['/'] = s := by
  rcases hsent with h | h <;> subst h <;> decide

theorem not_prefix_sentinel (s t : Str) (hsent : s = [] ∨ s = dot) :
    ¬ (t ++ ['/']) <+: s := by
  intro h
  have hl := h.length_le
  rcases hsent with e | e
  · subst e
    simp at hl
  · subst e
    simp only [List.length_append, List.length_singleton, dot] at hl
    have ht : t = [] := List.length_eq_zero.mp (by omega)
    subst ht
    revert h
    decide

/-- C19 (as stated, refuted): a list holding the current-directory root, written
`""` as `uniqueSorted` writes it or `"."`, keeps the roots next to it:
`["", "apps/a"]` and `[".", "apps/a"]` come back unchanged, so the result does not
hold the sentinel only. -/
theorem dedupe_sentinel_counterexample :
    dedupeTopLevelDirs ["".toList, "apps/a".toList] = ["".toList, "apps/a".toList] ∧
    dedupeTopLevelDirs [".".toList, "apps/a".toList] = [".".toList, "apps/a".toList] ∧
    ¬ (∀ (paths : List Str) (s : Str), (s = [] ∨ s = dot) → s ∈ paths →
        dedupeTopLevelDirs paths = [s]) := by
  refine ⟨by decide, by decide, ?_⟩
  intro h
  have := h ["".toList, "apps/a".toList] [] (Or.inl rfl) (by decide)
  revert this
  decide

/-- C19 (amended): `dedupeTopLevelDirs` treats the sentinel as any other string.
For an input list that holds the sentinel `s` (`""` or `"."`): the sentinel is
returned; a path that begins with `s + "/"` is not returned; every other path is
returned exactly when it is returned for the input without the sentinel; and no
returned root begins with another returned root followed by `"/"`. -/
theorem dedupe_sentinel_textual (paths : List Str) (s : Str)
    (hsent : s = [] ∨ s = dot) (hs : s ∈ paths) :
    s ∈ dedupeTopLevelDirs paths ∧
    (∀ p, hasPrefix p (s ++ ['/']) = true → p ∉ dedupeTopLevelDirs paths) ∧
    (∀ p, p ≠ s → hasPrefix p (s ++ ['/']) = false →
      (p ∈ dedupeTopLevelDirs paths ↔
        p ∈ dedupeTopLevelDirs (paths.filter (fun x => decide (x ≠ s))))) ∧
    (∀ a ∈ dedupeTopLevelDirs paths, ∀ b ∈ dedupeTopLevelDirs paths,
      hasPrefix b (a ++ ['/']) = false) := by
  have hts := trimSuffix_sentinel s hsent
  refine ⟨?_, ?_, ?_, ?_⟩
  · rw [mem_dedupeTopLevelDirs]
    exact ⟨⟨s, hs, hts.symm⟩, fun q _ => not_prefix_sentinel s _ hsent⟩
  · intro p hp hmem
    rw [mem_dedupeTopLevelDirs] at hmem
    apply hmem.2 s hs
    rw [hts]
    exact (hasPrefix_iff _ _).mp hp
  · intro p hps hp
    have hnp : ¬ (s ++ ['/']) <+: p := by
      intro h
      rw [(hasPrefix_iff _ _).mpr h] at hp
      exact absurd hp (by simp)
    rw [mem_dedupeTopLevelDirs, mem_dedupeTopLevelDirs]
    constructor
    · rintro ⟨⟨x, hx, e⟩, hno⟩
      refine ⟨⟨x, ?_, e⟩, fun q hq => hno q (List.mem_filter.mp hq).1⟩
      rw [List.mem_filter]
      refine ⟨hx, ?_⟩
      have : x ≠ s := by
        intro exs
        rw [exs, hts] at e
        exact hps e
      simpa using this
    · rintro ⟨⟨x, hx, e⟩, hno⟩
      refine ⟨⟨x, (List.mem_filter.mp hx).1, e⟩, ?_⟩
      intro q hq
      by_cases hqs : q = s
      · rw [hqs, hts]
        exact hnp
      · exact hno q (List.mem_filter.mpr ⟨hq, by simpa using hqs⟩)
  · intro a ha b hb
    apply Bool.eq_false_iff.mpr
    intro h
    exact dedupeTopLevelDirs_not_nested paths a b ha hb ((hasPrefix_iff _ _).mp h)

theorem dedupe_sentinel_textual_witness :
    (([] : Str) = [] ∨ ([] : Str) = dot) ∧
    ([] : Str) ∈ ["apps/a".toList, [], "/x".toList, "apps/a/b".toList] ∧
    dedupeTopLevelDirs ["apps/a".toList, [], "/x".toList, "apps/a/b".toList]
      = [[], "apps/a".toList] ∧
    ([] ∈ dedupeTopLevelDirs ["apps/a".toList, [], "/x".toList, "apps/a/b".toList] ∧
    (∀ p, hasPrefix p ([] ++ ['/']) = true →
      p ∉ dedupeTopLevelDirs ["apps/a".toList, [], "/x".toList, "apps/a/b".toList]) ∧
    (∀ p, p ≠ [] → hasPrefix p ([] ++ ['/']) = false →
      (p ∈ dedupeTopLevelDirs ["apps/a".toList, [], "/x".toList, "apps/a/b".toList] ↔
        p ∈ dedupeTopLevelDirs
          (["apps/a".toList, [], "/x".toList, "apps/a/b".toList].filter
            (fun x => decide (x ≠ []))))) ∧
    (∀ a ∈ dedupeTopLevelDirs ["apps/a".toList, [], "/x".toList, "apps/a/b".toList],
      ∀ b ∈ dedupeTopLevelDirs ["apps/a".toList, [], "/x".toList, "apps/a/b".toList],
      hasPrefix b (a ++ ['/']) = false)) :=
  ⟨Or.inl rfl, by decide, by decide,
    dedupe_sentinel_textual ["apps/a".toList, [], "/x".toList, "apps/a/b".toList] []
      (Or.inl rfl) (by decide)⟩

/-! ## The directory of an entry -/

theorem splitOn_append_slash (x : Str) :
    (x ++ ['/']).splitOn '/' = x.splitOn '/' ++ [[]] :=
  splitOn_append_sep x [] (by simp)

theorem cleanElems_append_slash (x : Str) (hx : x ≠ []) :
    cleanElems (x ++ ['/']) = cleanElems x := by
  unfold cleanElems
  rw [isRooted_append x _ hx, splitOn_append_slash, List.foldl_append]
  simp [cleanStep]

theorem cleanPath_append_slash (x : Str) (hx : x ≠ []) :
    cleanPath (x ++ ['/']) = cleanPath x := by
  rw [cleanPath_of_ne_nil _ (by simp), cleanPath_of_ne_nil _ hx,
    cleanElems_append_slash x hx, isRooted_append x _ hx]

/-- Dropping the last element of a path: what stands before the name, with its
slash. -/
theorem rdropWhile_append_name (x n : Str) (hn : '/' ∉ n) :
    (x ++ '/' :: n).rdropWhile (· != '/') = x ++ ['/'] := by
  induction n using List.reverseRecOn with
  | nil =>
    exact List.rdropWhile_concat_neg _ _ _ (by simp)
  | append_singleton m a ih =>
    have ha : a ≠ '/' := fun e => hn (by simp [e])
    have hm : '/' ∉ m := fun h => hn (by simp [h])
    have e : x ++ '/' :: (m ++ [a]) = (x ++ '/' :: m) ++ [a] := by simp
    rw [e, List.rdropWhile_concat_pos _ _ _ (by simpa using ha)]
    exact ih hm

theorem rdropWhile_name (n : Str) (hn : '/' ∉ n) : n.rdropWhile (· != '/') = [] := by
  rw [List.rdropWhile_eq_nil_iff]
  intro c hc
  have : c ≠ '/' := fun e => hn (e ▸ hc)
  simpa using this

/-- `filepath.Dir` of a rendered canonical path drops its last element. -/
theorem dirPath_renderPath_snoc (r : Bool) (l : List Str) (n : Str)
    (hl : canonStack r l.reverse) (hn : isFileName n = true) :
    dirPath (renderPath r (l ++ [n])) = renderPath r l := by
  obtain ⟨n1, n2, _, _⟩ := (isFileName_iff n).mp hn
  unfold dirPath
  by_cases hc : l = []
  · subst hc
    cases r with
    | true =>
      have e : renderPath true ([] ++ [n]) = [] ++ '/' :: n := by
        unfold renderPath
        simp [intercalate_singleton]
      rw [e, rdropWhile_append_name [] n n2]
      decide
    | false =>
      have e : renderPath false ([] ++ [n]) = n := by
        unfold renderPath
        simp only [List.nil_append, intercalate_singleton, Bool.false_eq_true, if_false]
        rw [if_neg n1]
      rw [e, rdropWhile_name n n2]
      decide
  · have hx : renderPath r l = (if r = true then ['/'] else []) ++ ['/'].intercalate l := by
      obtain ⟨a, s, hi, _⟩ := intercalate_canon_head r l hl hc
      unfold renderPath
      simp only
      rw [if_neg (by rw [hi]; cases r <;> simp)]
    have e : renderPath r (l ++ [n]) = renderPath r l ++ '/' :: n := by
      rw [hx]
      unfold renderPath
      simp only
      rw [intercalate_snoc l n hc, if_neg (by cases r <;> simp), List.append_assoc]
    rw [e, rdropWhile_append_name _ n n2, cleanPath_append_slash _ (renderPath_ne_nil r l),
      cleanPath_renderPath r l hl]

/-- The directory of the entry reached through `cs` and then `n`, relative to the
base: the names `cs` joined by slashes, the empty string for the base itself. -/
theorem relDir_dirPath_walkPath (base : Str) (cs : List Str) (n : Str) (hbase : base ≠ [])
    (hns : ∀ m ∈ cs ++ [n], isFileName m = true) :
    relDir base (dirPath (walkPath base (cs ++ [n]))) = ['/'].intercalate cs := by
  have hcs : ∀ m ∈ cs, isFileName m = true := fun m hm => hns m (List.mem_append_left _ hm)
  have hn : isFileName n = true := hns n (by simp)
  have hcanon := canon_append_fileNames (isRooted base) (cleanElems base) cs
    (canonStack_cleanElems base) hcs
  rw [walkPath_eq_render base (cs ++ [n]) hbase hns (by simp), ← List.append_assoc,
    dirPath_renderPath_snoc _ _ n hcanon hn]
  by_cases hc : cs = []
  · subst hc
    rw [List.append_nil, ← cleanPath_of_ne_nil base hbase, relDir_of_clean_base]
    rfl
  · rw [← walkPath_eq_render base cs hbase hcs hc, relDir_walkPath base cs hbase hcs hc]

/-! ## The derived directory list -/

theorem relDir_ne_dot (base dir : Str) : relDir base dir ≠ dot := by
  unfold relDir
  simp only
  split
  · decide
  · rename_i h
    exact h

theorem mem_kustomizationDirsFromFiles (files : List Str) (base d : Str) :
    d ∈ kustomizationDirsFromFiles files base ↔ ∃ f ∈ files, d = relDir base (dirPath f) := by
  rw [kustomizationDirsFromFiles_eq, mem_uniqueSorted]
  constructor
  · rintro ⟨x, hx, e⟩
    obtain ⟨f, hf, rfl⟩ := List.mem_map.mp hx
    rw [if_neg (relDir_ne_dot _ _)] at e
    exact ⟨f, hf, e⟩
  · rintro ⟨f, hf, e⟩
    exact ⟨relDir base (dirPath f), List.mem_map.mpr ⟨f, hf, rfl⟩,
      by rw [if_neg (relDir_ne_dot _ _)]; exact e⟩

/-- C27: `uniqueSorted` returns a strictly ascending list, in which a string other
than `""` and `"."` occurs exactly when it occurs in the input (`""` occurs when
`""` or `"."` is in the input, `"."` never).  So `kustomizationDirsFromFiles`
returns each directory once, in lexical order: the result is strictly ascending, it
holds exactly the directories of the files relative to the base, each of them once;
for the file reached from the base through the directories `cs`, that directory is
the names `cs` joined by slashes. -/
theorem uniqueSorted_spec (input : List Str) :
    (uniqueSorted input).Sorted (· < ·) ∧
    (∀ s : Str, s ≠ [] → s ≠ dot → (s ∈ uniqueSorted input ↔ s ∈ input)) ∧
    (([] : Str) ∈ uniqueSorted input ↔ [] ∈ input ∨ dot ∈ input) ∧
    dot ∉ uniqueSorted input ∧
    (∀ (files : List Str) (base : Str),
      (kustomizationDirsFromFiles files base).Sorted (· < ·) ∧
      (kustomizationDirsFromFiles files base).Nodup ∧
      (∀ d, d ∈ kustomizationDirsFromFiles files base ↔
        ∃ f ∈ files, d = relDir base (dirPath f)) ∧
      (∀ f ∈ files, ∃ l1 l2,
        kustomizationDirsFromFiles files base = l1 ++ relDir base (dirPath f) :: l2 ∧
        relDir base (dirPath f) ∉ l1 ∧ relDir base (dirPath f) ∉ l2) ∧
      (∀ (cs : List Str) (n : Str), base ≠ [] → (∀ m ∈ cs ++ [n], isFileName m = true) →
        walkPath base (cs ++ [n]) ∈ files →
        ['/'].intercalate cs ∈ kustomizationDirsFromFiles files base)) ∧
    kustomizationDirsFromFiles
      ["base/a/kustomization.yaml".toList, "base/kustomization.yaml".toList,
        "base/a/b/kustomization.yml".toList, "base/a/kustomization.yml".toList]
      "base".toList = ["".toList, "a".toList, "a/b".toList] := by
  refine ⟨uniqueSorted_strictly_sorted input, ?_, ?_, ?_, ?_, by decide⟩
  · intro s h1 h2
    rw [mem_uniqueSorted]
    constructor
    · rintro ⟨x, hx, e⟩
      by_cases hd : x = dot
      · rw [if_pos hd] at e
        exact absurd e h1
      · rw [if_neg hd] at e
        exact e ▸ hx
    · intro hs
      exact ⟨s, hs, by rw [if_neg h2]⟩
  · rw [mem_uniqueSorted]
    constructor
    · rintro ⟨x, hx, e⟩
      by_cases hd : x = dot
      · exact Or.inr (hd ▸ hx)
      · rw [if_neg hd] at e
        exact Or.inl (e ▸ hx)
    · rintro (h | h)
      · exact ⟨[], h, by decide⟩
      · exact ⟨dot, h, by decide⟩
  · rw [mem_uniqueSorted]
    rintro ⟨x, _, e⟩
    by_cases hd : x = dot
    · rw [if_pos hd] at e
      exact absurd e (by decide)
    · rw [if_neg hd] at e
      exact hd e.symm
  · intro files base
    have hsorted : (kustomizationDirsFromFiles files base).Sorted (· < ·) := by
      rw [kustomizationDirsFromFiles_eq]
      exact uniqueSorted_strictly_sorted _
    have hnodup := hsorted.nodup
    refine ⟨hsorted, hnodup, mem_kustomizationDirsFromFiles files base, ?_, ?_⟩
    · intro f hf
      have hmem : relDir base (dirPath f) ∈ kustomizationDirsFromFiles files base :=
        (mem_kustomizationDirsFromFiles files base _).mpr ⟨f, hf, rfl⟩
      obtain ⟨l1, l2, e⟩ := List.append_of_mem hmem
      refine ⟨l1, l2, e, ?_⟩
      rw [e, List.nodup_middle, List.nodup_cons, List.mem_append, not_or] at hnodup
      exact hnodup.1
    · intro cs n hbase hns hmem
      rw [mem_kustomizationDirsFromFiles]
      exact ⟨_, hmem, (relDir_dirPath_walkPath base cs n hbase hns).symm⟩

end Kustomize
